import Mathlib

/-!
The indexed binary heap `priority_map`.

A shallow embedding of `priority_map.h`: a binary max-heap stored in a vector
(`m_priQueue`) together with a hash map from keys to heap positions
(`m_hashMap`), and the operations that keep the two synchronised.

Modelling conventions.

* `int` is `Int` (the sizes involved are assumed to stay far below `2^31`, so no
  wrap-around is modelled); C++ `/` and `%` on `int` are `Int.tdiv` and `Int.tmod`.
* `std::vector<shared_ptr<value_type>>` is a `List (queue_node K V)`; every node
  is owned by exactly one slot outside the percolation loops, so value semantics
  agree with the pointer semantics of the source.
* `boost::unordered_map<KeyType,int>` is an association list with the usual
  `find` / `insert` / `operator[]` / `erase` operations; key hashing and key
  equality are Lean equality on `K`.
* An out-of-range `operator[]` on the vector is undefined behaviour in C++; the
  embedding returns `none` there, so every operation is `Option`-valued.
* The two percolation loops carry a fuel argument, initialised with the length
  of the vector; the theorems show that this fuel is never exhausted.
-/

namespace PriorityMap

/-! ## Data model -/

/-- Array node of the heap: `first` is the key, `second` the value. -/
structure queue_node (K V : Type) where
  first : K
  second : V
deriving DecidableEq

/-- The type `boost::unordered_map<KeyType,int>`, as an association list. A lookup
returns the first entry with the key; the operations below never add a key twice. -/
abbrev HashMapType (K : Type) := List (K × Int)

/-- The class `priority_map`: the heap vector and the key-to-position map. -/
structure priority_map (K V : Type) where
  m_priQueue : List (queue_node K V)
  m_hashMap : HashMapType K
deriving DecidableEq

section HashMap

variable {K : Type} [DecidableEq K]

/-- Lookup `m.find(k)`: the stored position, or `none` for `m.end()`. -/
def hm_find : HashMapType K → K → Option Int
  | [], _ => none
  | (k0, i) :: m, k => if k0 = k then some i else hm_find m k

/-- Insertion `m.insert(value_type(k, i))`: inserts only when `k` is absent; the
Boolean is the `second` component of the returned pair. -/
def hm_insert (m : HashMapType K) (k : K) (i : Int) : HashMapType K × Bool :=
  match hm_find m k with
  | some _ => (m, false)
  | none => ((k, i) :: m, true)

/-- Assignment `m[k] = i`: overwrites the position of `k`, inserting `k` when absent. -/
def hm_assign : HashMapType K → K → Int → HashMapType K
  | [], k, i => [(k, i)]
  | (k0, j) :: m, k, i => if k0 = k then (k0, i) :: m else (k0, j) :: hm_assign m k i

/-- Removal `m.erase(it)` of the entry whose key is `k`. -/
def hm_erase : HashMapType K → K → HashMapType K
  | [], _ => []
  | (k0, j) :: m, k => if k0 = k then hm_erase m k else (k0, j) :: hm_erase m k

end HashMap

section Vector

variable {α : Type}

/-- Read `v[i]` of a vector with an `int` subscript; `none` when out of range. -/
def vec_at (q : List α) (i : Int) : Option α :=
  if 0 ≤ i then q[i.toNat]? else none

/-- Write `v[i] = x` of a vector with an `int` subscript; `none` when out of range. -/
def vec_set (q : List α) (i : Int) (x : α) : Option (List α) :=
  if 0 ≤ i ∧ i.toNat < q.length then some (q.set i.toNat x) else none

end Vector

/-! ## Index arithmetic -/

/-- Source: `_LeftChild(n) = 2*n + 1`. -/
def _LeftChild (n : Int) : Int :=
  2 * n + 1

/-- Source: `_Father(n)`, `-1` for the root and
`(n%2==0 ? n/2 : (n+1)/2) - 1` otherwise. -/
def _Father (n : Int) : Int :=
  if n = 0 then -1
  else (if n.tmod 2 = 0 then n.tdiv 2 else (n + 1).tdiv 2) - 1

/-! ## Operations -/

section Ops

variable {K V : Type} [DecidableEq K]

/-- The loop of `_PercDown`: `tmp` is the node being sifted, `i` the current hole.
Returns the state and the position at which the loop stopped. -/
def _PercDown_loop (comp : V → V → Bool) (tmp : queue_node K V) :
    Nat → priority_map K V → Int → Option (priority_map K V × Int)
  | 0, _, _ => none
  | fuel + 1, s, i =>
    if _LeftChild i < (s.m_priQueue.length : Int) then do
      let child0 := _LeftChild i
      let child ←
        if child0 ≠ (s.m_priQueue.length : Int) - 1 then do
          let c0 ← vec_at s.m_priQueue child0
          let c1 ← vec_at s.m_priQueue (child0 + 1)
          pure (if comp c0.second c1.second then child0 + 1 else child0)
        else pure child0
      let c ← vec_at s.m_priQueue child
      if comp tmp.second c.second then do
        let q ← vec_set s.m_priQueue i c
        let e ← vec_at q i
        _PercDown_loop comp tmp fuel ⟨q, hm_assign s.m_hashMap e.first i⟩ child
      else some (s, i)
    else some (s, i)

/-- Source: `_PercDown(i)`, percolate the `i`-th element down. -/
def _PercDown (comp : V → V → Bool) (s : priority_map K V) (i : Int) :
    Option (priority_map K V) := do
  let tmp ← vec_at s.m_priQueue i
  let r ← _PercDown_loop comp tmp s.m_priQueue.length s i
  let q ← vec_set r.1.m_priQueue r.2 tmp
  let e ← vec_at q r.2
  some ⟨q, hm_assign r.1.m_hashMap e.first r.2⟩

/-- The loop of `_PercUp`: `tmp` is the node being sifted, `i` the current hole. -/
def _PercUp_loop (comp : V → V → Bool) (tmp : queue_node K V) :
    Nat → priority_map K V → Int → Option (priority_map K V × Int)
  | 0, _, _ => none
  | fuel + 1, s, i =>
    if _Father i ≥ 0 then do
      let f ← vec_at s.m_priQueue (_Father i)
      if comp f.second tmp.second then do
        let q ← vec_set s.m_priQueue i f
        let e ← vec_at q i
        _PercUp_loop comp tmp fuel ⟨q, hm_assign s.m_hashMap e.first i⟩ (_Father i)
      else some (s, i)
    else some (s, i)

/-- Source: `_PercUp(i)`, percolate the `i`-th element up. -/
def _PercUp (comp : V → V → Bool) (s : priority_map K V) (i : Int) :
    Option (priority_map K V) := do
  let tmp ← vec_at s.m_priQueue i
  let r ← _PercUp_loop comp tmp s.m_priQueue.length s i
  let q ← vec_set r.1.m_priQueue r.2 tmp
  let e ← vec_at q r.2
  some ⟨q, hm_assign r.1.m_hashMap e.first r.2⟩

/-- The body of the loop of `_BuildHeap` run for `i = n-1, n-2, ..., 0`. -/
def _BuildHeap_from (comp : V → V → Bool) : Nat → priority_map K V → Option (priority_map K V)
  | 0, s => some s
  | n + 1, s => do
    let s1 ← _PercDown comp s (n : Int)
    _BuildHeap_from comp n s1

/-- Source: `_BuildHeap()`, `for (i = _Father(size-1); i >= 0; --i) _PercDown(i)`. -/
def _BuildHeap (comp : V → V → Bool) (s : priority_map K V) : Option (priority_map K V) :=
  _BuildHeap_from comp (_Father ((s.m_priQueue.length : Int) - 1) + 1).toNat s

/-- The default constructor: both containers empty. -/
def empty_map : priority_map K V :=
  ⟨[], []⟩

/-- The insertion loop shared by the container and the range constructor: `index`
counts the input elements, and an element is appended when its key is new. -/
def construct_loop : List (K × V) → Int → priority_map K V → priority_map K V
  | [], _, s => s
  | (k, v) :: rest, index, s =>
    match hm_insert s.m_hashMap k index with
    | (h, true) => construct_loop rest (index + 1) ⟨s.m_priQueue ++ [⟨k, v⟩], h⟩
    | (_, false) => construct_loop rest (index + 1) s

/-- Source: `priority_map(Container const&)` and `priority_map(Iter, Iter)`. -/
def construct (comp : V → V → Bool) (cont : List (K × V)) : Option (priority_map K V) :=
  _BuildHeap comp (construct_loop cont 0 empty_map)

/-- Source: `top()`, the node at position `0`. -/
def top (s : priority_map K V) : Option (queue_node K V) :=
  vec_at s.m_priQueue 0

/-- Source: `size()`, the number of keys of the hash map. -/
def size (s : priority_map K V) : Nat :=
  s.m_hashMap.length

/-- Source: `empty()`, whether the hash map is empty. -/
def empty (s : priority_map K V) : Bool :=
  s.m_hashMap.isEmpty

/-- Source: `clear()`. -/
def clear (_s : priority_map K V) : priority_map K V :=
  ⟨[], []⟩

/-- Source: `end()`, as an offset from `begin()`. -/
def end_ (s : priority_map K V) : Int :=
  (s.m_priQueue.length : Int)

/-- Source: `find(key)`; an iterator is its offset from `begin()`. -/
def find (s : priority_map K V) (key : K) : Int :=
  match hm_find s.m_hashMap key with
  | some i => i
  | none => end_ s

/-- Dereferencing the iterator at offset `it`. -/
def deref (s : priority_map K V) (it : Int) : Option (queue_node K V) :=
  vec_at s.m_priQueue it

/-- Source: `insert(key, val)`; the Boolean tells whether the key was inserted. -/
def insert (comp : V → V → Bool) (s : priority_map K V) (key : K) (val : V) :
    Option (priority_map K V × Bool) :=
  match hm_insert s.m_hashMap key (s.m_priQueue.length : Int) with
  | (h, true) => do
    let s1 : priority_map K V := ⟨s.m_priQueue ++ [⟨key, val⟩], h⟩
    let s2 ← _PercUp comp s1 ((s1.m_priQueue.length : Int) - 1)
    some (s2, true)
  | (_, false) => some (s, false)

/-- The assignment `m_priQueue[i]->second = val`. -/
def set_second (q : List (queue_node K V)) (i : Int) (val : V) :
    Option (List (queue_node K V)) := do
  let e ← vec_at q i
  vec_set q i ⟨e.first, val⟩

/-- Source: `replace(key, val)`; the Boolean tells whether the key was present. -/
def replace (comp : V → V → Bool) (s : priority_map K V) (key : K) (val : V) :
    Option (priority_map K V × Bool) :=
  match hm_find s.m_hashMap key with
  | none => some (s, false)
  | some i => do
    let e ← vec_at s.m_priQueue i
    if comp val e.second then do
      let q ← set_second s.m_priQueue i val
      let s1 ← _PercDown comp ⟨q, s.m_hashMap⟩ i
      some (s1, true)
    else do
      let q ← set_second s.m_priQueue i val
      let s1 ← _PercUp comp ⟨q, s.m_hashMap⟩ i
      some (s1, true)

/-- Source: `update(key, val)` (also `push`): replace if present, else insert. -/
def update (comp : V → V → Bool) (s : priority_map K V) (key : K) (val : V) :
    Option (priority_map K V) :=
  match hm_find s.m_hashMap key with
  | some i => do
    let e ← vec_at s.m_priQueue i
    if comp val e.second then do
      let q ← set_second s.m_priQueue i val
      _PercDown comp ⟨q, s.m_hashMap⟩ i
    else do
      let q ← set_second s.m_priQueue i val
      _PercUp comp ⟨q, s.m_hashMap⟩ i
  | none =>
    match hm_insert s.m_hashMap key (s.m_priQueue.length : Int) with
    | (h, true) =>
      let s1 : priority_map K V := ⟨s.m_priQueue ++ [⟨key, val⟩], h⟩
      _PercUp comp s1 ((s1.m_priQueue.length : Int) - 1)
    | (_, false) => some s

/-- Source: `push(key, val)`, equal to `update`. -/
def push (comp : V → V → Bool) (s : priority_map K V) (key : K) (val : V) :
    Option (priority_map K V) :=
  update comp s key val

/-- Source: `erase(key)`. -/
def erase (comp : V → V → Bool) (s : priority_map K V) (key : K) :
    Option (priority_map K V) :=
  match hm_find s.m_hashMap key with
  | none => some s
  | some idx =>
    if idx = (s.m_priQueue.length : Int) - 1 then
      some ⟨s.m_priQueue.dropLast, hm_erase s.m_hashMap key⟩
    else do
      let h1 := hm_erase s.m_hashMap key
      let old ← vec_at s.m_priQueue idx
      let val := old.second
      let last_node ← vec_at s.m_priQueue ((s.m_priQueue.length : Int) - 1)
      let h2 := hm_assign h1 last_node.first idx
      let q1 ← vec_set s.m_priQueue idx last_node
      let s1 : priority_map K V := ⟨q1.dropLast, h2⟩
      if comp val last_node.second then _PercUp comp s1 idx
      else _PercDown comp s1 idx

/-- Source: `pop()`. -/
def pop (comp : V → V → Bool) (s : priority_map K V) : Option (priority_map K V) :=
  if s.m_priQueue.isEmpty then some s
  else if s.m_priQueue.length = 1 then some (clear s)
  else do
    let t ← vec_at s.m_priQueue 0
    erase comp s t.first

end Ops


section Predicates
variable {K V : Type}

/-- A strict weak ordering in the sense of the C++ standard: irreflexive, transitive,
and with a transitive incomparability relation. -/
structure StrictWeakOrder (comp : V → V → Bool) : Prop where
  irrefl : ∀ a, comp a a = false
  trans : ∀ a b c, comp a b = true → comp b c = true → comp a c = true
  incomp_trans : ∀ a b c, comp a b = false → comp b a = false →
    comp b c = false → comp c b = false → comp a c = false ∧ comp c a = false

/-- The node at position `a` is smaller than the node at position `b`. -/
def LtAt (comp : V → V → Bool) (q : List (queue_node K V)) (a b : Nat) : Prop :=
  ∃ x y, q[a]? = some x ∧ q[b]? = some y ∧ comp x.second y.second = true

/-- Heap order: for every position `i > 0` with parent `_Father(i)`, the comparator
does not put the parent's value below the value at `i`. -/
def HeapOrder (comp : V → V → Bool) (q : List (queue_node K V)) : Prop :=
  ∀ (i : Nat) (x y : queue_node K V), 0 < i → q[i]? = some x →
    vec_at q (_Father (i : Int)) = some y → comp y.second x.second = false

/-- Heap order restricted to the pairs whose parent position is at least `lo`. -/
def HeapFrom (comp : V → V → Bool) (lo : Nat) (q : List (queue_node K V)) : Prop :=
  ∀ j, lo ≤ j / 2 → ¬ LtAt comp q (j / 2) (j + 1)

/-- Heap order (from `lo`) everywhere except between `i` and its children, where
instead the parent of `i` dominates the children of `i`. -/
def DownInv (comp : V → V → Bool) (lo : Nat) (q : List (queue_node K V)) (i : Nat) : Prop :=
  (∀ j, lo ≤ j / 2 → j / 2 ≠ i → ¬ LtAt comp q (j / 2) (j + 1)) ∧
  (∀ j c, j + 1 = i → lo ≤ j / 2 → (c = 2 * i + 1 ∨ c = 2 * i + 2) → ¬ LtAt comp q (j / 2) c)

/-- Heap order everywhere except between `i` and its parent, where instead the
parent of `i` dominates the children of `i`. -/
def UpInv (comp : V → V → Bool) (q : List (queue_node K V)) (i : Nat) : Prop :=
  (∀ j, j + 1 ≠ i → ¬ LtAt comp q (j / 2) (j + 1)) ∧
  (∀ j c, j + 1 = i → (c = 2 * i + 1 ∨ c = 2 * i + 2) → ¬ LtAt comp q (j / 2) c)

/-- The position `c` is the child of `i` that `_PercDown` compares with the sifted
node: the right child when it exists and the left child is smaller, else the left. -/
def SelectedChild (comp : V → V → Bool) (q : List (queue_node K V)) (i c : Nat) : Prop :=
  (c = 2 * i + 1 ∧ ∀ a b, q[2 * i + 1]? = some a → q[2 * i + 2]? = some b →
      comp a.second b.second = false) ∨
  (c = 2 * i + 2 ∧ ∃ a b, q[2 * i + 1]? = some a ∧ q[2 * i + 2]? = some b ∧
      comp a.second b.second = true)

end Predicates

section Predicates2
variable {K V : Type} [DecidableEq K]

/-- Index bijection: every key of the index points at a position holding that key,
and the key stored at every position is mapped to that position. -/
def IndexBijection (s : priority_map K V) : Prop :=
  (∀ k i, hm_find s.m_hashMap k = some i →
    ∃ x, vec_at s.m_priQueue i = some x ∧ x.first = k) ∧
  (∀ (n : Nat) (x : queue_node K V), s.m_priQueue[n]? = some x →
    hm_find s.m_hashMap x.first = some (n : Int))

/-- The state a percolation loop stands for: the sifted node `tmp` put back into
the hole at position `i` and registered there. -/
def fill_hole (tmp : queue_node K V) (s : priority_map K V) (i : Nat) : priority_map K V :=
  ⟨s.m_priQueue.set i tmp, hm_assign s.m_hashMap tmp.first (i : Int)⟩

end Predicates2

section Checkers
variable {K V : Type} [DecidableEq K]

/-- Executable check of heap order: every pair (parent, child) is in order. -/
def heap_ok (comp : V → V → Bool) (q : List (queue_node K V)) : Bool :=
  (List.range q.length).all fun j =>
    match q[j / 2]?, q[j + 1]? with
    | some u, some v => !comp u.second v.second
    | _, _ => true

/-- Executable check of the index bijection. -/
def bij_ok (s : priority_map K V) : Bool :=
  (s.m_hashMap.all fun p =>
    match vec_at s.m_priQueue p.2 with
    | some x => decide (x.first = p.1)
    | none => false) &&
  ((List.range s.m_priQueue.length).all fun n =>
    match s.m_priQueue[n]? with
    | some x => decide (hm_find s.m_hashMap x.first = some (n : Int))
    | none => true)

/-- The default comparator `std::less` on integer values. -/
def less_int (a b : Int) : Bool :=
  decide (a < b)

/-- Record `top().second` and then call `pop()`, `n` times in a row. -/
def pop_all (comp : V → V → Bool) : Nat → priority_map K V → Option (List V × priority_map K V)
  | 0, s => some ([], s)
  | n + 1, s => do
    let t ← top s
    let s1 ← pop comp s
    let r ← pop_all comp n s1
    some (t.second :: r.1, r.2)

/-- A well-formed state with the entries `(c,9)`, `(b,1)`, `(a,5)`. -/
def sample_state : priority_map String Int :=
  ⟨[⟨"c", 9⟩, ⟨"b", 1⟩, ⟨"a", 5⟩], [("c", 0), ("b", 1), ("a", 2)]⟩

end Checkers


section CopyAndReference
variable {K V : Type} [DecidableEq K]

/-- Size consistency: `size()`, the number of keys of the index, equals the length of
the heap store. -/
def SizeConsistent (s : priority_map K V) : Prop :=
  size s = s.m_priQueue.length

/-- Source: `_Copy(rhs, bool2type<UseRef>())`, run on the object `this`. With
`UseRef = true` the nodes of `rhs` are inserted again in array order and `_BuildHeap`
is run; with `UseRef = false` both containers are assigned from `rhs` (the copied
vector then shares its nodes with `rhs`; the embedding gives the state right after the
copy). The copy constructor and `operator=` call `_Copy` on an empty `this`. -/
def _Copy (comp : V → V → Bool) (UseRef : Bool) (this rhs : priority_map K V) :
    Option (priority_map K V) :=
  if UseRef then
    _BuildHeap comp
      (construct_loop (rhs.m_priQueue.map fun e => (e.first, e.second)) 0 this)
  else some rhs

/-- The reference procedure for `erase`, following the words of the specification: no-op
for an absent key; a key at the last position is simply removed; otherwise the key is
removed from the index, the last node is moved into the vacated position and registered
there, the store shrinks by one, and the moved node is sifted down when the comparator
puts its value below the removed value, and sifted up otherwise (ties included). -/
def erase_reference (comp : V → V → Bool) (s : priority_map K V) (key : K) :
    Option (priority_map K V) :=
  match hm_find s.m_hashMap key with
  | none => some s
  | some idx =>
    if idx = (s.m_priQueue.length : Int) - 1 then
      some ⟨s.m_priQueue.dropLast, hm_erase s.m_hashMap key⟩
    else do
      let removed ← vec_at s.m_priQueue idx
      let moved ← vec_at s.m_priQueue ((s.m_priQueue.length : Int) - 1)
      let q1 ← vec_set s.m_priQueue idx moved
      let s1 : priority_map K V :=
        ⟨q1.dropLast, hm_assign (hm_erase s.m_hashMap key) moved.first idx⟩
      if comp moved.second removed.second then _PercDown comp s1 idx
      else _PercUp comp s1 idx

/-- A heap in which removing the root relocates a node of equal value: `erase` sifts down
where the reference procedure sifts up, with the same result. -/
def tie_state : priority_map String Int :=
  ⟨[⟨"a", 5⟩, ⟨"b", 5⟩, ⟨"c", 5⟩], [("a", 0), ("b", 1), ("c", 2)]⟩

end CopyAndReference

/-! ## Basic facts about the containers -/

section Basic

variable {K V : Type} [DecidableEq K]

theorem hm_find_assign (m : HashMapType K) (k : K) (i : Int) (k1 : K) :
    hm_find (hm_assign m k i) k1 = if k = k1 then some i else hm_find m k1 := by
  induction m with
  | nil => simp [hm_assign, hm_find]
  | cons p m ih =>
    obtain ⟨k0, j⟩ := p
    by_cases h0 : k0 = k
    · subst h0
      by_cases h1 : k0 = k1 <;> simp [hm_assign, hm_find, h1]
    · by_cases h1 : k0 = k1
      · subst h1
        have : ¬ k = k0 := fun h => h0 h.symm
        simp [hm_assign, hm_find, h0, this]
      · simp [hm_assign, hm_find, h0, h1, ih]

theorem hm_find_erase (m : HashMapType K) (k k1 : K) :
    hm_find (hm_erase m k) k1 = if k = k1 then none else hm_find m k1 := by
  induction m with
  | nil => simp [hm_erase, hm_find]
  | cons p m ih =>
    obtain ⟨k0, j⟩ := p
    by_cases h0 : k0 = k
    · subst h0
      simp only [hm_erase, if_true]
      rw [ih]
      by_cases h1 : k0 = k1 <;> simp [hm_find, h1]
    · by_cases h1 : k0 = k1
      · subst h1
        have : ¬ k = k0 := fun h => h0 h.symm
        simp [hm_erase, hm_find, h0, this]
      · simp [hm_erase, hm_find, h0, h1, ih]

theorem hm_assign_keys (m : HashMapType K) (k : K) (i : Int)
    (h : hm_find m k ≠ none) :
    (hm_assign m k i).map Prod.fst = m.map Prod.fst := by
  induction m with
  | nil => simp [hm_find] at h
  | cons p m ih =>
    obtain ⟨k0, j⟩ := p
    by_cases h0 : k0 = k
    · simp [hm_assign, h0]
    · simp [hm_find, h0] at h
      simp [hm_assign, h0, ih h]

theorem hm_find_ne_none_iff (m : HashMapType K) (k : K) :
    hm_find m k ≠ none ↔ k ∈ m.map Prod.fst := by
  induction m with
  | nil => simp [hm_find]
  | cons p m ih =>
    obtain ⟨k0, j⟩ := p
    by_cases h0 : k0 = k
    · simp [hm_find, h0]
    · have : ¬ k = k0 := fun h => h0 h.symm
      simp [hm_find, h0, this, ih]

theorem vec_at_nat {α : Type} (q : List α) (n : Nat) : vec_at q (n : Int) = q[n]? := by
  simp [vec_at]

theorem vec_set_nat {α : Type} (q : List α) (n : Nat) (x : α) (h : n < q.length) :
    vec_set q (n : Int) x = some (q.set n x) := by
  simp [vec_set, h]

theorem _LeftChild_nat (n : Nat) : _LeftChild (n : Int) = ((2 * n + 1 : Nat) : Int) := by
  simp [_LeftChild]

theorem _Father_zero : _Father 0 = -1 := by
  simp [_Father]

theorem _Father_succ (n : Nat) : _Father ((n + 1 : Nat) : Int) = ((n / 2 : Nat) : Int) := by
  have h1 : ((n + 1 : Nat) : Int) ≠ 0 := by omega
  have h2 : (0 : Int) ≤ ((n + 1 : Nat) : Int) := by omega
  unfold _Father
  rw [if_neg h1, Int.tmod_eq_emod h2 (by omega), Int.tdiv_eq_ediv h2 (by omega),
    Int.tdiv_eq_ediv (by omega) (by omega)]
  split <;> omega

end Basic

section Rules
variable {K V : Type} [DecidableEq K]

theorem percUp_loop_rule (comp : V → V → Bool) (tmp : queue_node K V)
    (P : priority_map K V → Nat → Prop)
    (hrange : ∀ s i, P s i → i < s.m_priQueue.length)
    (hstep : ∀ s i f, P s (i + 1) → s.m_priQueue[i / 2]? = some f →
      comp f.second tmp.second = true →
      P ⟨s.m_priQueue.set (i + 1) f, hm_assign s.m_hashMap f.first ((i + 1 : Nat) : Int)⟩ (i / 2)) :
    ∀ (fuel : Nat) (s : priority_map K V) (i : Nat), P s i → i < fuel →
      ∃ (s1 : priority_map K V) (j : Nat),
        _PercUp_loop comp tmp fuel s (i : Int) = some (s1, (j : Int)) ∧ P s1 j ∧
        (j = 0 ∨ ∃ f, s1.m_priQueue[(j - 1) / 2]? = some f ∧
          comp f.second tmp.second = false) := by
  intro fuel
  induction fuel with
  | zero => intro s i _ h; omega
  | succ fuel ih =>
    intro s i hP hfuel
    cases i with
    | zero =>
      refine ⟨s, 0, ?_, hP, Or.inl rfl⟩
      simp [_PercUp_loop, _Father_zero]
    | succ n =>
      have hlen := hrange s (n + 1) hP
      have hp : n / 2 < s.m_priQueue.length := by omega
      obtain ⟨f, hf⟩ : ∃ f, s.m_priQueue[n / 2]? = some f :=
        ⟨s.m_priQueue[n / 2], List.getElem?_eq_getElem hp⟩
      have hge : _Father ((n + 1 : Nat) : Int) ≥ 0 := by rw [_Father_succ]; omega
      rw [_PercUp_loop, if_pos hge, _Father_succ, vec_at_nat, hf]
      cases hc : comp f.second tmp.second with
      | false =>
        refine ⟨s, n + 1, ?_, hP, Or.inr ⟨f, ?_, hc⟩⟩
        · simp [hc]
        · simpa using hf
      | true =>
        have hP1 := hstep s n f hP hf hc
        obtain ⟨s1, j, h1, h2, h3⟩ := ih _ (n / 2) hP1 (by omega)
        refine ⟨s1, j, ?_, h2, h3⟩
        have hget : (s.m_priQueue.set (n + 1) f)[n + 1]? = some f := by
          simp [List.getElem?_set, hlen]
        simp only [Option.bind_eq_bind, Option.some_bind, hc, if_true,
          vec_set_nat _ _ _ hlen, vec_at_nat, hget]
        exact h1

end Rules

section SelectLemmas
variable {K V : Type}

theorem SelectedChild_unique (comp : V → V → Bool) (q : List (queue_node K V)) (i c d : Nat)
    (hc : SelectedChild comp q i c) (hd : SelectedChild comp q i d) : c = d := by
  rcases hc with ⟨h, hl⟩ | ⟨h, a2, b2, ha2, hb2, hr⟩ <;>
    rcases hd with ⟨h1, hl1⟩ | ⟨h1, a3, b3, ha3, hb3, hr1⟩
  · omega
  · have := hl a3 b3 ha3 hb3
    rw [this] at hr1; cases hr1
  · have := hl1 a2 b2 ha2 hb2
    rw [this] at hr; cases hr
  · omega

theorem select_child_bind {β : Type} (comp : V → V → Bool) (q : List (queue_node K V)) (i : Nat)
    (h1 : 2 * i + 1 < q.length) (rest : Int → Option β) :
    ∃ (c : Nat) (y : queue_node K V), SelectedChild comp q i c ∧ q[c]? = some y ∧
      (if ((2 * i + 1 : Nat) : Int) ≠ (q.length : Int) - 1 then
        (vec_at q ((2 * i + 1 : Nat) : Int)).bind fun c0 =>
          (vec_at q (((2 * i + 1 : Nat) : Int) + 1)).bind fun c1 =>
            (pure (if comp c0.second c1.second then ((2 * i + 1 : Nat) : Int) + 1
              else ((2 * i + 1 : Nat) : Int)) : Option Int).bind rest
       else (pure ((2 * i + 1 : Nat) : Int) : Option Int).bind rest) = rest (c : Int) := by
  have hsucc : ((2 * i + 1 : Nat) : Int) + 1 = ((2 * i + 2 : Nat) : Int) := by omega
  obtain ⟨a, ha⟩ : ∃ a, q[2 * i + 1]? = some a := ⟨q[2 * i + 1], List.getElem?_eq_getElem h1⟩
  by_cases h2 : 2 * i + 2 < q.length
  · have hne : ((2 * i + 1 : Nat) : Int) ≠ (q.length : Int) - 1 := by omega
    obtain ⟨b, hb⟩ : ∃ b, q[2 * i + 2]? = some b := ⟨q[2 * i + 2], List.getElem?_eq_getElem h2⟩
    rw [if_pos hne, hsucc, vec_at_nat, vec_at_nat, ha, hb]
    cases hc : comp a.second b.second with
    | true =>
      refine ⟨2 * i + 2, b, Or.inr ⟨rfl, a, b, ha, hb, hc⟩, hb, ?_⟩
      simp [hc]
    | false =>
      refine ⟨2 * i + 1, a, Or.inl ⟨rfl, ?_⟩, ha, ?_⟩
      · intro a1 b1 ha1 hb1
        rw [ha] at ha1; rw [hb] at hb1
        cases ha1; cases hb1; exact hc
      · simp [hc]
  · have hne : ¬ ((2 * i + 1 : Nat) : Int) ≠ (q.length : Int) - 1 := by omega
    rw [if_neg hne]
    refine ⟨2 * i + 1, a, Or.inl ⟨rfl, ?_⟩, ha, rfl⟩
    intro a1 b1 _ hb1
    have : q[2 * i + 2]? = none := List.getElem?_eq_none (by omega)
    rw [this] at hb1; cases hb1

end SelectLemmas

section Rules2
variable {K V : Type} [DecidableEq K]

theorem percDown_loop_rule (comp : V → V → Bool) (tmp : queue_node K V)
    (P : priority_map K V → Nat → Prop)
    (hrange : ∀ s i, P s i → i < s.m_priQueue.length)
    (hstep : ∀ s i c y, P s i → SelectedChild comp s.m_priQueue i c →
      s.m_priQueue[c]? = some y → comp tmp.second y.second = true →
      P ⟨s.m_priQueue.set i y, hm_assign s.m_hashMap y.first (i : Int)⟩ c) :
    ∀ (fuel : Nat) (s : priority_map K V) (i : Nat), P s i →
      s.m_priQueue.length ≤ fuel + i →
      ∃ (s1 : priority_map K V) (j : Nat),
        _PercDown_loop comp tmp fuel s (i : Int) = some (s1, (j : Int)) ∧ P s1 j ∧
        (∀ c y, SelectedChild comp s1.m_priQueue j c → s1.m_priQueue[c]? = some y →
          comp tmp.second y.second = false) := by
  intro fuel
  induction fuel with
  | zero =>
    intro s i hP h
    have := hrange s i hP
    omega
  | succ fuel ih =>
    intro s i hP hfuel
    have hlen := hrange s i hP
    rw [_PercDown_loop, _LeftChild_nat]
    by_cases h1 : 2 * i + 1 < s.m_priQueue.length
    · have hcond : ((2 * i + 1 : Nat) : Int) < (s.m_priQueue.length : Int) := by omega
      rw [if_pos hcond]
      obtain ⟨c, y, hsc, hy, hrest⟩ := select_child_bind comp s.m_priQueue i h1
        (fun child => (vec_at s.m_priQueue child).bind fun c =>
          if comp tmp.second c.second = true then
            (vec_set s.m_priQueue (i : Int) c).bind fun q =>
              (vec_at q (i : Int)).bind fun e =>
                _PercDown_loop comp tmp fuel ⟨q, hm_assign s.m_hashMap e.first (i : Int)⟩ child
          else some (s, (i : Int)))
      have hci : i < c := by
        rcases hsc with ⟨h, _⟩ | ⟨h, _⟩ <;> omega
      simp only [Option.bind_eq_bind]
      rw [hrest]
      simp only [Option.some_bind, vec_at_nat, hy]
      cases hc : comp tmp.second y.second with
      | false =>
        refine ⟨s, i, by simp, hP, ?_⟩
        intro c1 y1 hsc1 hy1
        have hcc : c1 = c := SelectedChild_unique comp _ i c1 c hsc1 hsc
        subst hcc
        rw [hy] at hy1; cases hy1; exact hc
      | true =>
        have hP1 := hstep s i c y hP hsc hy hc
        have hlen1 := hrange _ c hP1
        obtain ⟨s1, j, h3, h4, h5⟩ := ih _ c hP1 (by
          simp only [List.length_set] at hlen1 ⊢; omega)
        refine ⟨s1, j, ?_, h4, h5⟩
        have hget : (s.m_priQueue.set i y)[i]? = some y := by
          simp [List.getElem?_set, hlen]
        simp only [if_true, vec_set_nat _ _ _ hlen, Option.some_bind, vec_at_nat, hget]
        exact h3
    · have hcond : ¬ ((2 * i + 1 : Nat) : Int) < (s.m_priQueue.length : Int) := by omega
      rw [if_neg hcond]
      refine ⟨s, i, rfl, hP, ?_⟩
      intro c y hsc hy
      have hc : s.m_priQueue[c]? = none := by
        apply List.getElem?_eq_none
        rcases hsc with ⟨h, _⟩ | ⟨h, _⟩ <;> omega
      rw [hc] at hy; cases hy

end Rules2

section StoreLemmas
variable {K V : Type}

theorem StrictWeakOrder.asymm {comp : V → V → Bool} (h : StrictWeakOrder comp) (a b : V)
    (hab : comp a b = true) : comp b a = false := by
  cases hba : comp b a with
  | false => rfl
  | true =>
    have := h.trans a b a hab hba
    rw [h.irrefl a] at this; cases this

theorem StrictWeakOrder.negtrans {comp : V → V → Bool} (h : StrictWeakOrder comp) (a b c : V)
    (hab : comp a b = false) (hbc : comp b c = false) : comp a c = false := by
  cases hac : comp a c with
  | false => rfl
  | true =>
    exfalso
    cases hba : comp b a with
    | true =>
      have := h.trans b a c hba hac
      rw [hbc] at this; cases this
    | false =>
      cases hcb : comp c b with
      | true =>
        have := h.trans a c b hac hcb
        rw [hab] at this; cases this
      | false =>
        have := (h.incomp_trans a b c hab hba hbc hcb).1
        rw [hac] at this; cases this

theorem getElem?_swap (q : List (queue_node K V)) (i c : Nat) (x y : queue_node K V)
    (hi : i < q.length) (hc : c < q.length) (a : Nat) :
    ((q.set i y).set c x)[a]? = if a = c then some x else if a = i then some y else q[a]? := by
  simp only [List.getElem?_set, List.length_set]
  by_cases h1 : c = a
  · subst h1; simp [hc]
  · have h1b : ¬ a = c := fun h => h1 h.symm
    by_cases h2 : i = a
    · subst h2; simp [h1, hi, h1b]
    · have h2b : ¬ a = i := fun h => h2 h.symm
      simp [h1, h2, h1b, h2b]

theorem heapOrder_iff_heapFrom (comp : V → V → Bool) (q : List (queue_node K V)) :
    HeapOrder comp q ↔ HeapFrom comp 0 q := by
  constructor
  · intro h j _ ⟨x, y, hx, hy, hxy⟩
    have := h (j + 1) y x (by omega) hy (by rw [_Father_succ, vec_at_nat]; exact hx)
    rw [this] at hxy; cases hxy
  · intro h i x y hi hx hy
    obtain ⟨j, rfl⟩ : ∃ j, i = j + 1 := ⟨i - 1, by omega⟩
    rw [_Father_succ, vec_at_nat] at hy
    cases hc : comp y.second x.second with
    | false => rfl
    | true => exact absurd ⟨y, x, hy, hx, hc⟩ (h j (Nat.zero_le _))

end StoreLemmas

section SiftDownStore
variable {K V : Type}

theorem SelectedChild_range {comp : V → V → Bool} {q : List (queue_node K V)} {i c : Nat}
    (h : SelectedChild comp q i c) : c = 2 * i + 1 ∨ c = 2 * i + 2 := by
  rcases h with ⟨h, _⟩ | ⟨h, _⟩
  · exact Or.inl h
  · exact Or.inr h

theorem SelectedChild_set {comp : V → V → Bool} {q : List (queue_node K V)} {i c : Nat}
    (t : queue_node K V) :
    SelectedChild comp (q.set i t) i c ↔ SelectedChild comp q i c := by
  have h1 : (q.set i t)[2 * i + 1]? = q[2 * i + 1]? := by
    rw [List.getElem?_set, if_neg (by omega)]
  have h2 : (q.set i t)[2 * i + 2]? = q[2 * i + 2]? := by
    rw [List.getElem?_set, if_neg (by omega)]
  unfold SelectedChild
  rw [h1, h2]

/-- The sibling of the selected child is not above the selected child. -/
theorem SelectedChild_sibling {comp : V → V → Bool} (hswo : StrictWeakOrder comp)
    {q : List (queue_node K V)} {i c k : Nat} (hsel : SelectedChild comp q i c)
    (hk : k = 2 * i + 1 ∨ k = 2 * i + 2) (hkc : k ≠ c) {y v : queue_node K V}
    (hy : q[c]? = some y) (hv : q[k]? = some v) : comp y.second v.second = false := by
  rcases hsel with ⟨h, hl⟩ | ⟨h, a, b, ha, hb, hab⟩
  · have hk2 : k = 2 * i + 2 := by omega
    subst h; subst hk2
    exact hl y v hy hv
  · have hk2 : k = 2 * i + 1 := by omega
    subst h; subst hk2
    rw [hy] at hb; rw [hv] at ha
    cases ha; cases hb
    exact hswo.asymm _ _ hab

theorem downInv_step {comp : V → V → Bool} (hswo : StrictWeakOrder comp) {lo : Nat}
    {q : List (queue_node K V)} {i c : Nat} {x y : queue_node K V}
    (hlo : lo ≤ i) (hinv : DownInv comp lo q i) (hsel : SelectedChild comp q i c)
    (hx : q[i]? = some x) (hy : q[c]? = some y) (hxy : comp x.second y.second = true) :
    DownInv comp lo ((q.set i y).set c x) c := by
  have hi : i < q.length := by
    rcases Nat.lt_or_ge i q.length with h | h
    · exact h
    · rw [List.getElem?_eq_none h] at hx; cases hx
  have hc : c < q.length := by
    rcases Nat.lt_or_ge c q.length with h | h
    · exact h
    · rw [List.getElem?_eq_none h] at hy; cases hy
  have hrg := SelectedChild_range hsel
  have hic : i ≠ c := by omega
  constructor
  · rintro j hj hne ⟨u, v, hu, hv, huv⟩
    rw [getElem?_swap _ _ _ _ _ hi hc] at hu hv
    rw [if_neg hne] at hu
    by_cases hk : j + 1 = c
    · have hp : j / 2 = i := by omega
      rw [if_pos hk] at hv
      rw [if_pos hp] at hu
      cases hu; cases hv
      rw [hswo.asymm _ _ hxy] at huv; cases huv
    · rw [if_neg hk] at hv
      by_cases hk2 : j + 1 = i
      · rw [if_pos hk2] at hv
        rw [if_neg (by omega)] at hu
        cases hv
        exact hinv.2 j c hk2 hj hrg ⟨u, y, hu, hy, huv⟩
      · rw [if_neg hk2] at hv
        by_cases hp : j / 2 = i
        · rw [if_pos hp] at hu
          cases hu
          have := SelectedChild_sibling hswo hsel (k := j + 1) (by omega) hk hy hv
          rw [this] at huv; cases huv
        · rw [if_neg hp] at hu
          exact hinv.1 j hj hp ⟨u, v, hu, hv, huv⟩
  · rintro j d hjc hj hd ⟨u, v, hu, hv, huv⟩
    rw [getElem?_swap _ _ _ _ _ hi hc] at hu hv
    have hp : j / 2 = i := by omega
    rw [if_neg (by omega), if_pos hp] at hu
    rw [if_neg (by omega), if_neg (by omega)] at hv
    cases hu
    obtain ⟨j2, rfl⟩ : ∃ j2, d = j2 + 1 := ⟨d - 1, by omega⟩
    have hp2 : j2 / 2 = c := by omega
    refine hinv.1 j2 (by omega) (by omega) ⟨y, v, ?_, hv, huv⟩
    rw [hp2]; exact hy

theorem downInv_exit {comp : V → V → Bool} (hswo : StrictWeakOrder comp) {lo : Nat}
    {q : List (queue_node K V)} {i : Nat} {x : queue_node K V}
    (hinv : DownInv comp lo q i) (hx : q[i]? = some x)
    (hexit : ∀ c y, SelectedChild comp q i c → q[c]? = some y →
      comp x.second y.second = false) :
    HeapFrom comp lo q := by
  rintro j hj ⟨u, v, hu, hv, huv⟩
  by_cases hp : j / 2 = i
  · rw [hp, hx] at hu
    cases hu
    have hj1 : j + 1 < q.length := by
      rcases Nat.lt_or_ge (j + 1) q.length with h | h
      · exact h
      · rw [List.getElem?_eq_none h] at hv; cases hv
    have h1 : 2 * i + 1 < q.length := by omega
    obtain ⟨c, y, hsel, hy, -⟩ := select_child_bind comp q i h1 (fun _ => (none : Option Unit))
    have hxy := hexit c y hsel hy
    by_cases hk : j + 1 = c
    · rw [hk, hy] at hv
      cases hv
      rw [hxy] at huv; cases huv
    · have := SelectedChild_sibling hswo hsel (k := j + 1) (by omega) hk hy hv
      have := hswo.negtrans _ _ _ hxy this
      rw [this] at huv; cases huv
  · exact hinv.1 j hj hp ⟨u, v, hu, hv, huv⟩

end SiftDownStore

section SiftUpStore
variable {K V : Type}

theorem getElem?_lt {q : List (queue_node K V)} {i : Nat} {x : queue_node K V}
    (h : q[i]? = some x) : i < q.length := by
  rcases Nat.lt_or_ge i q.length with h1 | h1
  · exact h1
  · rw [List.getElem?_eq_none h1] at h; cases h

theorem upInv_step {comp : V → V → Bool} (hswo : StrictWeakOrder comp)
    {q : List (queue_node K V)} {n : Nat} {x f : queue_node K V}
    (hinv : UpInv comp q (n + 1)) (hx : q[n + 1]? = some x) (hf : q[n / 2]? = some f)
    (hfx : comp f.second x.second = true) :
    UpInv comp ((q.set (n + 1) f).set (n / 2) x) (n / 2) := by
  have hi := getElem?_lt hx
  have hc := getElem?_lt hf
  constructor
  · rintro j hne ⟨u, v, hu, hv, huv⟩
    rw [getElem?_swap _ _ _ _ _ hi hc] at hu hv
    rw [if_neg hne] at hv
    by_cases hk : j + 1 = n + 1
    · have hp : j / 2 = n / 2 := by
        have : j = n := by omega
        rw [this]
      rw [if_pos hk] at hv
      rw [if_pos hp] at hu
      cases hu; cases hv
      rw [hswo.asymm _ _ hfx] at huv; cases huv
    · rw [if_neg hk] at hv
      by_cases hp : j / 2 = n / 2
      · rw [if_pos hp] at hu
        cases hu
        have h1 : comp f.second v.second = false := by
          cases h : comp f.second v.second with
          | false => rfl
          | true => exact absurd ⟨f, v, hp ▸ hf, hv, h⟩ (hinv.1 j hk)
        have := hswo.trans _ _ _ hfx huv
        rw [h1] at this; cases this
      · rw [if_neg hp] at hu
        by_cases hp2 : j / 2 = n + 1
        · rw [if_pos hp2] at hu
          cases hu
          exact hinv.2 n (j + 1) rfl (by omega) ⟨f, v, hf, hv, huv⟩
        · rw [if_neg hp2] at hu
          exact hinv.1 j hk ⟨u, v, hu, hv, huv⟩
  · rintro j c hjp hcc ⟨u, v, hu, hv, huv⟩
    rw [getElem?_swap _ _ _ _ _ hi hc] at hu hv
    rw [if_neg (by omega), if_neg (by omega)] at hu
    rw [if_neg (by omega)] at hv
    have h1 : comp u.second f.second = false := by
      cases h : comp u.second f.second with
      | false => rfl
      | true =>
        refine absurd ⟨u, f, hu, ?_, h⟩ (hinv.1 j (by omega))
        rw [hjp]; exact hf
    by_cases hk : c = n + 1
    · rw [if_pos hk] at hv
      cases hv
      rw [h1] at huv; cases huv
    · rw [if_neg hk] at hv
      obtain ⟨j2, rfl⟩ : ∃ j2, c = j2 + 1 := ⟨c - 1, by omega⟩
      have hp2 : j2 / 2 = n / 2 := by omega
      have h2 : comp f.second v.second = false := by
        cases h : comp f.second v.second with
        | false => rfl
        | true => exact absurd ⟨f, v, hp2 ▸ hf, hv, h⟩ (hinv.1 j2 hk)
      have := hswo.negtrans _ _ _ h1 h2
      rw [this] at huv; cases huv

theorem upInv_exit {comp : V → V → Bool}
    {q : List (queue_node K V)} {i : Nat} {x : queue_node K V}
    (hinv : UpInv comp q i) (hx : q[i]? = some x)
    (hexit : i = 0 ∨ ∃ f, q[(i - 1) / 2]? = some f ∧ comp f.second x.second = false) :
    HeapFrom comp 0 q := by
  rintro j - ⟨u, v, hu, hv, huv⟩
  by_cases hk : j + 1 = i
  · rcases hexit with h0 | ⟨f, hf, hfx⟩
    · omega
    · subst hk
      simp only [Nat.add_sub_cancel] at hf
      rw [hf] at hu; rw [hx] at hv
      cases hu; cases hv
      rw [hfx] at huv; cases huv
  · exact hinv.1 j hk ⟨u, v, hu, hv, huv⟩

end SiftUpStore

section PermLemmas
variable {α : Type}

theorem perm_cons_set (t : List α) (c : Nat) (a y : α) (h : t[c]? = some y) :
    (y :: t.set c a).Perm (a :: t) := by
  induction t generalizing c with
  | nil => simp at h
  | cons b t ih =>
    cases c with
    | zero =>
      simp only [List.getElem?_cons_zero, Option.some.injEq] at h
      subst h
      simpa using List.Perm.swap a b t
    | succ c =>
      simp only [List.getElem?_cons_succ] at h
      have h1 := ih c h
      simp only [List.set_cons_succ]
      exact (List.Perm.swap b y _).trans ((h1.cons b).trans (List.Perm.swap a b t))

theorem perm_swap (q : List α) (i c : Nat) (x y : α)
    (hx : q[i]? = some x) (hy : q[c]? = some y) :
    ((q.set i y).set c x).Perm q := by
  induction q generalizing i c with
  | nil => simp at hx
  | cons a t ih =>
    cases i with
    | zero =>
      simp only [List.getElem?_cons_zero, Option.some.injEq] at hx
      subst hx
      cases c with
      | zero =>
        simp
      | succ c =>
        simp only [List.getElem?_cons_succ] at hy
        simpa using perm_cons_set t c a y hy
    | succ i =>
      simp only [List.getElem?_cons_succ] at hx
      cases c with
      | zero =>
        simp only [List.getElem?_cons_zero, Option.some.injEq] at hy
        subst hy
        simpa using perm_cons_set t i a x hx
      | succ c =>
        simp only [List.getElem?_cons_succ] at hy
        simpa using ih i c hx hy

end PermLemmas

section BijLemmas
variable {K V : Type} [DecidableEq K]

theorem vec_at_some {α : Type} {q : List α} {i : Int} {x : α} (h : vec_at q i = some x) :
    0 ≤ i ∧ q[i.toNat]? = some x := by
  unfold vec_at at h
  by_cases h0 : 0 ≤ i
  · rw [if_pos h0] at h; exact ⟨h0, h⟩
  · rw [if_neg h0] at h; cases h

theorem IndexBijection_congr {q : List (queue_node K V)} {h1 h2 : HashMapType K}
    (hb : IndexBijection ⟨q, h1⟩) (heq : ∀ k, hm_find h2 k = hm_find h1 k) :
    IndexBijection ⟨q, h2⟩ := by
  constructor
  · intro k i hk
    exact hb.1 k i (by rw [← heq]; exact hk)
  · intro n x hx
    show hm_find h2 x.first = _
    rw [heq]; exact hb.2 n x hx

theorem fill_hole_init {tmp : queue_node K V} {s : priority_map K V} {i : Nat}
    (hb : IndexBijection s) (htmp : s.m_priQueue[i]? = some tmp) :
    IndexBijection (fill_hole tmp s i) := by
  have hq : s.m_priQueue.set i tmp = s.m_priQueue := by
    apply List.ext_getElem?
    intro a
    rw [List.getElem?_set]
    by_cases h : i = a
    · subst h; rw [if_pos rfl, if_pos (getElem?_lt htmp), htmp]
    · rw [if_neg h]
  unfold fill_hole
  rw [hq]
  refine IndexBijection_congr (show IndexBijection ⟨s.m_priQueue, s.m_hashMap⟩ from hb) ?_
  intro k
  rw [hm_find_assign]
  by_cases hk : tmp.first = k
  · rw [if_pos hk, ← hk]; exact (hb.2 i tmp htmp).symm
  · rw [if_neg hk]

theorem fill_hole_step {tmp y : queue_node K V} {s : priority_map K V} {i c : Nat}
    (hb : IndexBijection (fill_hole tmp s i)) (hi : i < s.m_priQueue.length)
    (hy : s.m_priQueue[c]? = some y) (hci : c ≠ i) :
    IndexBijection (fill_hole tmp
        ⟨s.m_priQueue.set i y, hm_assign s.m_hashMap y.first (i : Int)⟩ c) ∧
      hm_find s.m_hashMap y.first = some (c : Int) := by
  have hc := getElem?_lt hy
  have hQi : (s.m_priQueue.set i tmp)[i]? = some tmp := by
    rw [List.getElem?_set, if_pos rfl, if_pos hi]
  have hQc : (s.m_priQueue.set i tmp)[c]? = some y := by
    rw [List.getElem?_set, if_neg (fun h => hci h.symm)]; exact hy
  have hfy := hb.2 c y hQc
  have hft := hb.2 i tmp hQi
  simp only [fill_hole, hm_find_assign] at hfy hft
  have hne : tmp.first ≠ y.first := by
    intro h
    rw [if_pos h] at hfy
    have : (i : Int) = (c : Int) := Option.some.inj hfy
    omega
  rw [if_neg hne] at hfy
  refine ⟨?_, hfy⟩
  have hset : (s.m_priQueue.set i y).set c tmp = ((s.m_priQueue.set i tmp).set i y).set c tmp := by
    rw [List.set_set]
  constructor
  · intro k n hk
    simp only [fill_hole, hm_find_assign] at hk
    show ∃ x, vec_at ((s.m_priQueue.set i y).set c tmp) n = some x ∧ x.first = k
    by_cases h1 : tmp.first = k
    · rw [if_pos h1] at hk
      cases hk
      refine ⟨tmp, ?_, h1⟩
      rw [vec_at_nat, List.getElem?_set, if_pos rfl, if_pos (by simpa using hc)]
    · rw [if_neg h1] at hk
      by_cases h2 : y.first = k
      · rw [if_pos h2] at hk
        cases hk
        refine ⟨y, ?_, h2⟩
        rw [vec_at_nat, List.getElem?_set, if_neg (fun h => hci h), List.getElem?_set,
          if_pos rfl, if_pos hi]
      · rw [if_neg h2] at hk
        have hk2 : hm_find (fill_hole tmp s i).m_hashMap k = some n := by
          simp only [fill_hole, hm_find_assign]
          rw [if_neg h1]; exact hk
        obtain ⟨x, hx, hxk⟩ := hb.1 k n hk2
        obtain ⟨hn0, hxn⟩ := vec_at_some hx
        refine ⟨x, ?_, hxk⟩
        have hni : n.toNat ≠ i := by
          intro h
          rw [h] at hxn
          simp only [fill_hole] at hxn
          rw [hQi] at hxn
          cases hxn
          exact h1 hxk
        have hnc : n.toNat ≠ c := by
          intro h
          rw [h] at hxn
          simp only [fill_hole] at hxn
          rw [hQc] at hxn
          cases hxn
          exact h2 hxk
        simp only [fill_hole] at hxn
        rw [List.getElem?_set, if_neg (fun h => hni h.symm)] at hxn
        unfold vec_at
        rw [if_pos hn0, List.getElem?_set, if_neg (fun h => hnc h.symm), List.getElem?_set,
          if_neg (fun h => hni h.symm)]
        exact hxn
  · intro m x hx
    simp only [fill_hole, hm_find_assign] at hx ⊢
    rw [List.getElem?_set] at hx
    by_cases h1 : c = m
    · subst h1
      rw [if_pos rfl, if_pos (by simpa using hc)] at hx
      cases hx
      rw [if_pos rfl]
    · rw [if_neg h1, List.getElem?_set] at hx
      by_cases h2 : i = m
      · subst h2
        rw [if_pos rfl, if_pos hi] at hx
        cases hx
        rw [if_neg hne, if_pos rfl]
      · rw [if_neg h2] at hx
        have hQm : (fill_hole tmp s i).m_priQueue[m]? = some x := by
          simp only [fill_hole]
          rw [List.getElem?_set, if_neg h2]; exact hx
        have hfm := hb.2 m x hQm
        simp only [fill_hole, hm_find_assign] at hfm
        have hxt : tmp.first ≠ x.first := by
          intro h
          rw [if_pos h] at hfm
          have : (i : Int) = (m : Int) := Option.some.inj hfm
          omega
        have hxy : y.first ≠ x.first := by
          intro h
          rw [h] at hfy
          rw [if_neg hxt, hfy] at hfm
          have : (c : Int) = (m : Int) := Option.some.inj hfm
          omega
        rw [if_neg hxt] at hfm ⊢
        rw [if_neg hxy]
        exact hfm

end BijLemmas

section PercSpecs
variable {K V : Type} [DecidableEq K]

theorem set_of_getElem? {α : Type} {q : List α} {i : Nat} {t : α} (h : q[i]? = some t) :
    q.set i t = q := by
  apply List.ext_getElem?
  intro a
  rw [List.getElem?_set]
  by_cases h1 : i = a
  · subst h1
    have hi : i < q.length := by
      rcases Nat.lt_or_ge i q.length with h2 | h2
      · exact h2
      · rw [List.getElem?_eq_none h2] at h; cases h
    rw [if_pos rfl, if_pos hi, h]
  · rw [if_neg h1]

theorem percDown_spec (comp : V → V → Bool) (s : priority_map K V) (i : Nat)
    (tmp : queue_node K V) (htmp : s.m_priQueue[i]? = some tmp) :
    ∃ s1, _PercDown comp s (i : Int) = some s1 ∧
      s1.m_priQueue.Perm s.m_priQueue ∧
      (∀ lo, StrictWeakOrder comp → lo ≤ i → DownInv comp lo s.m_priQueue i →
        HeapFrom comp lo s1.m_priQueue) ∧
      (IndexBijection s → IndexBijection s1 ∧
        s1.m_hashMap.map Prod.fst = s.m_hashMap.map Prod.fst) := by
  have hi := getElem?_lt htmp
  let P : priority_map K V → Nat → Prop := fun s1 j =>
    j < s1.m_priQueue.length ∧ s1.m_priQueue.length = s.m_priQueue.length ∧ i ≤ j ∧
    (s1.m_priQueue.set j tmp).Perm s.m_priQueue ∧
    (∀ lo, StrictWeakOrder comp → lo ≤ i → DownInv comp lo s.m_priQueue i →
      DownInv comp lo (s1.m_priQueue.set j tmp) j) ∧
    (IndexBijection s → IndexBijection (fill_hole tmp s1 j) ∧
      s1.m_hashMap.map Prod.fst = s.m_hashMap.map Prod.fst ∧
      hm_find s1.m_hashMap tmp.first ≠ none)
  have hrange : ∀ s1 j, P s1 j → j < s1.m_priQueue.length := fun _ _ h => h.1
  have hstep : ∀ s1 j c y, P s1 j → SelectedChild comp s1.m_priQueue j c →
      s1.m_priQueue[c]? = some y → comp tmp.second y.second = true →
      P ⟨s1.m_priQueue.set j y, hm_assign s1.m_hashMap y.first (j : Int)⟩ c := by
    intro s1 j c y ⟨hj, hlen, hij, hperm, hdown, hbij⟩ hsel hy hcomp
    have hc := getElem?_lt hy
    have hrg := SelectedChild_range hsel
    have hcj : c ≠ j := by omega
    have hQj : (s1.m_priQueue.set j tmp)[j]? = some tmp := by
      rw [List.getElem?_set, if_pos rfl, if_pos hj]
    have hQc : (s1.m_priQueue.set j tmp)[c]? = some y := by
      rw [List.getElem?_set, if_neg (fun h => hcj h.symm)]; exact hy
    have hset : (s1.m_priQueue.set j y).set c tmp =
        ((s1.m_priQueue.set j tmp).set j y).set c tmp := by
      rw [List.set_set]
    refine ⟨by simpa using hc, by simpa using hlen, by omega, ?_, ?_, ?_⟩
    · show ((s1.m_priQueue.set j y).set c tmp).Perm s.m_priQueue
      rw [hset]
      exact (perm_swap _ j c tmp y hQj hQc).trans hperm
    · intro lo hswo hlo hinv
      show DownInv comp lo ((s1.m_priQueue.set j y).set c tmp) c
      rw [hset]
      exact downInv_step hswo (by omega) (hdown lo hswo hlo hinv)
        ((SelectedChild_set tmp).2 hsel) hQj hQc hcomp
    · intro hb
      obtain ⟨hb1, hkeys, hfind⟩ := hbij hb
      obtain ⟨hb2, hfy⟩ := fill_hole_step hb1 hj hy hcj
      refine ⟨hb2, ?_, ?_⟩
      · show (hm_assign s1.m_hashMap y.first (j : Int)).map Prod.fst = _
        rw [hm_assign_keys _ _ _ (by rw [hfy]; simp), hkeys]
      · show hm_find (hm_assign s1.m_hashMap y.first (j : Int)) tmp.first ≠ none
        rw [hm_find_assign]
        by_cases h : y.first = tmp.first
        · rw [if_pos h]; simp
        · rw [if_neg h]; exact hfind
  have hinit : P s i := by
    refine ⟨hi, rfl, le_refl _, ?_, ?_, ?_⟩
    · rw [set_of_getElem? htmp]
    · intro lo _ _ hinv
      rw [set_of_getElem? htmp]; exact hinv
    · intro hb
      refine ⟨fill_hole_init hb htmp, rfl, ?_⟩
      rw [hb.2 i tmp htmp]; simp
  obtain ⟨s1, j, hloop, ⟨hj, hlen, hij, hperm, hdown, hbij⟩, hexit⟩ :=
    percDown_loop_rule comp tmp P hrange hstep s.m_priQueue.length s i hinit (by omega)
  have hQj : (s1.m_priQueue.set j tmp)[j]? = some tmp := by
    rw [List.getElem?_set, if_pos rfl, if_pos hj]
  refine ⟨fill_hole tmp s1 j, ?_, hperm, ?_, ?_⟩
  · unfold _PercDown
    rw [vec_at_nat, htmp]
    simp only [Option.bind_eq_bind, Option.some_bind, hloop, vec_set_nat _ _ _ hj, vec_at_nat,
      hQj]
    rfl
  · intro lo hswo hlo hinv
    show HeapFrom comp lo (s1.m_priQueue.set j tmp)
    refine downInv_exit hswo (hdown lo hswo hlo hinv) hQj ?_
    intro c y hsel hy
    have hrg := SelectedChild_range hsel
    rw [List.getElem?_set, if_neg (by omega)] at hy
    exact hexit c y ((SelectedChild_set tmp).1 hsel) hy
  · intro hb
    obtain ⟨hb1, hkeys, hfind⟩ := hbij hb
    refine ⟨hb1, ?_⟩
    show (hm_assign s1.m_hashMap tmp.first (j : Int)).map Prod.fst = _
    rw [hm_assign_keys _ _ _ hfind, hkeys]

theorem percUp_spec (comp : V → V → Bool) (s : priority_map K V) (i : Nat)
    (tmp : queue_node K V) (htmp : s.m_priQueue[i]? = some tmp) :
    ∃ s1, _PercUp comp s (i : Int) = some s1 ∧
      s1.m_priQueue.Perm s.m_priQueue ∧
      (StrictWeakOrder comp → UpInv comp s.m_priQueue i → HeapFrom comp 0 s1.m_priQueue) ∧
      (IndexBijection s → IndexBijection s1 ∧
        s1.m_hashMap.map Prod.fst = s.m_hashMap.map Prod.fst) := by
  have hi := getElem?_lt htmp
  let P : priority_map K V → Nat → Prop := fun s1 j =>
    j < s1.m_priQueue.length ∧ s1.m_priQueue.length = s.m_priQueue.length ∧ j ≤ i ∧
    (s1.m_priQueue.set j tmp).Perm s.m_priQueue ∧
    (StrictWeakOrder comp → UpInv comp s.m_priQueue i →
      UpInv comp (s1.m_priQueue.set j tmp) j) ∧
    (IndexBijection s → IndexBijection (fill_hole tmp s1 j) ∧
      s1.m_hashMap.map Prod.fst = s.m_hashMap.map Prod.fst ∧
      hm_find s1.m_hashMap tmp.first ≠ none)
  have hrange : ∀ s1 j, P s1 j → j < s1.m_priQueue.length := fun _ _ h => h.1
  have hstep : ∀ s1 n f, P s1 (n + 1) → s1.m_priQueue[n / 2]? = some f →
      comp f.second tmp.second = true →
      P ⟨s1.m_priQueue.set (n + 1) f,
        hm_assign s1.m_hashMap f.first ((n + 1 : Nat) : Int)⟩ (n / 2) := by
    intro s1 n f ⟨hj, hlen, hij, hperm, hup, hbij⟩ hf hcomp
    have hc := getElem?_lt hf
    have hcj : n / 2 ≠ n + 1 := by omega
    have hQj : (s1.m_priQueue.set (n + 1) tmp)[n + 1]? = some tmp := by
      rw [List.getElem?_set, if_pos rfl, if_pos hj]
    have hQc : (s1.m_priQueue.set (n + 1) tmp)[n / 2]? = some f := by
      rw [List.getElem?_set, if_neg (fun h => hcj h.symm)]; exact hf
    have hset : (s1.m_priQueue.set (n + 1) f).set (n / 2) tmp =
        ((s1.m_priQueue.set (n + 1) tmp).set (n + 1) f).set (n / 2) tmp := by
      rw [List.set_set]
    refine ⟨by simpa using hc, by simpa using hlen, by omega, ?_, ?_, ?_⟩
    · show ((s1.m_priQueue.set (n + 1) f).set (n / 2) tmp).Perm s.m_priQueue
      rw [hset]
      exact (perm_swap _ (n + 1) (n / 2) tmp f hQj hQc).trans hperm
    · intro hswo hinv
      show UpInv comp ((s1.m_priQueue.set (n + 1) f).set (n / 2) tmp) (n / 2)
      rw [hset]
      exact upInv_step hswo (hup hswo hinv) hQj hQc hcomp
    · intro hb
      obtain ⟨hb1, hkeys, hfind⟩ := hbij hb
      obtain ⟨hb2, hfy⟩ := fill_hole_step hb1 hj hf hcj
      refine ⟨hb2, ?_, ?_⟩
      · show (hm_assign s1.m_hashMap f.first ((n + 1 : Nat) : Int)).map Prod.fst = _
        rw [hm_assign_keys _ _ _ (by rw [hfy]; simp), hkeys]
      · show hm_find (hm_assign s1.m_hashMap f.first ((n + 1 : Nat) : Int)) tmp.first ≠ none
        rw [hm_find_assign]
        by_cases h : f.first = tmp.first
        · rw [if_pos h]; simp
        · rw [if_neg h]; exact hfind
  have hinit : P s i := by
    refine ⟨hi, rfl, le_refl _, ?_, ?_, ?_⟩
    · rw [set_of_getElem? htmp]
    · intro _ hinv
      rw [set_of_getElem? htmp]; exact hinv
    · intro hb
      refine ⟨fill_hole_init hb htmp, rfl, ?_⟩
      rw [hb.2 i tmp htmp]; simp
  obtain ⟨s1, j, hloop, ⟨hj, hlen, hij, hperm, hup, hbij⟩, hexit⟩ :=
    percUp_loop_rule comp tmp P hrange hstep s.m_priQueue.length s i hinit hi
  have hQj : (s1.m_priQueue.set j tmp)[j]? = some tmp := by
    rw [List.getElem?_set, if_pos rfl, if_pos hj]
  refine ⟨fill_hole tmp s1 j, ?_, hperm, ?_, ?_⟩
  · unfold _PercUp
    rw [vec_at_nat, htmp]
    simp only [Option.bind_eq_bind, Option.some_bind, hloop, vec_set_nat _ _ _ hj, vec_at_nat,
      hQj]
    rfl
  · intro hswo hinv
    show HeapFrom comp 0 (s1.m_priQueue.set j tmp)
    refine upInv_exit (hup hswo hinv) hQj ?_
    rcases hexit with h0 | ⟨f, hf, hfx⟩
    · exact Or.inl h0
    · by_cases hj0 : j = 0
      · exact Or.inl hj0
      · refine Or.inr ⟨f, ?_, hfx⟩
        rw [List.getElem?_set, if_neg (by omega)]; exact hf
  · intro hb
    obtain ⟨hb1, hkeys, hfind⟩ := hbij hb
    refine ⟨hb1, ?_⟩
    show (hm_assign s1.m_hashMap tmp.first (j : Int)).map Prod.fst = _
    rw [hm_assign_keys _ _ _ hfind, hkeys]

end PercSpecs

section ReplaceValue
variable {K V : Type}

theorem HeapFrom.pair {comp : V → V → Bool} {q : List (queue_node K V)}
    (h : HeapFrom comp 0 q) (j : Nat) {u v : queue_node K V}
    (hu : q[j / 2]? = some u) (hv : q[j + 1]? = some v) : comp u.second v.second = false := by
  cases hc : comp u.second v.second with
  | false => rfl
  | true => exact absurd ⟨u, v, hu, hv, hc⟩ (h j (Nat.zero_le _))

theorem downInv_of_replace {comp : V → V → Bool} (hswo : StrictWeakOrder comp)
    {q r : List (queue_node K V)} {n : Nat} {old new : queue_node K V}
    (hheap : HeapFrom comp 0 q) (hold : q[n]? = some old) (hnew : r[n]? = some new)
    (hagree : ∀ a x, a ≠ n → r[a]? = some x → q[a]? = some x)
    (hc : comp old.second new.second = false) : DownInv comp 0 r n := by
  constructor
  · rintro j - hne ⟨u, v, hu, hv, huv⟩
    have hu1 := hagree _ _ hne hu
    by_cases hk : j + 1 = n
    · rw [hk, hnew] at hv
      cases hv
      have h1 := hheap.pair j hu1 (hk ▸ hold)
      have := hswo.negtrans _ _ _ h1 hc
      rw [this] at huv; cases huv
    · have hv1 := hagree _ _ hk hv
      have := hheap.pair j hu1 hv1
      rw [this] at huv; cases huv
  · rintro j c hjn - hcc ⟨u, v, hu, hv, huv⟩
    have hu1 := hagree _ u (by omega) hu
    have hv1 := hagree _ v (by omega) hv
    have h1 := hheap.pair j hu1 (hjn ▸ hold)
    obtain ⟨j2, rfl⟩ : ∃ j2, c = j2 + 1 := ⟨c - 1, by omega⟩
    have hp : j2 / 2 = n := by omega
    have h2 := hheap.pair j2 (hp ▸ hold) hv1
    have := hswo.negtrans _ _ _ h1 h2
    rw [this] at huv; cases huv

theorem upInv_of_replace {comp : V → V → Bool} (hswo : StrictWeakOrder comp)
    {q r : List (queue_node K V)} {n : Nat} {old new : queue_node K V}
    (hheap : HeapFrom comp 0 q) (hold : q[n]? = some old) (hnew : r[n]? = some new)
    (hagree : ∀ a x, a ≠ n → r[a]? = some x → q[a]? = some x)
    (hc : comp new.second old.second = false) : UpInv comp r n := by
  constructor
  · rintro j hk ⟨u, v, hu, hv, huv⟩
    have hv1 := hagree _ _ hk hv
    by_cases hp : j / 2 = n
    · rw [hp, hnew] at hu
      cases hu
      have h1 := hheap.pair j (hp ▸ hold) hv1
      have := hswo.negtrans _ _ _ hc h1
      rw [this] at huv; cases huv
    · have hu1 := hagree _ _ hp hu
      have := hheap.pair j hu1 hv1
      rw [this] at huv; cases huv
  · rintro j c hjn hcc ⟨u, v, hu, hv, huv⟩
    have hu1 := hagree _ u (by omega) hu
    have hv1 := hagree _ v (by omega) hv
    have h1 := hheap.pair j hu1 (hjn ▸ hold)
    obtain ⟨j2, rfl⟩ : ∃ j2, c = j2 + 1 := ⟨c - 1, by omega⟩
    have hp : j2 / 2 = n := by omega
    have h2 := hheap.pair j2 (hp ▸ hold) hv1
    have := hswo.negtrans _ _ _ h1 h2
    rw [this] at huv; cases huv

theorem upInv_of_append {comp : V → V → Bool} {q : List (queue_node K V)}
    (hheap : HeapFrom comp 0 q) (x : queue_node K V) : UpInv comp (q ++ [x]) q.length := by
  constructor
  · rintro j hk ⟨u, v, hu, hv, huv⟩
    have hv1 := getElem?_lt hv
    simp only [List.length_append, List.length_singleton] at hv1
    have hj : j + 1 < q.length := by omega
    rw [List.getElem?_append_left hj] at hv
    rw [List.getElem?_append_left (by omega)] at hu
    have := hheap.pair j hu hv
    rw [this] at huv; cases huv
  · rintro j c - hcc ⟨u, v, -, hv, -⟩
    have hv1 := getElem?_lt hv
    simp only [List.length_append, List.length_singleton] at hv1
    omega

theorem heapFrom_top_max {comp : V → V → Bool} (hswo : StrictWeakOrder comp)
    {q : List (queue_node K V)} (hheap : HeapFrom comp 0 q) {t : queue_node K V}
    (ht : q[0]? = some t) :
    ∀ (n : Nat) (e : queue_node K V), q[n]? = some e → comp t.second e.second = false := by
  intro n
  induction n using Nat.strong_induction_on with
  | _ n ih =>
    intro e he
    cases n with
    | zero =>
      rw [ht] at he; cases he
      exact hswo.irrefl _
    | succ j =>
      have hj := getElem?_lt he
      have hp : j / 2 < q.length := by omega
      have hpe : q[j / 2]? = some q[j / 2] := List.getElem?_eq_getElem hp
      have h1 := ih (j / 2) (by omega) _ hpe
      have h2 := hheap.pair j hpe he
      exact hswo.negtrans _ _ _ h1 h2

theorem heapFrom_of_agree {comp : V → V → Bool} {q r : List (queue_node K V)}
    (hagree : ∀ (a : Nat) (x : queue_node K V), r[a]? = some x → q[a]? = some x)
    (h : HeapFrom comp 0 q) :
    HeapFrom comp 0 r := by
  rintro j - ⟨u, v, hu, hv, huv⟩
  have := h.pair j (hagree _ _ hu) (hagree _ _ hv)
  rw [this] at huv; cases huv

theorem heapOrder_nil (comp : V → V → Bool) : HeapOrder comp ([] : List (queue_node K V)) := by
  intro i x y _ hx
  simp at hx

theorem heapOrder_of_heap_ok (comp : V → V → Bool) (q : List (queue_node K V))
    (h : heap_ok comp q = true) : HeapOrder comp q := by
  rw [heapOrder_iff_heapFrom]
  rintro j - ⟨u, v, hu, hv, huv⟩
  have hj := getElem?_lt hv
  unfold heap_ok at h
  rw [List.all_eq_true] at h
  have := h j (List.mem_range.2 (by omega))
  rw [hu, hv] at this
  simp [huv] at this

end ReplaceValue

section OpSpecs
variable {K V : Type} [DecidableEq K]

theorem hm_insert_absent (m : HashMapType K) (k : K) (i : Int) (h : hm_find m k = none) :
    hm_insert m k i = ((k, i) :: m, true) := by
  simp [hm_insert, h]

theorem hm_insert_present (m : HashMapType K) (k : K) (i j : Int) (h : hm_find m k = some j) :
    hm_insert m k i = (m, false) := by
  simp [hm_insert, h]

/-- Appending a fresh key at the end and percolating it up. -/
theorem append_percUp_spec (comp : V → V → Bool) (s : priority_map K V) (k : K) (v : V)
    (habs : hm_find s.m_hashMap k = none) :
    ∃ s1, _PercUp comp ⟨s.m_priQueue ++ [⟨k, v⟩], (k, (s.m_priQueue.length : Int)) :: s.m_hashMap⟩
        (((s.m_priQueue ++ [(⟨k, v⟩ : queue_node K V)]).length : Int) - 1) = some s1 ∧
      s1.m_priQueue.Perm (s.m_priQueue ++ [⟨k, v⟩]) ∧
      (StrictWeakOrder comp → HeapOrder comp s.m_priQueue → HeapOrder comp s1.m_priQueue) ∧
      (IndexBijection s → IndexBijection s1 ∧
        s1.m_hashMap.map Prod.fst = k :: s.m_hashMap.map Prod.fst) := by
  have hidx : (((s.m_priQueue ++ [(⟨k, v⟩ : queue_node K V)]).length : Int) - 1) =
      ((s.m_priQueue.length : Nat) : Int) := by simp
  rw [hidx]
  have hlast : (s.m_priQueue ++ [(⟨k, v⟩ : queue_node K V)])[s.m_priQueue.length]? =
      some ⟨k, v⟩ := by simp
  obtain ⟨s1, h1, h2, h3, h4⟩ := percUp_spec comp
    ⟨s.m_priQueue ++ [⟨k, v⟩], (k, (s.m_priQueue.length : Int)) :: s.m_hashMap⟩
    s.m_priQueue.length ⟨k, v⟩ hlast
  refine ⟨s1, h1, h2, ?_, ?_⟩
  · intro hswo hheap
    rw [heapOrder_iff_heapFrom] at hheap ⊢
    exact h3 hswo (upInv_of_append hheap _)
  · intro hb
    refine h4 ?_
    constructor
    · intro k1 i hk1
      simp only [hm_find] at hk1
      show ∃ x, vec_at (s.m_priQueue ++ [⟨k, v⟩]) i = some x ∧ x.first = k1
      by_cases hk : k = k1
      · rw [if_pos hk] at hk1
        cases hk1
        exact ⟨⟨k, v⟩, by rw [vec_at_nat]; exact hlast, hk⟩
      · rw [if_neg hk] at hk1
        obtain ⟨x, hx, hxk⟩ := hb.1 k1 i hk1
        obtain ⟨hi0, hxi⟩ := vec_at_some hx
        refine ⟨x, ?_, hxk⟩
        unfold vec_at
        rw [if_pos hi0, List.getElem?_append_left (getElem?_lt hxi)]
        exact hxi
    · intro n x hx
      simp only [hm_find]
      have hn := getElem?_lt hx
      simp only [List.length_append, List.length_singleton] at hn
      by_cases hnl : n < s.m_priQueue.length
      · rw [List.getElem?_append_left hnl] at hx
        have hf := hb.2 n x hx
        have hne : k ≠ x.first := by
          intro h
          rw [← h, habs] at hf; cases hf
        rw [if_neg hne]; exact hf
      · have hnl2 : n = s.m_priQueue.length := by omega
        subst hnl2
        rw [hlast] at hx
        cases hx
        rw [if_pos rfl]

theorem insert_absent_spec (comp : V → V → Bool) (s : priority_map K V) (k : K) (v : V)
    (habs : hm_find s.m_hashMap k = none) :
    ∃ s1, insert comp s k v = some (s1, true) ∧ update comp s k v = some s1 ∧
      s1.m_priQueue.Perm (s.m_priQueue ++ [⟨k, v⟩]) ∧
      (StrictWeakOrder comp → HeapOrder comp s.m_priQueue → HeapOrder comp s1.m_priQueue) ∧
      (IndexBijection s → IndexBijection s1 ∧
        s1.m_hashMap.map Prod.fst = k :: s.m_hashMap.map Prod.fst) := by
  obtain ⟨s1, h1, h2, h3, h4⟩ := append_percUp_spec comp s k v habs
  refine ⟨s1, ?_, ?_, h2, h3, h4⟩
  · unfold insert
    rw [hm_insert_absent _ _ _ habs]
    simp only [Option.bind_eq_bind, h1, Option.some_bind]
  · unfold update
    rw [habs]
    simp only [hm_insert_absent _ _ _ habs, h1]

theorem insert_present_eq (comp : V → V → Bool) (s : priority_map K V) (k : K) (v : V)
    (j : Int) (h : hm_find s.m_hashMap k = some j) :
    insert comp s k v = some (s, false) := by
  unfold insert
  rw [hm_insert_present _ _ _ _ h]

/-- The common part of `update` and `replace` for a key found at position `i`. -/
theorem resift_spec (comp : V → V → Bool) (s : priority_map K V) (k : K) (v : V)
    (n : Nat) (e : queue_node K V) (he : s.m_priQueue[n]? = some e) (hek : e.first = k) :
    ∃ s1,
      (if comp v e.second = true then
        (set_second s.m_priQueue (n : Int) v).bind fun q =>
          _PercDown comp ⟨q, s.m_hashMap⟩ (n : Int)
       else
        (set_second s.m_priQueue (n : Int) v).bind fun q =>
          _PercUp comp ⟨q, s.m_hashMap⟩ (n : Int)) = some s1 ∧
      s1.m_priQueue.Perm (s.m_priQueue.set n ⟨k, v⟩) ∧
      (StrictWeakOrder comp → HeapOrder comp s.m_priQueue → HeapOrder comp s1.m_priQueue) ∧
      (IndexBijection s → IndexBijection s1 ∧
        s1.m_hashMap.map Prod.fst = s.m_hashMap.map Prod.fst) := by
  have hn := getElem?_lt he
  have hset : set_second s.m_priQueue (n : Int) v = some (s.m_priQueue.set n ⟨k, v⟩) := by
    unfold set_second
    rw [vec_at_nat, he]
    simp only [Option.bind_eq_bind, Option.some_bind, vec_set_nat _ _ _ hn, hek]
  have hnew : (s.m_priQueue.set n ⟨k, v⟩)[n]? = some ⟨k, v⟩ := by
    rw [List.getElem?_set, if_pos rfl, if_pos hn]
  have hagree : ∀ a x, a ≠ n → (s.m_priQueue.set n ⟨k, v⟩)[a]? = some x →
      s.m_priQueue[a]? = some x := by
    intro a x ha hx
    rw [List.getElem?_set, if_neg (fun h => ha h.symm)] at hx
    exact hx
  have hbij : IndexBijection s → IndexBijection ⟨s.m_priQueue.set n ⟨k, v⟩, s.m_hashMap⟩ := by
    intro hb
    constructor
    · intro k1 i hk1
      obtain ⟨x, hx, hxk⟩ := hb.1 k1 i hk1
      obtain ⟨hi0, hxi⟩ := vec_at_some hx
      show ∃ x, vec_at (s.m_priQueue.set n ⟨k, v⟩) i = some x ∧ x.first = k1
      unfold vec_at
      rw [if_pos hi0, List.getElem?_set]
      by_cases hni : n = i.toNat
      · rw [if_pos hni, if_pos hn]
        refine ⟨_, rfl, ?_⟩
        rw [← hni, he] at hxi
        cases hxi
        rw [← hxk, ← hek]
      · rw [if_neg hni]
        exact ⟨x, hxi, hxk⟩
    · intro m x hx
      show hm_find s.m_hashMap x.first = some (m : Int)
      rw [List.getElem?_set] at hx
      by_cases hnm : n = m
      · rw [if_pos hnm, if_pos hn] at hx
        cases hx
        have := hb.2 n e he
        rw [hek, hnm] at this
        exact this
      · rw [if_neg hnm] at hx
        exact hb.2 m x hx
  rw [hset]
  simp only [Option.some_bind]
  cases hc : comp v e.second with
  | true =>
    obtain ⟨s1, h1, h2, h3, h4⟩ := percDown_spec comp
      ⟨s.m_priQueue.set n ⟨k, v⟩, s.m_hashMap⟩ n ⟨k, v⟩ hnew
    refine ⟨s1, by simpa using h1, h2, ?_, fun hb => h4 (hbij hb)⟩
    intro hswo hheap
    rw [heapOrder_iff_heapFrom] at hheap ⊢
    exact h3 0 hswo (Nat.zero_le _)
      (downInv_of_replace hswo hheap he hnew hagree (hswo.asymm _ _ hc))
  | false =>
    obtain ⟨s1, h1, h2, h3, h4⟩ := percUp_spec comp
      ⟨s.m_priQueue.set n ⟨k, v⟩, s.m_hashMap⟩ n ⟨k, v⟩ hnew
    refine ⟨s1, by simpa using h1, h2, ?_, fun hb => h4 (hbij hb)⟩
    intro hswo hheap
    rw [heapOrder_iff_heapFrom] at hheap ⊢
    exact h3 hswo (upInv_of_replace hswo hheap he hnew hagree hc)

theorem replace_eq_update (comp : V → V → Bool) (s : priority_map K V) (k : K) (v : V) :
    replace comp s k v =
      match hm_find s.m_hashMap k with
      | none => some (s, false)
      | some _ => (update comp s k v).map (fun s1 => (s1, true)) := by
  unfold replace update
  cases hf : hm_find s.m_hashMap k with
  | none => rfl
  | some i =>
    simp only [Option.bind_eq_bind]
    cases he : vec_at s.m_priQueue i with
    | none => rfl
    | some e =>
      simp only [Option.some_bind]
      cases hc : comp v e.second with
      | true =>
        simp only [if_true]
        cases set_second s.m_priQueue i v with
        | none => rfl
        | some q =>
          simp only [Option.some_bind]
          cases _PercDown comp ⟨q, s.m_hashMap⟩ i <;> rfl
      | false =>
        simp only [Bool.false_eq_true, if_false]
        cases set_second s.m_priQueue i v with
        | none => rfl
        | some q =>
          simp only [Option.some_bind]
          cases _PercUp comp ⟨q, s.m_hashMap⟩ i <;> rfl

theorem update_present_spec (comp : V → V → Bool) (s : priority_map K V) (k : K) (v : V)
    (hb : IndexBijection s) (i : Int) (hf : hm_find s.m_hashMap k = some i) :
    ∃ (n : Nat) (e : queue_node K V) (s1 : priority_map K V),
      i = (n : Int) ∧ s.m_priQueue[n]? = some e ∧ e.first = k ∧
      update comp s k v = some s1 ∧ replace comp s k v = some (s1, true) ∧
      s1.m_priQueue.Perm (s.m_priQueue.set n ⟨k, v⟩) ∧
      (StrictWeakOrder comp → HeapOrder comp s.m_priQueue → HeapOrder comp s1.m_priQueue) ∧
      IndexBijection s1 ∧ s1.m_hashMap.map Prod.fst = s.m_hashMap.map Prod.fst := by
  obtain ⟨e, he, hek⟩ := hb.1 k i hf
  obtain ⟨hi0, hei⟩ := vec_at_some he
  obtain ⟨n, rfl⟩ : ∃ n : Nat, i = (n : Int) := ⟨i.toNat, by omega⟩
  simp only [Int.toNat_ofNat] at hei
  obtain ⟨s1, h1, h2, h3, h4⟩ := resift_spec comp s k v n e hei hek
  have hu : update comp s k v = some s1 := by
    unfold update
    rw [hf]
    simp only [Option.bind_eq_bind, vec_at_nat, hei, Option.some_bind]
    exact h1
  refine ⟨n, e, s1, rfl, hei, hek, hu, ?_, h2, h3, (h4 hb).1, (h4 hb).2⟩
  rw [replace_eq_update, hf]
  simp only [hu, Option.map_some']

end OpSpecs

section EraseSpec
variable {K V : Type} [DecidableEq K]

theorem getElem?_dropLast_some {α : Type} {q : List α} {a : Nat} {x : α}
    (h : q.dropLast[a]? = some x) : a + 1 < q.length ∧ q[a]? = some x := by
  rw [List.getElem?_dropLast] at h
  by_cases h1 : a < q.length - 1
  · rw [if_pos h1] at h
    exact ⟨by omega, h⟩
  · rw [if_neg h1] at h; cases h

theorem dropLast_append_of_last {α : Type} {q : List α} {x : α}
    (h : q[q.length - 1]? = some x) : q.dropLast ++ [x] = q := by
  apply List.dropLast_append_getLast? x
  rw [List.getLast?_eq_getElem?]
  exact h

theorem erase_present_spec (comp : V → V → Bool) (s : priority_map K V) (k : K)
    (hb : IndexBijection s) (i : Int) (hf : hm_find s.m_hashMap k = some i) :
    ∃ (n : Nat) (e : queue_node K V) (s1 : priority_map K V),
      i = (n : Int) ∧ s.m_priQueue[n]? = some e ∧ e.first = k ∧
      erase comp s k = some s1 ∧
      (e :: s1.m_priQueue).Perm s.m_priQueue ∧
      (StrictWeakOrder comp → HeapOrder comp s.m_priQueue → HeapOrder comp s1.m_priQueue) ∧
      IndexBijection s1 ∧
      s1.m_hashMap.map Prod.fst = (hm_erase s.m_hashMap k).map Prod.fst := by
  obtain ⟨e, he, hek⟩ := hb.1 k i hf
  obtain ⟨hi0, hei⟩ := vec_at_some he
  obtain ⟨n, rfl⟩ : ∃ n : Nat, i = (n : Int) := ⟨i.toNat, by omega⟩
  simp only [Int.toNat_ofNat] at hei
  have hn := getElem?_lt hei
  have hlenc : (s.m_priQueue.length : Int) - 1 = ((s.m_priQueue.length - 1 : Nat) : Int) := by
    omega
  by_cases hlast : n = s.m_priQueue.length - 1
  · -- the erased key sits at the last position
    have hres : erase comp s k = some ⟨s.m_priQueue.dropLast, hm_erase s.m_hashMap k⟩ := by
      unfold erase
      rw [hf]
      simp only
      rw [if_pos (by omega)]
    refine ⟨n, e, _, rfl, hei, hek, hres, ?_, ?_, ?_, rfl⟩
    · have := dropLast_append_of_last (hlast ▸ hei)
      exact ((List.perm_append_singleton e _).symm.trans (by rw [this]))
    · intro _ hheap
      rw [heapOrder_iff_heapFrom] at hheap ⊢
      exact heapFrom_of_agree (fun a x hx => (getElem?_dropLast_some hx).2) hheap
    · constructor
      · intro k1 i1 hk1
        simp only [hm_find_erase] at hk1
        by_cases hkk : k = k1
        · rw [if_pos hkk] at hk1; cases hk1
        · rw [if_neg hkk] at hk1
          obtain ⟨x, hx, hxk⟩ := hb.1 k1 i1 hk1
          obtain ⟨hi10, hxi⟩ := vec_at_some hx
          refine ⟨x, ?_, hxk⟩
          show vec_at s.m_priQueue.dropLast i1 = some x
          unfold vec_at
          have hne : i1.toNat ≠ n := by
            intro h
            rw [h, hei] at hxi
            cases hxi
            exact hkk (hek.symm.trans hxk)
          have := getElem?_lt hxi
          rw [if_pos hi10, List.getElem?_dropLast, if_pos (by omega)]
          exact hxi
      · intro m x hx
        obtain ⟨hm, hxm⟩ := getElem?_dropLast_some hx
        have hfm := hb.2 m x hxm
        show hm_find (hm_erase s.m_hashMap k) x.first = some (m : Int)
        rw [hm_find_erase]
        have hne : k ≠ x.first := by
          intro h
          rw [← h, hf] at hfm
          have : (n : Int) = (m : Int) := Option.some.inj hfm
          omega
        rw [if_neg hne]; exact hfm
  · -- relocation of the last node into position `n`
    have hn1 : n + 1 < s.m_priQueue.length := by omega
    obtain ⟨last, hl⟩ : ∃ last, s.m_priQueue[s.m_priQueue.length - 1]? = some last :=
      ⟨s.m_priQueue[s.m_priQueue.length - 1], List.getElem?_eq_getElem (by omega)⟩
    have hfl := hb.2 _ last hl
    have hlk : k ≠ last.first := by
      intro h
      rw [← h, hf] at hfl
      have : (n : Int) = ((s.m_priQueue.length - 1 : Nat) : Int) := Option.some.inj hfl
      omega
    -- the state handed to the percolation
    have hq1 : ∀ a x, ((s.m_priQueue.set n last).dropLast)[a]? = some x ↔
        (a + 1 < s.m_priQueue.length ∧
          ((a = n ∧ x = last) ∨ (a ≠ n ∧ s.m_priQueue[a]? = some x))) := by
      intro a x
      rw [List.getElem?_dropLast, List.length_set, List.getElem?_set]
      by_cases h1 : a < s.m_priQueue.length - 1
      · rw [if_pos h1]
        by_cases h2 : n = a
        · rw [if_pos h2, if_pos hn]
          constructor
          · intro h; cases h; exact ⟨by omega, Or.inl ⟨h2.symm, rfl⟩⟩
          · rintro ⟨-, ⟨-, h⟩ | ⟨h, -⟩⟩
            · rw [h]
            · exact absurd h2.symm h
        · rw [if_neg h2]
          constructor
          · intro h; exact ⟨by omega, Or.inr ⟨fun h3 => h2 h3.symm, h⟩⟩
          · rintro ⟨-, ⟨h, -⟩ | ⟨-, h⟩⟩
            · exact absurd h.symm h2
            · exact h
      · rw [if_neg h1]
        constructor
        · intro h; cases h
        · rintro ⟨h, -⟩; omega
    have hnew : ((s.m_priQueue.set n last).dropLast)[n]? = some last :=
      (hq1 n last).2 ⟨hn1, Or.inl ⟨rfl, rfl⟩⟩
    have hagree : ∀ a x, a ≠ n → ((s.m_priQueue.set n last).dropLast)[a]? = some x →
        s.m_priQueue[a]? = some x := by
      intro a x ha hx
      rcases (hq1 a x).1 hx with ⟨-, ⟨h, -⟩ | ⟨-, h⟩⟩
      · exact absurd h ha
      · exact h
    have hb1 : IndexBijection (K := K) (V := V) ⟨(s.m_priQueue.set n last).dropLast,
        hm_assign (hm_erase s.m_hashMap k) last.first (n : Int)⟩ := by
      constructor
      · intro k1 i1 hk1
        simp only [hm_find_assign, hm_find_erase] at hk1
        show ∃ x, vec_at ((s.m_priQueue.set n last).dropLast) i1 = some x ∧ x.first = k1
        by_cases hlk1 : last.first = k1
        · rw [if_pos hlk1] at hk1
          cases hk1
          exact ⟨last, by rw [vec_at_nat]; exact hnew, hlk1⟩
        · rw [if_neg hlk1] at hk1
          by_cases hkk : k = k1
          · rw [if_pos hkk] at hk1; cases hk1
          · rw [if_neg hkk] at hk1
            obtain ⟨x, hx, hxk⟩ := hb.1 k1 i1 hk1
            obtain ⟨hi10, hxi⟩ := vec_at_some hx
            refine ⟨x, ?_, hxk⟩
            unfold vec_at
            rw [if_pos hi10]
            have hne : i1.toNat ≠ n := by
              intro h
              rw [h, hei] at hxi
              cases hxi
              exact hkk (hek.symm.trans hxk)
            have hne2 : i1.toNat ≠ s.m_priQueue.length - 1 := by
              intro h
              rw [h, hl] at hxi
              cases hxi
              exact hlk1 hxk
            have := getElem?_lt hxi
            exact (hq1 _ x).2 ⟨by omega, Or.inr ⟨hne, hxi⟩⟩
      · intro m x hx
        show hm_find (hm_assign (hm_erase s.m_hashMap k) last.first (n : Int)) x.first =
          some (m : Int)
        rw [hm_find_assign, hm_find_erase]
        rcases (hq1 m x).1 hx with ⟨hm, ⟨h1, h2⟩ | ⟨h1, h2⟩⟩
        · rw [h2, if_pos rfl, h1]
        · have hfm := hb.2 m x h2
          have hne1 : last.first ≠ x.first := by
            intro h
            rw [← h, hfl] at hfm
            have : ((s.m_priQueue.length - 1 : Nat) : Int) = (m : Int) := Option.some.inj hfm
            omega
          have hne2 : k ≠ x.first := by
            intro h
            rw [← h, hf] at hfm
            have : (n : Int) = (m : Int) := Option.some.inj hfm
            omega
          rw [if_neg hne1, if_neg hne2]; exact hfm
    have hkeys : (hm_assign (hm_erase s.m_hashMap k) last.first (n : Int)).map Prod.fst =
        (hm_erase s.m_hashMap k).map Prod.fst := by
      apply hm_assign_keys
      rw [hm_find_erase, if_neg hlk, hfl]; simp
    have hperm : (e :: (s.m_priQueue.set n last).dropLast).Perm s.m_priQueue := by
      have hd := dropLast_append_of_last hl
      have hset : (s.m_priQueue.set n last).dropLast = s.m_priQueue.dropLast.set n last := by
        conv_lhs => rw [← hd]
        rw [List.set_append_left _ _ (by simp; omega)]
        simp
      have hde : s.m_priQueue.dropLast[n]? = some e := by
        rw [List.getElem?_dropLast, if_pos (by omega)]; exact hei
      rw [hset]
      refine (perm_cons_set _ n last e hde).trans ?_
      refine (List.perm_append_singleton last _).symm.trans ?_
      rw [hd]
    have hunf : erase comp s k =
        (if comp e.second last.second = true then
          _PercUp comp ⟨(s.m_priQueue.set n last).dropLast,
            hm_assign (hm_erase s.m_hashMap k) last.first (n : Int)⟩ (n : Int)
         else
          _PercDown comp ⟨(s.m_priQueue.set n last).dropLast,
            hm_assign (hm_erase s.m_hashMap k) last.first (n : Int)⟩ (n : Int)) := by
      unfold erase
      rw [hf]
      simp only
      rw [if_neg (by omega), hlenc]
      simp only [Option.bind_eq_bind, vec_at_nat, hei, hl, Option.some_bind,
        vec_set_nat _ _ _ hn]
    cases hc : comp e.second last.second with
    | true =>
      obtain ⟨s1, h1, h2, h3, h4⟩ := percUp_spec comp
        ⟨(s.m_priQueue.set n last).dropLast,
          hm_assign (hm_erase s.m_hashMap k) last.first (n : Int)⟩ n last hnew
      refine ⟨n, e, s1, rfl, hei, hek, ?_, ?_, ?_, (h4 hb1).1, ?_⟩
      · rw [hunf, hc]; simpa using h1
      · exact (h2.cons e).trans hperm
      · intro hswo hheap
        rw [heapOrder_iff_heapFrom] at hheap ⊢
        exact h3 hswo (upInv_of_replace hswo hheap hei hnew hagree (hswo.asymm _ _ hc))
      · rw [(h4 hb1).2, hkeys]
    | false =>
      obtain ⟨s1, h1, h2, h3, h4⟩ := percDown_spec comp
        ⟨(s.m_priQueue.set n last).dropLast,
          hm_assign (hm_erase s.m_hashMap k) last.first (n : Int)⟩ n last hnew
      refine ⟨n, e, s1, rfl, hei, hek, ?_, ?_, ?_, (h4 hb1).1, ?_⟩
      · rw [hunf, hc]; simpa using h1
      · exact (h2.cons e).trans hperm
      · intro hswo hheap
        rw [heapOrder_iff_heapFrom] at hheap ⊢
        exact h3 0 hswo (Nat.zero_le _)
          (downInv_of_replace hswo hheap hei hnew hagree hc)
      · rw [(h4 hb1).2, hkeys]

theorem erase_absent_eq (comp : V → V → Bool) (s : priority_map K V) (k : K)
    (hf : hm_find s.m_hashMap k = none) : erase comp s k = some s := by
  unfold erase
  rw [hf]

end EraseSpec

section PopBuild
variable {K V : Type} [DecidableEq K]

theorem indexBijection_empty : IndexBijection (⟨[], []⟩ : priority_map K V) := by
  constructor
  · intro k i h
    simp [hm_find] at h
  · intro n x h
    simp at h

theorem pop_empty_eq (comp : V → V → Bool) (s : priority_map K V)
    (h : s.m_priQueue = []) : pop comp s = some s := by
  unfold pop
  rw [h]
  rfl

theorem pop_nonempty_spec (comp : V → V → Bool) (s : priority_map K V)
    (hb : IndexBijection s) (t : queue_node K V) (ht : s.m_priQueue[0]? = some t) :
    ∃ s1, pop comp s = some s1 ∧
      (s.m_priQueue.length = 1 → s1 = clear s) ∧
      (s.m_priQueue.length ≠ 1 → erase comp s t.first = some s1) ∧
      (t :: s1.m_priQueue).Perm s.m_priQueue ∧
      (StrictWeakOrder comp → HeapOrder comp s.m_priQueue → HeapOrder comp s1.m_priQueue) ∧
      IndexBijection s1 ∧
      s1.m_hashMap.map Prod.fst = (hm_erase s.m_hashMap t.first).map Prod.fst := by
  have hlen := getElem?_lt ht
  have hne : s.m_priQueue.isEmpty = false := by
    cases hq : s.m_priQueue with
    | nil => rw [hq] at hlen; simp at hlen
    | cons a l => rfl
  by_cases h1 : s.m_priQueue.length = 1
  · have hq : s.m_priQueue = [t] := by
      cases hq : s.m_priQueue with
      | nil => rw [hq] at hlen; simp at hlen
      | cons a l =>
        rw [hq] at h1 ht
        simp only [List.length_cons, Nat.add_eq_right, List.length_eq_zero] at h1
        simp only [List.getElem?_cons_zero, Option.some.injEq] at ht
        rw [h1, ht]
    have hkeys : (hm_erase s.m_hashMap t.first).map Prod.fst = [] := by
      rw [List.map_eq_nil_iff]
      cases hh : hm_erase s.m_hashMap t.first with
      | nil => rfl
      | cons p m =>
        exfalso
        have h2 : hm_find (hm_erase s.m_hashMap t.first) p.1 = some p.2 := by
          rw [hh]; simp [hm_find]
        rw [hm_find_erase] at h2
        by_cases h3 : t.first = p.1
        · rw [if_pos h3] at h2; cases h2
        · rw [if_neg h3] at h2
          obtain ⟨x, hx, hxk⟩ := hb.1 _ _ h2
          obtain ⟨_, hxi⟩ := vec_at_some hx
          rw [hq] at hxi
          have := getElem?_lt hxi
          simp only [List.length_singleton, Nat.lt_one_iff] at this
          rw [this] at hxi
          simp only [List.getElem?_cons_zero, Option.some.injEq] at hxi
          rw [hxi] at h3
          exact h3 hxk
    refine ⟨clear s, ?_, fun _ => rfl, fun h => absurd h1 h, ?_, ?_, ?_, ?_⟩
    · unfold pop
      rw [hne]
      simp [h1]
    · rw [hq]; exact List.Perm.refl _
    · intro _ _; exact heapOrder_nil comp
    · exact indexBijection_empty
    · rw [hkeys]; rfl
  · have hf := hb.2 0 t ht
    obtain ⟨n, e, s1, hn, he, hek, hres, hperm, hheap, hb1, hkeys⟩ :=
      erase_present_spec comp s t.first hb _ hf
    have hn0 : n = 0 := by
      have : ((0 : Nat) : Int) = (n : Int) := hn
      omega
    subst hn0
    rw [ht] at he
    cases he
    refine ⟨s1, ?_, fun h => absurd h h1, fun _ => hres, hperm, hheap, hb1, hkeys⟩
    unfold pop
    rw [hne]
    simp only [Bool.false_eq_true, if_false, h1, Option.bind_eq_bind]
    rw [show vec_at s.m_priQueue 0 = vec_at s.m_priQueue ((0 : Nat) : Int) from rfl, vec_at_nat,
      ht]
    exact hres

theorem _Father_neg_one : _Father (-1) = -1 := by
  decide

theorem buildHeap_from_spec (comp : V → V → Bool) :
    ∀ (n : Nat) (s : priority_map K V), n ≤ s.m_priQueue.length →
      ∃ s1, _BuildHeap_from comp n s = some s1 ∧
        s1.m_priQueue.Perm s.m_priQueue ∧
        (StrictWeakOrder comp → HeapFrom comp n s.m_priQueue → HeapFrom comp 0 s1.m_priQueue) ∧
        (IndexBijection s → IndexBijection s1 ∧
          s1.m_hashMap.map Prod.fst = s.m_hashMap.map Prod.fst) := by
  intro n
  induction n with
  | zero =>
    intro s _
    exact ⟨s, rfl, List.Perm.refl _, fun _ h => h, fun h => ⟨h, rfl⟩⟩
  | succ n ih =>
    intro s hn
    obtain ⟨tmp, htmp⟩ : ∃ tmp, s.m_priQueue[n]? = some tmp :=
      ⟨s.m_priQueue[n], List.getElem?_eq_getElem (by omega)⟩
    obtain ⟨s1, h1, h2, h3, h4⟩ := percDown_spec comp s n tmp htmp
    obtain ⟨s2, g1, g2, g3, g4⟩ := ih s1 (by rw [h2.length_eq]; omega)
    refine ⟨s2, ?_, g2.trans h2, ?_, ?_⟩
    · simp only [_BuildHeap_from, Option.bind_eq_bind, h1, Option.some_bind]
      exact g1
    · intro hswo hheap
      refine g3 hswo (h3 n hswo (le_refl _) ⟨?_, ?_⟩)
      · intro j hj hne
        exact hheap j (by omega)
      · intro j c hjn hj
        omega
    · intro hb
      obtain ⟨hb1, hk1⟩ := h4 hb
      obtain ⟨hb2, hk2⟩ := g4 hb1
      exact ⟨hb2, hk2.trans hk1⟩

theorem buildHeap_spec (comp : V → V → Bool) (s : priority_map K V) :
    ∃ s1, _BuildHeap comp s = some s1 ∧
      s1.m_priQueue.Perm s.m_priQueue ∧
      (StrictWeakOrder comp → HeapOrder comp s1.m_priQueue) ∧
      (IndexBijection s → IndexBijection s1 ∧
        s1.m_hashMap.map Prod.fst = s.m_hashMap.map Prod.fst) := by
  have hcount : ∃ c : Nat, (_Father ((s.m_priQueue.length : Int) - 1) + 1).toNat = c ∧
      c ≤ s.m_priQueue.length ∧ ∀ j, c ≤ j / 2 → s.m_priQueue.length ≤ j + 1 := by
    cases hl : s.m_priQueue.length with
    | zero =>
      refine ⟨0, ?_, le_refl _, fun j _ => by omega⟩
      have : ((0 : Nat) : Int) - 1 = -1 := by omega
      rw [this, _Father_neg_one]; rfl
    | succ m =>
      cases m with
      | zero =>
        refine ⟨0, ?_, by omega, fun j _ => by omega⟩
        have : ((0 + 1 : Nat) : Int) - 1 = 0 := by omega
        rw [this, _Father_zero]; rfl
      | succ m =>
        refine ⟨m / 2 + 1, ?_, by omega, fun j _ => by omega⟩
        have : ((m + 1 + 1 : Nat) : Int) - 1 = ((m + 1 : Nat) : Int) := by omega
        rw [this, _Father_succ]
        omega
  obtain ⟨c, hc, hcl, hout⟩ := hcount
  obtain ⟨s1, h1, h2, h3, h4⟩ := buildHeap_from_spec comp c s hcl
  refine ⟨s1, ?_, h2, ?_, h4⟩
  · unfold _BuildHeap
    rw [hc]; exact h1
  · intro hswo
    rw [heapOrder_iff_heapFrom]
    refine h3 hswo ?_
    rintro j hj ⟨u, v, -, hv, -⟩
    have := getElem?_lt hv
    have := hout j hj
    omega

end PopBuild

section CheckerLemmas
variable {K V : Type} [DecidableEq K]

theorem hm_find_mem {m : HashMapType K} {k : K} {i : Int} (h : hm_find m k = some i) :
    (k, i) ∈ m := by
  induction m with
  | nil => simp [hm_find] at h
  | cons p m ih =>
    obtain ⟨k0, j⟩ := p
    simp only [hm_find] at h
    by_cases h0 : k0 = k
    · rw [if_pos h0] at h
      cases h
      rw [h0]
      exact List.mem_cons_self _ _
    · rw [if_neg h0] at h
      exact List.mem_cons_of_mem _ (ih h)

theorem indexBijection_of_bij_ok (s : priority_map K V) (h : bij_ok s = true) :
    IndexBijection s := by
  unfold bij_ok at h
  rw [Bool.and_eq_true, List.all_eq_true, List.all_eq_true] at h
  constructor
  · intro k i hk
    have := h.1 (k, i) (hm_find_mem hk)
    cases hx : vec_at s.m_priQueue i with
    | none => simp [hx] at this
    | some x =>
      simp only [hx, decide_eq_true_eq] at this
      exact ⟨x, rfl, this⟩
  · intro n x hx
    have := h.2 n (List.mem_range.2 (getElem?_lt hx))
    simpa [hx] using this

theorem less_int_swo : StrictWeakOrder less_int := by
  constructor
  · intro a; simp [less_int]
  · intro a b c hab hbc
    simp only [less_int, decide_eq_true_eq] at *
    omega
  · intro a b c h1 h2 h3 h4
    simp only [less_int, decide_eq_false_iff_not] at *
    constructor <;> omega

end CheckerLemmas

section Claims12
variable {K V : Type} [DecidableEq K]

/-- Every mutation returns a state, which keeps the index bijection, and keeps heap
order when the comparator is a strict weak order. -/
theorem mutations_preserve (comp : V → V → Bool) (s : priority_map K V)
    (hbij : IndexBijection s) (k : K) (v : V) :
    (∃ r, insert comp s k v = some r ∧ IndexBijection r.1 ∧
      (StrictWeakOrder comp → HeapOrder comp s.m_priQueue → HeapOrder comp r.1.m_priQueue)) ∧
    (∃ s1, update comp s k v = some s1 ∧ IndexBijection s1 ∧
      (StrictWeakOrder comp → HeapOrder comp s.m_priQueue → HeapOrder comp s1.m_priQueue)) ∧
    (∃ r, replace comp s k v = some r ∧ IndexBijection r.1 ∧
      (StrictWeakOrder comp → HeapOrder comp s.m_priQueue → HeapOrder comp r.1.m_priQueue)) ∧
    (∃ s1, erase comp s k = some s1 ∧ IndexBijection s1 ∧
      (StrictWeakOrder comp → HeapOrder comp s.m_priQueue → HeapOrder comp s1.m_priQueue)) ∧
    (∃ s1, pop comp s = some s1 ∧ IndexBijection s1 ∧
      (StrictWeakOrder comp → HeapOrder comp s.m_priQueue → HeapOrder comp s1.m_priQueue)) := by
  have hpop : ∃ s1, pop comp s = some s1 ∧ IndexBijection s1 ∧
      (StrictWeakOrder comp → HeapOrder comp s.m_priQueue → HeapOrder comp s1.m_priQueue) := by
    cases hq : s.m_priQueue with
    | nil => exact ⟨s, pop_empty_eq comp s hq, hbij, fun _ _ => by rw [hq]; exact heapOrder_nil comp⟩
    | cons t l =>
      have ht : s.m_priQueue[0]? = some t := by rw [hq]; simp
      obtain ⟨s1, h1, -, -, -, h3, h4, -⟩ := pop_nonempty_spec comp s hbij t ht
      exact ⟨s1, h1, h4, fun hswo hh => h3 hswo (hq ▸ hh)⟩
  cases hf : hm_find s.m_hashMap k with
  | none =>
    obtain ⟨s1, h1, h2, -, h4, h5⟩ := insert_absent_spec comp s k v hf
    refine ⟨⟨_, h1, (h5 hbij).1, h4⟩, ⟨s1, h2, (h5 hbij).1, h4⟩, ⟨(s, false), ?_, hbij, fun _ h => h⟩,
      ⟨s, erase_absent_eq comp s k hf, hbij, fun _ h => h⟩, hpop⟩
    rw [replace_eq_update, hf]
  | some i =>
    obtain ⟨n, e, s1, -, -, -, h1, h2, -, h4, h5, -⟩ := update_present_spec comp s k v hbij i hf
    obtain ⟨n2, e2, s2, -, -, -, g1, -, g3, g4, -⟩ := erase_present_spec comp s k hbij i hf
    exact ⟨⟨(s, false), insert_present_eq comp s k v i hf, hbij, fun _ h => h⟩,
      ⟨s1, h1, h5, h4⟩, ⟨(s1, true), h2, h5, h4⟩, ⟨s2, g1, g4, g3⟩, hpop⟩

/-- C1. Heap order is preserved by every mutation: for a strict weak order `comp` and a
state with heap order and the index bijection, each of `insert`, `update`, `push`,
`replace`, `erase`, `pop` and `clear` returns a state, and that state satisfies heap
order (no parent's value is below the value of a child). -/
theorem C1_heap_order_preserved (comp : V → V → Bool) (hswo : StrictWeakOrder comp)
    (s : priority_map K V) (hheap : HeapOrder comp s.m_priQueue) (hbij : IndexBijection s)
    (k : K) (v : V) :
    (∃ r, insert comp s k v = some r ∧ HeapOrder comp r.1.m_priQueue) ∧
    (∃ s1, update comp s k v = some s1 ∧ HeapOrder comp s1.m_priQueue) ∧
    (∃ s1, push comp s k v = some s1 ∧ HeapOrder comp s1.m_priQueue) ∧
    (∃ r, replace comp s k v = some r ∧ HeapOrder comp r.1.m_priQueue) ∧
    (∃ s1, erase comp s k = some s1 ∧ HeapOrder comp s1.m_priQueue) ∧
    (∃ s1, pop comp s = some s1 ∧ HeapOrder comp s1.m_priQueue) ∧
    HeapOrder comp (clear s).m_priQueue := by
  obtain ⟨⟨r1, a1, -, a2⟩, ⟨s2, b1, -, b2⟩, ⟨r3, c1, -, c2⟩, ⟨s4, d1, -, d2⟩, ⟨s5, e1, -, e2⟩⟩ :=
    mutations_preserve comp s hbij k v
  exact ⟨⟨r1, a1, a2 hswo hheap⟩, ⟨s2, b1, b2 hswo hheap⟩, ⟨s2, b1, b2 hswo hheap⟩,
    ⟨r3, c1, c2 hswo hheap⟩, ⟨s4, d1, d2 hswo hheap⟩, ⟨s5, e1, e2 hswo hheap⟩,
    heapOrder_nil comp⟩

/-- C2. The index bijection is preserved by every mutation: for a state with the index
bijection, each of `insert`, `update`, `push`, `replace`, `erase`, `pop` and
`clear` returns a state, and that state satisfies the index bijection. Neither heap
order nor any property of the comparator is needed. -/
theorem C2_index_bijection_preserved (comp : V → V → Bool)
    (s : priority_map K V) (hbij : IndexBijection s) (k : K) (v : V) :
    (∃ r, insert comp s k v = some r ∧ IndexBijection r.1) ∧
    (∃ s1, update comp s k v = some s1 ∧ IndexBijection s1) ∧
    (∃ s1, push comp s k v = some s1 ∧ IndexBijection s1) ∧
    (∃ r, replace comp s k v = some r ∧ IndexBijection r.1) ∧
    (∃ s1, erase comp s k = some s1 ∧ IndexBijection s1) ∧
    (∃ s1, pop comp s = some s1 ∧ IndexBijection s1) ∧
    IndexBijection (clear s) := by
  obtain ⟨⟨r1, a1, a2, -⟩, ⟨s2, b1, b2, -⟩, ⟨r3, c1, c2, -⟩, ⟨s4, d1, d2, -⟩, ⟨s5, e1, e2, -⟩⟩ :=
    mutations_preserve comp s hbij k v
  exact ⟨⟨r1, a1, a2⟩, ⟨s2, b1, b2⟩, ⟨s2, b1, b2⟩, ⟨r3, c1, c2⟩, ⟨s4, d1, d2⟩, ⟨s5, e1, e2⟩,
    indexBijection_empty⟩

/-- Heap order after `update("a", 10)` on the sample state. -/
theorem C1_heap_order_preserved_witness :
    StrictWeakOrder less_int ∧ HeapOrder less_int sample_state.m_priQueue ∧
    IndexBijection sample_state ∧
    (∃ s1, update less_int sample_state "a" 10 = some s1 ∧
      HeapOrder less_int s1.m_priQueue) :=
  ⟨less_int_swo, heapOrder_of_heap_ok _ _ (by decide), indexBijection_of_bij_ok _ (by decide),
    (C1_heap_order_preserved less_int less_int_swo sample_state
      (heapOrder_of_heap_ok _ _ (by decide)) (indexBijection_of_bij_ok _ (by decide))
      "a" 10).2.1⟩

/-- Index bijection after `erase("c")` on the sample state. -/
theorem C2_index_bijection_preserved_witness :
    IndexBijection sample_state ∧
    (∃ s1, erase less_int sample_state "c" = some s1 ∧ IndexBijection s1) :=
  ⟨indexBijection_of_bij_ok _ (by decide),
    (C2_index_bijection_preserved less_int sample_state
      (indexBijection_of_bij_ok _ (by decide)) "c" 0).2.2.2.2.1⟩

end Claims12

section Claim3
variable {K V : Type} [DecidableEq K]

/-- C3 (evaluation at the failing input). Building from `[(a,5),(a,2),(b,3)]` returns the
store `[(a,5),(b,3)]` with the index `b ↦ 2`, `a ↦ 0`: the constructor counts the dropped
duplicate in `index`, the key `b` stored at position `1` is registered at position `2`,
which is outside the store, and the index bijection fails. -/
theorem C3_construct_duplicate_breaks_bijection :
    construct less_int [("a", 5), ("a", 2), ("b", 3)] =
      some ⟨[⟨"a", 5⟩, ⟨"b", 3⟩], [("b", 2), ("a", 0)]⟩ ∧
    ¬ IndexBijection
      (⟨[⟨"a", 5⟩, ⟨"b", 3⟩], [("b", 2), ("a", 0)]⟩ : priority_map String Int) := by
  refine ⟨by decide, ?_⟩
  intro h
  obtain ⟨x, hx, -⟩ := h.1 "b" 2 (by decide)
  have : vec_at ([⟨"a", 5⟩, ⟨"b", 3⟩] : List (queue_node String Int)) 2 = none := by decide
  rw [this] at hx
  cases hx

end Claim3

section Claim4
variable {K V : Type}

/-- C4. For a strict weak order `comp` and a state with a non-empty store in heap order,
`top()` returns the node at position `0`, and `comp` puts the value of that node below the
value of no node of the store. Building from `[(a,5),(b,1),(c,9),(d,3)]` with the default
comparator gives `top() = (c,9)`. -/
theorem C4_top_is_maximum (comp : V → V → Bool) (hswo : StrictWeakOrder comp)
    (s : priority_map K V) (hne : s.m_priQueue ≠ []) (hheap : HeapOrder comp s.m_priQueue) :
    (∃ t, top s = some t ∧ s.m_priQueue[0]? = some t ∧
      ∀ e ∈ s.m_priQueue, comp t.second e.second = false) ∧
    (construct less_int [("a", 5), ("b", 1), ("c", 9), ("d", 3)]).bind top =
      some ⟨"c", 9⟩ := by
  refine ⟨?_, by decide⟩
  cases hq : s.m_priQueue with
  | nil => exact absurd hq hne
  | cons t l =>
    have ht : s.m_priQueue[0]? = some t := by rw [hq]; simp
    refine ⟨t, ?_, by rw [← hq]; exact ht, ?_⟩
    · show vec_at s.m_priQueue ((0 : Nat) : Int) = some t
      rw [vec_at_nat]; exact ht
    · intro e he
      rw [← hq] at he
      obtain ⟨n, hn⟩ := List.getElem?_of_mem he
      rw [heapOrder_iff_heapFrom] at hheap
      exact heapFrom_top_max hswo hheap ht n e hn

/-- The top of the sample state is a maximum. -/
theorem C4_top_is_maximum_witness :
    StrictWeakOrder less_int ∧ sample_state.m_priQueue ≠ [] ∧
    HeapOrder less_int sample_state.m_priQueue ∧
    (∃ t, top sample_state = some t ∧ sample_state.m_priQueue[0]? = some t ∧
      ∀ e ∈ sample_state.m_priQueue, less_int t.second e.second = false) :=
  ⟨less_int_swo, by decide, heapOrder_of_heap_ok _ _ (by decide),
    (C4_top_is_maximum less_int less_int_swo sample_state (by decide)
      (heapOrder_of_heap_ok _ _ (by decide))).1⟩

end Claim4

section Claim5
variable {K V : Type} [DecidableEq K]

theorem hashMap_nil_of_store_nil {s : priority_map K V} (hb : IndexBijection s)
    (hq : s.m_priQueue = []) : s.m_hashMap = [] := by
  cases hh : s.m_hashMap with
  | nil => rfl
  | cons p m =>
    exfalso
    have h2 : hm_find s.m_hashMap p.1 = some p.2 := by
      rw [hh]; simp [hm_find]
    obtain ⟨x, hx, -⟩ := hb.1 _ _ h2
    obtain ⟨-, hxi⟩ := vec_at_some hx
    rw [hq] at hxi
    simp at hxi

theorem pop_all_spec (comp : V → V → Bool) (hswo : StrictWeakOrder comp) :
    ∀ (n : Nat) (s : priority_map K V), s.m_priQueue.length = n →
      HeapOrder comp s.m_priQueue → IndexBijection s →
      ∃ vs s1, pop_all comp n s = some (vs, s1) ∧ vs.length = n ∧
        vs.Pairwise (fun a b => comp a b = false) ∧
        (∀ b ∈ vs, ∃ e ∈ s.m_priQueue, e.second = b) ∧
        s1.m_priQueue = [] ∧ s1.m_hashMap = [] := by
  intro n
  induction n with
  | zero =>
    intro s hlen _ hb
    have hq : s.m_priQueue = [] := List.length_eq_zero.1 hlen
    exact ⟨[], s, rfl, rfl, List.Pairwise.nil, fun b hb => by simp at hb, hq,
      hashMap_nil_of_store_nil hb hq⟩
  | succ n ih =>
    intro s hlen hheap hb
    cases hq : s.m_priQueue with
    | nil => rw [hq] at hlen; simp at hlen
    | cons t l =>
      have ht : s.m_priQueue[0]? = some t := by rw [hq]; simp
      obtain ⟨s1, h1, -, -, hperm, h3, h4, -⟩ := pop_nonempty_spec comp s hb t ht
      have hlen1 : s1.m_priQueue.length = n := by
        have := hperm.length_eq
        simp only [List.length_cons] at this
        omega
      obtain ⟨vs, s2, g1, g2, g3, g4, g5, g6⟩ := ih s1 hlen1 (h3 hswo hheap) h4
      have htop : top s = some t := by
        show vec_at s.m_priQueue ((0 : Nat) : Int) = some t
        rw [vec_at_nat]; exact ht
      refine ⟨t.second :: vs, s2, ?_, by simp [g2], ?_, ?_, g5, g6⟩
      · simp only [pop_all, Option.bind_eq_bind, htop, h1, g1, Option.some_bind]
      · refine List.Pairwise.cons ?_ g3
        intro b hbv
        obtain ⟨e, he, heb⟩ := g4 b hbv
        have hes : e ∈ s.m_priQueue := hperm.subset (List.mem_cons_of_mem _ he)
        obtain ⟨m, hm⟩ := List.getElem?_of_mem hes
        rw [← heb]
        exact heapFrom_top_max hswo ((heapOrder_iff_heapFrom _ _).1 hheap) ht m e hm
      · intro b hbv
        rw [← hq]
        rcases List.mem_cons.1 hbv with h | h
        · exact ⟨t, List.getElem?_mem ht, h.symm⟩
        · obtain ⟨e, he, heb⟩ := g4 b h
          exact ⟨e, hperm.subset (List.mem_cons_of_mem _ he), heb⟩

/-- C5. Pop order: for a strict weak order `comp` and a state with heap order and the
index bijection whose store has `n` nodes, recording `top().second` before each of `n`
successive calls of `pop()` succeeds and gives `n` values `v_1, ..., v_n` with
`comp v_i v_j = false` for all `i < j`; afterwards the structure is empty (store and
index). -/
theorem C5_pop_order (comp : V → V → Bool) (hswo : StrictWeakOrder comp)
    (s : priority_map K V) (hheap : HeapOrder comp s.m_priQueue) (hbij : IndexBijection s) :
    ∃ vs s1, pop_all comp s.m_priQueue.length s = some (vs, s1) ∧
      vs.length = s.m_priQueue.length ∧
      vs.Pairwise (fun a b => comp a b = false) ∧
      empty s1 = true ∧ s1.m_priQueue = [] := by
  obtain ⟨vs, s1, h1, h2, h3, -, h5, h6⟩ :=
    pop_all_spec comp hswo s.m_priQueue.length s rfl hheap hbij
  refine ⟨vs, s1, h1, h2, h3, ?_, h5⟩
  unfold empty
  rw [h6]; rfl

/-- Popping the sample state until it is empty. -/
theorem C5_pop_order_witness :
    StrictWeakOrder less_int ∧ HeapOrder less_int sample_state.m_priQueue ∧
    IndexBijection sample_state ∧
    (∃ vs s1, pop_all less_int sample_state.m_priQueue.length sample_state = some (vs, s1) ∧
      vs.length = sample_state.m_priQueue.length ∧
      vs.Pairwise (fun a b => less_int a b = false) ∧
      empty s1 = true ∧ s1.m_priQueue = []) :=
  ⟨less_int_swo, heapOrder_of_heap_ok _ _ (by decide), indexBijection_of_bij_ok _ (by decide),
    C5_pop_order less_int less_int_swo sample_state
      (heapOrder_of_heap_ok _ _ (by decide)) (indexBijection_of_bij_ok _ (by decide))⟩

end Claim5

section Claim67
variable {K V : Type} [DecidableEq K]

theorem construct_loop_spec :
    ∀ (cont : List (K × V)) (index : Int) (s : priority_map K V),
      (∀ k, hm_find s.m_hashMap k ≠ none ↔ k ∈ s.m_priQueue.map queue_node.first) →
      (s.m_priQueue.map queue_node.first).Nodup →
      (∀ k, hm_find (construct_loop cont index s).m_hashMap k ≠ none ↔
        k ∈ (construct_loop cont index s).m_priQueue.map queue_node.first) ∧
      ((construct_loop cont index s).m_priQueue.map queue_node.first).Nodup ∧
      ∀ e : queue_node K V, e ∈ (construct_loop cont index s).m_priQueue ↔
        (e ∈ s.m_priQueue ∨ (e.first ∉ s.m_priQueue.map queue_node.first ∧
          cont.find? (fun p => decide (p.1 = e.first)) = some (e.first, e.second))) := by
  intro cont
  induction cont with
  | nil =>
    intro index s hk hn
    refine ⟨hk, hn, ?_⟩
    intro e
    simp [construct_loop]
  | cons p rest ih =>
    intro index s hk hn
    obtain ⟨k, v⟩ := p
    cases hf : hm_find s.m_hashMap k with
    | some j =>
      have hstep : construct_loop ((k, v) :: rest) index s = construct_loop rest (index + 1) s := by
        simp [construct_loop, hm_insert, hf]
      rw [hstep]
      obtain ⟨h1, h2, h3⟩ := ih (index + 1) s hk hn
      refine ⟨h1, h2, ?_⟩
      intro e
      rw [h3 e]
      have hkin : k ∈ s.m_priQueue.map queue_node.first := (hk k).1 (by rw [hf]; simp)
      constructor
      · rintro (h | ⟨h, h4⟩)
        · exact Or.inl h
        · refine Or.inr ⟨h, ?_⟩
          have hne : ¬ k = e.first := fun h5 => h (h5 ▸ hkin)
          simp only [List.find?_cons, hne, decide_False]
          exact h4
      · rintro (h | ⟨h, h4⟩)
        · exact Or.inl h
        · refine Or.inr ⟨h, ?_⟩
          have hne : ¬ k = e.first := fun h5 => h (h5 ▸ hkin)
          simp only [List.find?_cons, hne, decide_False] at h4
          exact h4
    | none =>
      have hstep : construct_loop ((k, v) :: rest) index s =
          construct_loop rest (index + 1) ⟨s.m_priQueue ++ [⟨k, v⟩], (k, index) :: s.m_hashMap⟩ := by
        simp [construct_loop, hm_insert, hf]
      rw [hstep]
      have hknot : k ∉ s.m_priQueue.map queue_node.first := by
        intro h
        exact (hk k).2 h hf
      have hk1 : ∀ k1, hm_find ((k, index) :: s.m_hashMap) k1 ≠ none ↔
          k1 ∈ (s.m_priQueue ++ [(⟨k, v⟩ : queue_node K V)]).map queue_node.first := by
        intro k1
        simp only [hm_find, List.map_append, List.map_cons, List.map_nil, List.mem_append,
          List.mem_singleton]
        by_cases h : k = k1
        · simp [h]
        · rw [if_neg h, hk k1]
          constructor
          · intro h1; exact Or.inl h1
          · rintro (h1 | h1)
            · exact h1
            · exact absurd h1.symm h
      have hn1 : ((s.m_priQueue ++ [(⟨k, v⟩ : queue_node K V)]).map queue_node.first).Nodup := by
        simp only [List.map_append, List.map_cons, List.map_nil]
        rw [List.nodup_append]
        refine ⟨hn, List.nodup_singleton _, ?_⟩
        intro a ha hb
        simp only [List.mem_singleton] at hb
        exact hknot (hb ▸ ha)
      obtain ⟨h1, h2, h3⟩ := ih (index + 1) ⟨s.m_priQueue ++ [⟨k, v⟩], (k, index) :: s.m_hashMap⟩
        hk1 hn1
      refine ⟨h1, h2, ?_⟩
      intro e
      rw [h3 e]
      simp only [List.mem_append, List.mem_singleton, List.map_append, List.map_cons,
        List.map_nil, List.find?_cons]
      by_cases hek : k = e.first
      · subst hek
        have he_notin : e ∉ s.m_priQueue := by
          intro h
          exact hknot (List.mem_map_of_mem _ h)
        have hev : e = ⟨e.first, v⟩ ↔ v = e.second := by
          cases e
          simp only [queue_node.mk.injEq, true_and]
          exact eq_comm
        simp only [decide_True, or_true, not_true_eq_false, false_and, or_false, he_notin,
          false_or, hknot, not_false_eq_true, true_and, Option.some.injEq, Prod.mk.injEq, hev]
      · have hne2 : ¬ e.first = k := fun h => hek h.symm
        have hne3 : e ≠ ⟨k, v⟩ := by
          intro h
          rw [h] at hek
          exact hek rfl
        simp only [hek, decide_False, hne3, or_false, hne2, not_false_eq_true, and_true]

/-- What the container constructor returns: a state is returned for every input; its
store is in heap order under a strict weak order, holds every key once, and holds exactly
the first pair of the input for each key. -/
theorem construct_spec (comp : V → V → Bool) (cont : List (K × V)) :
    ∃ s, construct comp cont = some s ∧
      (StrictWeakOrder comp → HeapOrder comp s.m_priQueue) ∧
      (s.m_priQueue.map queue_node.first).Nodup ∧
      ∀ e : queue_node K V, e ∈ s.m_priQueue ↔
        cont.find? (fun p => decide (p.1 = e.first)) = some (e.first, e.second) := by
  obtain ⟨-, h2, h3⟩ := construct_loop_spec cont 0 (empty_map : priority_map K V)
    (by intro k; simp [empty_map, hm_find]) (by simp [empty_map])
  obtain ⟨s1, g1, g2, g3, -⟩ := buildHeap_spec comp (construct_loop cont 0 empty_map)
  refine ⟨s1, g1, g3, ?_, ?_⟩
  · exact ((g2.map queue_node.first).nodup_iff).2 h2
  · intro e
    rw [g2.mem_iff, h3 e]
    simp [empty_map]

theorem construct_keys (cont : List (K × V)) (s : priority_map K V)
    (hmem : ∀ e : queue_node K V, e ∈ s.m_priQueue ↔
      cont.find? (fun p => decide (p.1 = e.first)) = some (e.first, e.second)) (k : K) :
    k ∈ cont.map Prod.fst → ∃ e ∈ s.m_priQueue, e.first = k ∧ (e.first, e.second) ∈ cont := by
  intro hk
  obtain ⟨p, hp, hpk⟩ := List.mem_map.1 hk
  have hsome : (cont.find? (fun p => decide (p.1 = k))).isSome := by
    rw [List.find?_isSome]
    exact ⟨p, hp, by simpa using hpk⟩
  obtain ⟨⟨a1, a2⟩, ha⟩ := Option.isSome_iff_exists.1 hsome
  have hak : a1 = k := by simpa using List.find?_some ha
  subst hak
  refine ⟨⟨a1, a2⟩, ?_, rfl, List.mem_of_find?_eq_some ha⟩
  rw [hmem]
  exact ha

/-- Building from the keys `1..n` with value = key puts the value `n` on top. -/
theorem construct_range_top (n : Nat) (hn : 0 < n) :
    ∃ s t, construct less_int
        ((List.range n).map (fun (i : Nat) => ((i : Int) + 1, (i : Int) + 1))) = some s ∧
      top s = some t ∧ t.second = (n : Int) := by
  obtain ⟨s, h1, h2, -, h4⟩ := construct_spec less_int
    ((List.range n).map (fun (i : Nat) => ((i : Int) + 1, (i : Int) + 1)))
  have hval : ∀ p : Int × Int,
      p ∈ (List.range n).map (fun (i : Nat) => ((i : Int) + 1, (i : Int) + 1)) →
      p.2 = p.1 ∧ p.2 ≤ (n : Int) := by
    intro p hp
    obtain ⟨i, hi, rfl⟩ := List.mem_map.1 hp
    have := List.mem_range.1 hi
    exact ⟨rfl, by show (i : Int) + 1 ≤ (n : Int); omega⟩
  have hkey : (n : Int) ∈
      ((List.range n).map (fun (i : Nat) => ((i : Int) + 1, (i : Int) + 1))).map Prod.fst := by
    rw [List.mem_map]
    refine ⟨((n : Int), (n : Int)), ?_, rfl⟩
    rw [List.mem_map]
    refine ⟨n - 1, List.mem_range.2 (by omega), ?_⟩
    have : ((n - 1 : Nat) : Int) + 1 = (n : Int) := by omega
    rw [this]
  obtain ⟨e, he, hek, hec⟩ := construct_keys _ s h4 (n : Int) hkey
  have he2 : e.second = (n : Int) := by
    have := (hval _ hec).1
    simp only at this
    rw [this, hek]
  cases hq : s.m_priQueue with
  | nil => rw [hq] at he; simp at he
  | cons t l =>
    have ht : s.m_priQueue[0]? = some t := by rw [hq]; simp
    refine ⟨s, t, h1, ?_, ?_⟩
    · show vec_at s.m_priQueue ((0 : Nat) : Int) = some t
      rw [vec_at_nat]; exact ht
    · obtain ⟨m, hm⟩ := List.getElem?_of_mem he
      have hmax := heapFrom_top_max less_int_swo
        ((heapOrder_iff_heapFrom _ _).1 (h2 less_int_swo)) ht m e hm
      have htc := List.mem_of_find?_eq_some ((h4 t).1 (List.getElem?_mem ht))
      have hle := (hval _ htc).2
      simp only [less_int, decide_eq_false_iff_not, he2] at hmax
      simp only at hle
      omega

/-- C6. Build-heap correctness: for a strict weak order `comp` and every finite sequence
of (key, value) pairs, the bulk constructor returns a state whose store satisfies heap
order at every non-root position. Building from the keys `1..1000` with value = key under
the default comparator gives a `top()` with value `1000`. -/
theorem C6_build_heap_order (comp : V → V → Bool) (hswo : StrictWeakOrder comp)
    (cont : List (K × V)) :
    (∃ s, construct comp cont = some s ∧ HeapOrder comp s.m_priQueue) ∧
    (∃ s t, construct less_int
        ((List.range 1000).map (fun (i : Nat) => ((i : Int) + 1, (i : Int) + 1))) = some s ∧
      top s = some t ∧ t.second = 1000) := by
  constructor
  · obtain ⟨s, h1, h2, -, -⟩ := construct_spec comp cont
    exact ⟨s, h1, h2 hswo⟩
  · obtain ⟨s, t, h1, h2, h3⟩ := construct_range_top 1000 (by omega)
    exact ⟨s, t, h1, h2, by rw [h3]; rfl⟩

/-- Heap order after building from an input with a repeated key. -/
theorem C6_build_heap_order_witness :
    StrictWeakOrder less_int ∧
    (∃ s, construct less_int [("a", 5), ("a", 2), ("b", 3), ("c", 9)] = some s ∧
      HeapOrder less_int s.m_priQueue) :=
  ⟨less_int_swo,
    (C6_build_heap_order less_int less_int_swo [("a", 5), ("a", 2), ("b", 3), ("c", 9)]).1⟩

/-- C7. Bulk construction keeps the first occurrence of each key: for every finite
sequence of (key, value) pairs the constructor returns a state whose store holds no key
twice, holds a node `(k, v)` exactly when `(k, v)` is the first pair of the input with
key `k`, and has as many nodes as the input has distinct keys. -/
theorem C7_first_occurrence_kept (comp : V → V → Bool) (cont : List (K × V)) :
    ∃ s, construct comp cont = some s ∧
      (s.m_priQueue.map queue_node.first).Nodup ∧
      (∀ e : queue_node K V, e ∈ s.m_priQueue ↔
        cont.find? (fun p => decide (p.1 = e.first)) = some (e.first, e.second)) ∧
      s.m_priQueue.length = (cont.map Prod.fst).dedup.length := by
  obtain ⟨s, h1, -, h3, h4⟩ := construct_spec comp cont
  refine ⟨s, h1, h3, h4, ?_⟩
  have hperm : (s.m_priQueue.map queue_node.first).Perm (cont.map Prod.fst).dedup := by
    rw [List.perm_ext_iff_of_nodup h3 (List.nodup_dedup _)]
    intro k
    rw [List.mem_dedup]
    constructor
    · intro hk
      obtain ⟨e, he, hek⟩ := List.mem_map.1 hk
      have := List.mem_of_find?_eq_some ((h4 e).1 he)
      rw [← hek]
      exact List.mem_map.2 ⟨_, this, rfl⟩
    · intro hk
      obtain ⟨e, he, hek, -⟩ := construct_keys cont s h4 k hk
      exact List.mem_map.2 ⟨e, he, hek⟩
  have := hperm.length_eq
  rw [List.length_map] at this
  exact this

end Claim67

section Claims8910
variable {K V : Type} [DecidableEq K]

/-- C8. Insert round trip: for a state with the index bijection, a key `k` absent from
the index and a value `v`, `insert(k, v)` returns `true`, `size()` grows by exactly one,
and `find(k)` on the new state is not `end()` and points at the node `(k, v)`. -/
theorem C8_insert_round_trip (comp : V → V → Bool) (s : priority_map K V)
    (hbij : IndexBijection s) (k : K) (v : V) (habs : hm_find s.m_hashMap k = none) :
    ∃ s1, insert comp s k v = some (s1, true) ∧ size s1 = size s + 1 ∧
      find s1 k ≠ end_ s1 ∧ deref s1 (find s1 k) = some ⟨k, v⟩ := by
  obtain ⟨s1, h1, -, h3, -, h5⟩ := insert_absent_spec comp s k v habs
  obtain ⟨hb1, hkeys⟩ := h5 hbij
  have hmem : (⟨k, v⟩ : queue_node K V) ∈ s1.m_priQueue :=
    h3.symm.subset (by simp)
  obtain ⟨n, hn⟩ := List.getElem?_of_mem hmem
  have hf := hb1.2 n _ hn
  have hfind : find s1 k = (n : Int) := by
    unfold find
    rw [hf]
  refine ⟨s1, h1, ?_, ?_, ?_⟩
  · have := congrArg List.length hkeys
    simpa [size] using this
  · rw [hfind]
    have := getElem?_lt hn
    unfold end_
    omega
  · rw [hfind]
    unfold deref
    rw [vec_at_nat]; exact hn

/-- Round trip of `insert("d", 7)` on the sample state. -/
theorem C8_insert_round_trip_witness :
    IndexBijection sample_state ∧ hm_find sample_state.m_hashMap "d" = none ∧
    (∃ s1, insert less_int sample_state "d" 7 = some (s1, true) ∧
      size s1 = size sample_state + 1 ∧
      find s1 "d" ≠ end_ s1 ∧ deref s1 (find s1 "d") = some ⟨"d", 7⟩) :=
  ⟨indexBijection_of_bij_ok _ (by decide), by decide,
    C8_insert_round_trip less_int sample_state (indexBijection_of_bij_ok _ (by decide))
      "d" 7 (by decide)⟩

/-- C9. Duplicate insert is rejected atomically: for every state, if the key `k` is
present in the index then `insert(k, v)` returns `false` and the very same state; and
whenever `insert(k, v)` returns `false`, the key `k` was present in the index. -/
theorem C9_duplicate_insert_rejected (comp : V → V → Bool) (s : priority_map K V)
    (k : K) (v : V) :
    (hm_find s.m_hashMap k ≠ none → insert comp s k v = some (s, false)) ∧
    (∀ s1, insert comp s k v = some (s1, false) → hm_find s.m_hashMap k ≠ none) := by
  constructor
  · intro h
    cases hf : hm_find s.m_hashMap k with
    | none => exact absurd hf h
    | some j => exact insert_present_eq comp s k v j hf
  · intro s1 h hf
    obtain ⟨s2, h2, -⟩ := insert_absent_spec comp s k v hf
    rw [h2] at h
    cases h

/-- Rejected `insert("a", 7)` on the sample state. -/
theorem C9_duplicate_insert_rejected_witness :
    hm_find sample_state.m_hashMap "a" ≠ none ∧
    insert less_int sample_state "a" 7 = some (sample_state, false) :=
  ⟨by decide, (C9_duplicate_insert_rejected less_int sample_state "a" 7).1 (by decide)⟩

/-- C10. `replace` is `update` restricted to present keys: for every state, `replace(k, v)`
on an absent key returns `false` and the very same state; on a present key it does what
`update(k, v)` does and returns `true`; so a returned flag is `true` exactly when the key
is present. When moreover the index bijection holds and the key is present, both calls
do return, and with the same state. -/
theorem C10_replace_is_restricted_update (comp : V → V → Bool) (s : priority_map K V)
    (k : K) (v : V) :
    (hm_find s.m_hashMap k = none → replace comp s k v = some (s, false)) ∧
    (hm_find s.m_hashMap k ≠ none →
      replace comp s k v = (update comp s k v).map (fun s1 => (s1, true))) ∧
    (∀ r, replace comp s k v = some r → (r.2 = true ↔ hm_find s.m_hashMap k ≠ none)) ∧
    (IndexBijection s → hm_find s.m_hashMap k ≠ none →
      ∃ s1, update comp s k v = some s1 ∧ replace comp s k v = some (s1, true)) := by
  refine ⟨?_, ?_, ?_, ?_⟩
  · intro h
    rw [replace_eq_update, h]
  · intro h
    rw [replace_eq_update]
    cases hf : hm_find s.m_hashMap k with
    | none => exact absurd hf h
    | some j => rfl
  · intro r hr
    rw [replace_eq_update] at hr
    cases hf : hm_find s.m_hashMap k with
    | none =>
      rw [hf] at hr
      cases hr
      simp
    | some j =>
      rw [hf] at hr
      simp only at hr
      cases hu : update comp s k v with
      | none => rw [hu] at hr; cases hr
      | some s1 =>
        rw [hu] at hr
        cases hr
        simp
  · intro hb h
    cases hf : hm_find s.m_hashMap k with
    | none => exact absurd hf h
    | some j =>
      obtain ⟨n, e, s1, -, -, -, h1, h2, -⟩ := update_present_spec comp s k v hb j hf
      exact ⟨s1, h1, h2⟩

/-- Calling `replace` with an absent and with a present key of the sample state. -/
theorem C10_replace_is_restricted_update_witness :
    IndexBijection sample_state ∧ hm_find sample_state.m_hashMap "a" ≠ none ∧
    hm_find sample_state.m_hashMap "z" = none ∧
    replace less_int sample_state "z" 4 = some (sample_state, false) ∧
    (∃ s1, update less_int sample_state "a" 10 = some s1 ∧
      replace less_int sample_state "a" 10 = some (s1, true)) :=
  ⟨indexBijection_of_bij_ok _ (by decide), by decide, by decide,
    (C10_replace_is_restricted_update less_int sample_state "z" 4).1 (by decide),
    (C10_replace_is_restricted_update less_int sample_state "a" 10).2.2.2
      (indexBijection_of_bij_ok _ (by decide)) (by decide)⟩

end Claims8910

section StopLemmas
variable {K V : Type} [DecidableEq K]

theorem hm_assign_self (m : HashMapType K) (k : K) (i : Int) (h : hm_find m k = some i) :
    hm_assign m k i = m := by
  induction m with
  | nil => simp [hm_find] at h
  | cons p m ih =>
    obtain ⟨k0, j⟩ := p
    simp only [hm_find] at h
    by_cases h0 : k0 = k
    · rw [if_pos h0] at h
      cases h
      simp [hm_assign, h0]
    · rw [if_neg h0] at h
      simp [hm_assign, h0, ih h]

theorem fill_hole_self {tmp : queue_node K V} {s : priority_map K V} {n : Nat}
    (htmp : s.m_priQueue[n]? = some tmp)
    (hf : hm_find s.m_hashMap tmp.first = some (n : Int)) : fill_hole tmp s n = s := by
  unfold fill_hole
  rw [set_of_getElem? htmp, hm_assign_self _ _ _ hf]

/-- When the parent of position `n` is not below the node at `n`, `_PercUp(n)` only puts
the node back. -/
theorem percUp_stop (comp : V → V → Bool) (s : priority_map K V) (n : Nat)
    (tmp : queue_node K V) (htmp : s.m_priQueue[n]? = some tmp)
    (hstop : ∀ j f, j + 1 = n → s.m_priQueue[j / 2]? = some f →
      comp f.second tmp.second = false) :
    _PercUp comp s (n : Int) = some (fill_hole tmp s n) := by
  have hn := getElem?_lt htmp
  let P : priority_map K V → Nat → Prop := fun s1 j => s1 = s ∧ j = n
  have hrange : ∀ s1 j, P s1 j → j < s1.m_priQueue.length := by
    rintro s1 j ⟨rfl, rfl⟩; exact hn
  have hstep : ∀ s1 i f, P s1 (i + 1) → s1.m_priQueue[i / 2]? = some f →
      comp f.second tmp.second = true →
      P ⟨s1.m_priQueue.set (i + 1) f,
        hm_assign s1.m_hashMap f.first ((i + 1 : Nat) : Int)⟩ (i / 2) := by
    rintro s1 i f ⟨rfl, hi⟩ hf hc
    rw [hstop i f hi hf] at hc
    cases hc
  obtain ⟨s1, j, hloop, ⟨rfl, rfl⟩, -⟩ :=
    percUp_loop_rule comp tmp P hrange hstep s.m_priQueue.length s n ⟨rfl, rfl⟩ hn
  have hQj : (s1.m_priQueue.set j tmp)[j]? = some tmp := by
    rw [List.getElem?_set, if_pos rfl, if_pos hn]
  unfold _PercUp
  rw [vec_at_nat, htmp]
  simp only [Option.bind_eq_bind, Option.some_bind, hloop, vec_set_nat _ _ _ hn, vec_at_nat,
    hQj]
  rfl

/-- When the child selected at position `n` is not above the node at `n`, `_PercDown(n)`
only puts the node back. -/
theorem percDown_stop (comp : V → V → Bool) (s : priority_map K V) (n : Nat)
    (tmp : queue_node K V) (htmp : s.m_priQueue[n]? = some tmp)
    (hstop : ∀ c y, SelectedChild comp s.m_priQueue n c → s.m_priQueue[c]? = some y →
      comp tmp.second y.second = false) :
    _PercDown comp s (n : Int) = some (fill_hole tmp s n) := by
  have hn := getElem?_lt htmp
  let P : priority_map K V → Nat → Prop := fun s1 j => s1 = s ∧ j = n
  have hrange : ∀ s1 j, P s1 j → j < s1.m_priQueue.length := by
    rintro s1 j ⟨rfl, rfl⟩; exact hn
  have hstep : ∀ s1 i c y, P s1 i → SelectedChild comp s1.m_priQueue i c →
      s1.m_priQueue[c]? = some y → comp tmp.second y.second = true →
      P ⟨s1.m_priQueue.set i y, hm_assign s1.m_hashMap y.first (i : Int)⟩ c := by
    rintro s1 i c y ⟨rfl, rfl⟩ hsel hy hc
    rw [hstop c y hsel hy] at hc
    cases hc
  obtain ⟨s1, j, hloop, ⟨rfl, rfl⟩, -⟩ :=
    percDown_loop_rule comp tmp P hrange hstep s.m_priQueue.length s n ⟨rfl, rfl⟩ (by omega)
  have hQj : (s1.m_priQueue.set j tmp)[j]? = some tmp := by
    rw [List.getElem?_set, if_pos rfl, if_pos hn]
  unfold _PercDown
  rw [vec_at_nat, htmp]
  simp only [Option.bind_eq_bind, Option.some_bind, hloop, vec_set_nat _ _ _ hn, vec_at_nat,
    hQj]
  rfl

end StopLemmas

section HeapStop
variable {K V : Type}

/-- In a heap-ordered store no selected child is above its parent. -/
theorem heap_stop_down {comp : V → V → Bool} {q : List (queue_node K V)}
    (hheap : HeapFrom comp 0 q) {n : Nat} {tmp : queue_node K V} (htmp : q[n]? = some tmp) :
    ∀ c y, SelectedChild comp q n c → q[c]? = some y → comp tmp.second y.second = false := by
  intro c y hsel hy
  have hrg := SelectedChild_range hsel
  obtain ⟨j, rfl⟩ : ∃ j, c = j + 1 := ⟨c - 1, by omega⟩
  have hp : j / 2 = n := by omega
  exact hheap.pair j (hp ▸ htmp) hy

/-- In a heap-ordered store no parent is below its child. -/
theorem heap_stop_up {comp : V → V → Bool} {q : List (queue_node K V)}
    (hheap : HeapFrom comp 0 q) {n : Nat} {tmp : queue_node K V} (htmp : q[n]? = some tmp) :
    ∀ j f, j + 1 = n → q[j / 2]? = some f → comp f.second tmp.second = false := by
  intro j f hj hf
  exact hheap.pair j hf (hj ▸ htmp)

end HeapStop

section KeysAndSizes
variable {K V : Type} [DecidableEq K]

theorem store_key_unique {s : priority_map K V} (hb : IndexBijection s)
    {x y : queue_node K V} (hx : x ∈ s.m_priQueue) (hy : y ∈ s.m_priQueue)
    (h : x.first = y.first) : x = y := by
  obtain ⟨n, hn⟩ := List.getElem?_of_mem hx
  obtain ⟨m, hm⟩ := List.getElem?_of_mem hy
  have h1 := hb.2 n x hn
  have h2 := hb.2 m y hm
  rw [h, h2] at h1
  have : (m : Int) = (n : Int) := Option.some.inj h1
  have hmn : m = n := by omega
  rw [hmn, hn] at hm
  exact Option.some.inj hm

theorem store_keys_nodup {s : priority_map K V} (hb : IndexBijection s) :
    (s.m_priQueue.map queue_node.first).Nodup := by
  rw [List.nodup_iff_getElem?_ne_getElem?]
  intro i j hij hj heq
  rw [List.length_map] at hj
  simp only [List.getElem?_map, List.getElem?_eq_getElem hj,
    List.getElem?_eq_getElem (lt_trans hij hj), Option.map_some', Option.some.injEq] at heq
  have h1 := hb.2 i _ (List.getElem?_eq_getElem (lt_trans hij hj))
  have h2 := hb.2 j _ (List.getElem?_eq_getElem hj)
  rw [heq, h2] at h1
  have : (j : Int) = (i : Int) := Option.some.inj h1
  omega

theorem map_keys_nodup {s : priority_map K V} (hb : IndexBijection s)
    (hs : SizeConsistent s) : (s.m_hashMap.map Prod.fst).Nodup := by
  have hsub : s.m_priQueue.map queue_node.first ⊆ s.m_hashMap.map Prod.fst := by
    intro k hk
    obtain ⟨x, hx, rfl⟩ := List.mem_map.1 hk
    obtain ⟨n, hn⟩ := List.getElem?_of_mem hx
    rw [← hm_find_ne_none_iff, hb.2 n x hn]
    simp
  have hperm := ((store_keys_nodup hb).subperm hsub).perm_of_length_le (by
    rw [List.length_map, List.length_map]
    exact le_of_eq hs)
  exact hperm.nodup_iff.1 (store_keys_nodup hb)

theorem hm_erase_of_not_mem (m : HashMapType K) (k : K) (h : k ∉ m.map Prod.fst) :
    hm_erase m k = m := by
  induction m with
  | nil => rfl
  | cons p m ih =>
    obtain ⟨k0, j⟩ := p
    simp only [List.map_cons, List.mem_cons, not_or] at h
    have h0 : ¬ k0 = k := fun h1 => h.1 h1.symm
    simp [hm_erase, h0, ih h.2]

theorem hm_erase_length (m : HashMapType K) (k : K) (hn : (m.map Prod.fst).Nodup)
    (hk : hm_find m k ≠ none) : (hm_erase m k).length + 1 = m.length := by
  induction m with
  | nil => simp [hm_find] at hk
  | cons p m ih =>
    obtain ⟨k0, j⟩ := p
    simp only [List.map_cons, List.nodup_cons] at hn
    by_cases h0 : k0 = k
    · subst h0
      simp [hm_erase, hm_erase_of_not_mem m k0 hn.1]
    · simp only [hm_find, if_neg h0] at hk
      simp only [hm_erase, if_neg h0, List.length_cons]
      have := ih hn.2 hk
      omega

theorem hm_find_none_iff {s : priority_map K V} (hb : IndexBijection s) (j : K) :
    hm_find s.m_hashMap j = none ↔ ∀ x ∈ s.m_priQueue, x.first ≠ j := by
  constructor
  · intro h x hx hxj
    obtain ⟨n, hn⟩ := List.getElem?_of_mem hx
    have := hb.2 n x hn
    rw [hxj, h] at this
    cases this
  · intro h
    cases hf : hm_find s.m_hashMap j with
    | none => rfl
    | some i =>
      obtain ⟨x, hx, hxj⟩ := hb.1 j i hf
      exact absurd hxj (h x (List.getElem?_mem (vec_at_some hx).2))

theorem find_found {s : priority_map K V} (hb : IndexBijection s) {x : queue_node K V}
    (hx : x ∈ s.m_priQueue) :
    find s x.first ≠ end_ s ∧ deref s (find s x.first) = some x := by
  obtain ⟨n, hn⟩ := List.getElem?_of_mem hx
  have hf := hb.2 n x hn
  have hfind : find s x.first = (n : Int) := by
    unfold find
    rw [hf]
  rw [hfind]
  constructor
  · have := getElem?_lt hn
    unfold end_
    omega
  · unfold deref
    rw [vec_at_nat]; exact hn

theorem find_absent {s : priority_map K V} {j : K} (h : hm_find s.m_hashMap j = none) :
    find s j = end_ s ∧ deref s (find s j) = none := by
  have hfind : find s j = end_ s := by
    unfold find
    rw [h]
  rw [hfind]
  refine ⟨rfl, ?_⟩
  unfold deref end_
  rw [vec_at_nat]
  exact List.getElem?_eq_none (le_refl _)

/-- Two states with the index bijection that hold the same nodes with key `j` answer
`find(j)` alike. -/
theorem find_frame {s s1 : priority_map K V} (hb : IndexBijection s)
    (hb1 : IndexBijection s1) (j : K)
    (hmem : ∀ x : queue_node K V, x.first = j → (x ∈ s1.m_priQueue ↔ x ∈ s.m_priQueue)) :
    (find s j = end_ s ↔ find s1 j = end_ s1) ∧
    deref s1 (find s1 j) = deref s (find s j) := by
  by_cases hex : ∃ x ∈ s.m_priQueue, x.first = j
  · obtain ⟨x, hx, rfl⟩ := hex
    have h1 := find_found hb hx
    have h2 := find_found hb1 ((hmem x rfl).2 hx)
    refine ⟨⟨fun h => absurd h h1.1, fun h => absurd h h2.1⟩, ?_⟩
    rw [h1.2, h2.2]
  · have ha : hm_find s.m_hashMap j = none := by
      rw [hm_find_none_iff hb]
      intro x hx hxj
      exact hex ⟨x, hx, hxj⟩
    have ha1 : hm_find s1.m_hashMap j = none := by
      rw [hm_find_none_iff hb1]
      intro x hx hxj
      exact hex ⟨x, (hmem x hxj).1 hx, hxj⟩
    have h1 := find_absent ha
    have h2 := find_absent ha1
    refine ⟨⟨fun _ => h2.1, fun _ => h1.1⟩, ?_⟩
    rw [h1.2, h2.2]

/-- After `erase(k)` of a present key, `k` is absent, and the size is one less when the
state was size consistent. -/
theorem erase_present_more (comp : V → V → Bool) (s : priority_map K V) (k : K)
    (hb : IndexBijection s) (i : Int) (hf : hm_find s.m_hashMap k = some i) :
    ∃ (e : queue_node K V) (s1 : priority_map K V),
      e.first = k ∧ erase comp s k = some s1 ∧ (e :: s1.m_priQueue).Perm s.m_priQueue ∧
      IndexBijection s1 ∧ hm_find s1.m_hashMap k = none ∧
      (StrictWeakOrder comp → HeapOrder comp s.m_priQueue → HeapOrder comp s1.m_priQueue) ∧
      (SizeConsistent s → size s1 + 1 = size s ∧ SizeConsistent s1) := by
  obtain ⟨n, e, s1, -, he, hek, hres, hperm, hheap, hb1, hkeys⟩ :=
    erase_present_spec comp s k hb i hf
  refine ⟨e, s1, hek, hres, hperm, hb1, ?_, hheap, ?_⟩
  · rw [hm_find_none_iff hb1]
    intro x hx hxk
    have hxs : x ∈ s.m_priQueue := hperm.subset (List.mem_cons_of_mem _ hx)
    have hes : e ∈ s.m_priQueue := hperm.subset (List.mem_cons_self _ _)
    have hxe : x = e := store_key_unique hb hxs hes (hxk.trans hek.symm)
    have hnd := (hperm.map queue_node.first).nodup_iff.2 (store_keys_nodup hb)
    simp only [List.map_cons, List.nodup_cons] at hnd
    exact hnd.1 (hxe ▸ List.mem_map_of_mem _ hx)
  · intro hs
    have hlen := hm_erase_length s.m_hashMap k (map_keys_nodup hb hs) (by rw [hf]; simp)
    have h1 : s1.m_hashMap.length = (hm_erase s.m_hashMap k).length := by
      have := congrArg List.length hkeys
      simpa using this
    have h2 := hperm.length_eq
    simp only [List.length_cons] at h2
    unfold SizeConsistent size at *
    omega

end KeysAndSizes

section SizeBasics
variable {K V : Type}

theorem empty_iff_of_size {s : priority_map K V} (hs : SizeConsistent s) :
    empty s = true ↔ s.m_priQueue.length = 0 := by
  unfold SizeConsistent size at hs
  unfold empty
  rw [List.isEmpty_iff, ← hs, List.length_eq_zero]

theorem sizeConsistent_clear (s : priority_map K V) : SizeConsistent (clear s) := rfl

end SizeBasics

section Claims11to14
variable {K V : Type} [DecidableEq K]

/-- What `update(k, v)` does to a state with the index bijection. -/
theorem update_more (comp : V → V → Bool) (s : priority_map K V) (hb : IndexBijection s)
    (k : K) (v : V) :
    ∃ s1, update comp s k v = some s1 ∧ IndexBijection s1 ∧
      (⟨k, v⟩ : queue_node K V) ∈ s1.m_priQueue ∧
      (hm_find s.m_hashMap k = none → insert comp s k v = some (s1, true) ∧
        size s1 = size s + 1) ∧
      (hm_find s.m_hashMap k ≠ none → replace comp s k v = some (s1, true) ∧
        size s1 = size s) ∧
      (∀ x : queue_node K V, x.first ≠ k → (x ∈ s1.m_priQueue ↔ x ∈ s.m_priQueue)) ∧
      (SizeConsistent s → SizeConsistent s1) := by
  cases hf : hm_find s.m_hashMap k with
  | none =>
    obtain ⟨s1, h1, h2, h3, -, h5⟩ := insert_absent_spec comp s k v hf
    obtain ⟨hb1, hkeys⟩ := h5 hb
    have hsz : size s1 = size s + 1 := by
      have := congrArg List.length hkeys
      simpa [size] using this
    refine ⟨s1, h2, hb1, h3.symm.subset (by simp), fun _ => ⟨h1, hsz⟩,
      fun h => absurd rfl h, ?_, ?_⟩
    · intro x hx
      rw [h3.mem_iff]
      simp only [List.mem_append, List.mem_singleton]
      constructor
      · rintro (h | h)
        · exact h
        · rw [h] at hx; exact absurd rfl hx
      · intro h; exact Or.inl h
    · intro hs
      have := h3.length_eq
      simp only [List.length_append, List.length_singleton] at this
      unfold SizeConsistent at *
      omega
  | some i =>
    obtain ⟨n, e, s1, -, he, hek, h1, h2, h3, -, hb1, hkeys⟩ :=
      update_present_spec comp s k v hb i hf
    have hn := getElem?_lt he
    have hsz : size s1 = size s := by
      have := congrArg List.length hkeys
      simpa [size] using this
    refine ⟨s1, h1, hb1, h3.symm.subset ?_, (fun h => by cases h), fun _ => ⟨h2, hsz⟩, ?_, ?_⟩
    · exact List.getElem?_mem (show (s.m_priQueue.set n ⟨k, v⟩)[n]? = some ⟨k, v⟩ by
        rw [List.getElem?_set, if_pos rfl, if_pos hn])
    · intro x hx
      rw [h3.mem_iff]
      constructor
      · intro h
        rcases List.mem_or_eq_of_mem_set h with h4 | h4
        · exact h4
        · rw [h4] at hx; exact absurd rfl hx
      · intro h
        obtain ⟨m, hm⟩ := List.getElem?_of_mem h
        have hmn : n ≠ m := by
          intro h5
          rw [← h5, he] at hm
          cases hm
          exact hx hek
        exact List.getElem?_mem (show (s.m_priQueue.set n ⟨k, v⟩)[m]? = some x by
          rw [List.getElem?_set, if_neg hmn]; exact hm)
    · intro hs
      have := h3.length_eq
      simp only [List.length_set] at this
      unfold SizeConsistent at *
      omega

/-- C11. Upsert: for a state with the index bijection, `update(k, v1)` followed by
`update(k, v2)` both return; the second leaves `size()` as it is after the first, and
`find(k)` then points at the node `(k, v2)`; the first grows `size()` by one when `k`
was absent and leaves it unchanged when `k` was present. On the structure built from
`[(a,5),(b,1),(c,9)]`, `update(a,10)` makes `top() = (a,10)`. -/
theorem C11_upsert (comp : V → V → Bool) (s : priority_map K V) (hbij : IndexBijection s)
    (k : K) (v1 v2 : V) :
    (∃ s1 s2, update comp s k v1 = some s1 ∧ update comp s1 k v2 = some s2 ∧
      size s2 = size s1 ∧ find s2 k ≠ end_ s2 ∧ deref s2 (find s2 k) = some ⟨k, v2⟩ ∧
      (hm_find s.m_hashMap k = none → size s1 = size s + 1) ∧
      (hm_find s.m_hashMap k ≠ none → size s1 = size s)) ∧
    ((construct less_int [("a", 5), ("b", 1), ("c", 9)]).bind
      (fun s0 => update less_int s0 "a" 10)).bind top = some ⟨"a", 10⟩ := by
  refine ⟨?_, by decide⟩
  obtain ⟨s1, h1, hb1, hm1, ha1, hp1, -, -⟩ := update_more comp s hbij k v1
  obtain ⟨s2, h2, hb2, hm2, -, hp2, -, -⟩ := update_more comp s1 hb1 k v2
  have hpres : hm_find s1.m_hashMap k ≠ none := by
    intro h
    exact (hm_find_none_iff hb1 k).1 h _ hm1 rfl
  have hf := find_found hb2 hm2
  exact ⟨s1, s2, h1, h2, (hp2 hpres).2, hf.1, hf.2, fun h => (ha1 h).2, fun h => (hp1 h).2⟩

/-- Upsert of the key `b` on the sample state. -/
theorem C11_upsert_witness :
    IndexBijection sample_state ∧
    (∃ s1 s2, update less_int sample_state "b" 7 = some s1 ∧
      update less_int s1 "b" 12 = some s2 ∧
      size s2 = size s1 ∧ find s2 "b" ≠ end_ s2 ∧
      deref s2 (find s2 "b") = some ⟨"b", 12⟩ ∧
      (hm_find sample_state.m_hashMap "b" = none → size s1 = size sample_state + 1) ∧
      (hm_find sample_state.m_hashMap "b" ≠ none → size s1 = size sample_state)) :=
  ⟨indexBijection_of_bij_ok _ (by decide),
    (C11_upsert less_int sample_state (indexBijection_of_bij_ok _ (by decide)) "b" 7 12).1⟩

/-- C12. `erase` removes exactly the named key: for a state with the index bijection and
size consistency and a key `k` present in the index, `erase(k)` returns a state in which
`find(k)` is `end()`, `size()` is one less, and the store is the old store without the
one node `e` whose key is `k` (as multisets). On the structure built from
`[(a,5),(b,1),(c,9),(d,3)]`, `erase(c)` gives `top() = (a,5)` and `size() = 3`. -/
theorem C12_erase_removes_key (comp : V → V → Bool) (s : priority_map K V)
    (hbij : IndexBijection s) (hsize : SizeConsistent s) (k : K)
    (hk : hm_find s.m_hashMap k ≠ none) :
    (∃ e s1, erase comp s k = some s1 ∧ e.first = k ∧ find s1 k = end_ s1 ∧
      size s1 + 1 = size s ∧ (e :: s1.m_priQueue).Perm s.m_priQueue) ∧
    ((construct less_int [("a", 5), ("b", 1), ("c", 9), ("d", 3)]).bind
      (fun s0 => erase less_int s0 "c")).map (fun s1 => (top s1, size s1)) =
        some (some ⟨"a", 5⟩, 3) := by
  refine ⟨?_, by decide⟩
  cases hf : hm_find s.m_hashMap k with
  | none => exact absurd hf hk
  | some i =>
    obtain ⟨e, s1, h1, h2, h3, -, h5, -, h7⟩ := erase_present_more comp s k hbij i hf
    exact ⟨e, s1, h2, h1, (find_absent h5).1, (h7 hsize).1, h3⟩

/-- Erasing the key `b` of the sample state. -/
theorem C12_erase_removes_key_witness :
    IndexBijection sample_state ∧ SizeConsistent sample_state ∧
    hm_find sample_state.m_hashMap "b" ≠ none ∧
    (∃ e s1, erase less_int sample_state "b" = some s1 ∧ e.first = "b" ∧
      find s1 "b" = end_ s1 ∧ size s1 + 1 = size sample_state ∧
      (e :: s1.m_priQueue).Perm sample_state.m_priQueue) :=
  ⟨indexBijection_of_bij_ok _ (by decide), rfl, by decide,
    (C12_erase_removes_key less_int sample_state (indexBijection_of_bij_ok _ (by decide))
      rfl "b" (by decide)).1⟩

/-- C13. `erase` of an absent key is a no-op: for every state and every key absent from
the index, `erase(k)` returns the very same state; and for a state with the index
bijection and any key, `erase(k)` returns a state on which a second `erase(k)` changes
nothing. -/
theorem C13_erase_absent_noop (comp : V → V → Bool) (s : priority_map K V) (k : K) :
    (hm_find s.m_hashMap k = none → erase comp s k = some s) ∧
    (IndexBijection s → ∃ s1, erase comp s k = some s1 ∧ erase comp s1 k = some s1) := by
  refine ⟨erase_absent_eq comp s k, ?_⟩
  intro hb
  cases hf : hm_find s.m_hashMap k with
  | none =>
    exact ⟨s, erase_absent_eq comp s k hf, erase_absent_eq comp s k hf⟩
  | some i =>
    obtain ⟨e, s1, -, h2, -, -, h5, -, -⟩ := erase_present_more comp s k hb i hf
    exact ⟨s1, h2, erase_absent_eq comp s1 k h5⟩

/-- Erasing an absent key, and erasing a present key twice, on the sample state. -/
theorem C13_erase_absent_noop_witness :
    hm_find sample_state.m_hashMap "z" = none ∧ IndexBijection sample_state ∧
    erase less_int sample_state "z" = some sample_state ∧
    (∃ s1, erase less_int sample_state "c" = some s1 ∧ erase less_int s1 "c" = some s1) :=
  ⟨by decide, indexBijection_of_bij_ok _ (by decide),
    (C13_erase_absent_noop less_int sample_state "z").1 (by decide),
    (C13_erase_absent_noop less_int sample_state "c").2
      (indexBijection_of_bij_ok _ (by decide))⟩

/-- C14. `pop` case analysis: `pop()` returns the very same state when the store is empty
and the empty structure (empty store, empty index) when the store has exactly one node;
for a state with the index bijection and size consistency whose store has at least two
nodes, `pop()` returns exactly what `erase(top().first)` returns, the former top's key is
then not found, and `size()` has dropped by one. On the structure built from `[(x,1)]`,
`pop()` gives the empty structure and a second `pop()` changes nothing. -/
theorem C14_pop_cases (comp : V → V → Bool) (s : priority_map K V) :
    (s.m_priQueue = [] → pop comp s = some s) ∧
    (s.m_priQueue.length = 1 → pop comp s = some ⟨[], []⟩) ∧
    (IndexBijection s → SizeConsistent s → 2 ≤ s.m_priQueue.length →
      ∃ t s1, top s = some t ∧ pop comp s = some s1 ∧ erase comp s t.first = some s1 ∧
        find s1 t.first = end_ s1 ∧ size s1 + 1 = size s) ∧
    ((construct less_int [("x", 1)]).bind (pop less_int) = some ⟨[], []⟩ ∧
      pop less_int (⟨[], []⟩ : priority_map String Int) = some ⟨[], []⟩) := by
  refine ⟨pop_empty_eq comp s, ?_, ?_, by decide, by decide⟩
  · intro h1
    unfold pop
    have hne : s.m_priQueue.isEmpty = false := by
      cases hq : s.m_priQueue with
      | nil => rw [hq] at h1; simp at h1
      | cons a l => rfl
    rw [hne]
    simp [h1, clear]
  · intro hb hs hlen
    cases hq : s.m_priQueue with
    | nil => rw [hq] at hlen; simp at hlen
    | cons t l =>
      have ht : s.m_priQueue[0]? = some t := by rw [hq]; simp
      have hf := hb.2 0 t ht
      obtain ⟨s1, h1, -, h3, -, -, -, -⟩ := pop_nonempty_spec comp s hb t ht
      obtain ⟨e, s2, -, g2, -, -, g5, -, g7⟩ := erase_present_more comp s t.first hb _ hf
      have he := h3 (by omega)
      rw [g2] at he
      cases he
      refine ⟨t, s1, ?_, h1, g2, (find_absent g5).1, (g7 hs).1⟩
      show vec_at s.m_priQueue ((0 : Nat) : Int) = some t
      rw [vec_at_nat]; exact ht

/-- The three cases of `pop` on concrete states. -/
theorem C14_pop_cases_witness :
    IndexBijection sample_state ∧ SizeConsistent sample_state ∧
    2 ≤ sample_state.m_priQueue.length ∧
    (∃ t s1, top sample_state = some t ∧ pop less_int sample_state = some s1 ∧
      erase less_int sample_state t.first = some s1 ∧
      find s1 t.first = end_ s1 ∧ size s1 + 1 = size sample_state) ∧
    pop less_int (⟨[], []⟩ : priority_map String Int) = some ⟨[], []⟩ ∧
    pop less_int (⟨[⟨"x", 1⟩], [("x", 0)]⟩ : priority_map String Int) = some ⟨[], []⟩ :=
  ⟨indexBijection_of_bij_ok _ (by decide), rfl, by decide,
    (C14_pop_cases less_int sample_state).2.2.1 (indexBijection_of_bij_ok _ (by decide))
      rfl (by decide),
    (C14_pop_cases less_int (⟨[], []⟩ : priority_map String Int)).1 rfl,
    (C14_pop_cases less_int
      (⟨[⟨"x", 1⟩], [("x", 0)]⟩ : priority_map String Int)).2.1 rfl⟩

end Claims11to14

section Claim15
variable {K V : Type} [DecidableEq K]

theorem hm_find_assign_ne_none (m : HashMapType K) (k : K) (i : Int) (k1 : K)
    (h : hm_find m k1 ≠ none) : hm_find (hm_assign m k i) k1 ≠ none := by
  rw [hm_find_assign]
  by_cases hk : k = k1
  · rw [if_pos hk]; simp
  · rw [if_neg hk]; exact h

/-- The key list of the index survives `_PercDown` as soon as every key of the store is
in the index (the index bijection is not needed). -/
theorem percDown_keys (comp : V → V → Bool) (s : priority_map K V) (n : Nat)
    (tmp : queue_node K V) (htmp : s.m_priQueue[n]? = some tmp)
    (hcover : ∀ x ∈ s.m_priQueue, hm_find s.m_hashMap x.first ≠ none) :
    ∃ s1, _PercDown comp s (n : Int) = some s1 ∧
      s1.m_hashMap.map Prod.fst = s.m_hashMap.map Prod.fst ∧
      (∀ x ∈ s1.m_priQueue, hm_find s1.m_hashMap x.first ≠ none) := by
  have hn := getElem?_lt htmp
  let P : priority_map K V → Nat → Prop := fun s1 j =>
    j < s1.m_priQueue.length ∧
    (∀ x ∈ s1.m_priQueue, hm_find s1.m_hashMap x.first ≠ none) ∧
    hm_find s1.m_hashMap tmp.first ≠ none ∧
    s1.m_hashMap.map Prod.fst = s.m_hashMap.map Prod.fst
  have hrange : ∀ s1 j, P s1 j → j < s1.m_priQueue.length := fun _ _ h => h.1
  have hstep : ∀ s1 j c y, P s1 j → SelectedChild comp s1.m_priQueue j c →
      s1.m_priQueue[c]? = some y → comp tmp.second y.second = true →
      P ⟨s1.m_priQueue.set j y, hm_assign s1.m_hashMap y.first (j : Int)⟩ c := by
    intro s1 j c y ⟨hj, hcov, htf, hkeys⟩ _ hy _
    have hc := getElem?_lt hy
    have hyc := hcov y (List.getElem?_mem hy)
    refine ⟨by simpa using hc, ?_, hm_find_assign_ne_none _ _ _ _ htf, ?_⟩
    · intro x hx
      show hm_find (hm_assign s1.m_hashMap y.first (j : Int)) x.first ≠ none
      rcases List.mem_or_eq_of_mem_set hx with h | h
      · exact hm_find_assign_ne_none _ _ _ _ (hcov x h)
      · rw [h]; exact hm_find_assign_ne_none _ _ _ _ hyc
    · show (hm_assign s1.m_hashMap y.first (j : Int)).map Prod.fst = _
      rw [hm_assign_keys _ _ _ hyc, hkeys]
  have hinit : P s n := ⟨hn, hcover, hcover tmp (List.getElem?_mem htmp), rfl⟩
  obtain ⟨s1, j, hloop, ⟨hj, hcov, htf, hkeys⟩, -⟩ :=
    percDown_loop_rule comp tmp P hrange hstep s.m_priQueue.length s n hinit (by omega)
  have hQj : (s1.m_priQueue.set j tmp)[j]? = some tmp := by
    rw [List.getElem?_set, if_pos rfl, if_pos hj]
  refine ⟨fill_hole tmp s1 j, ?_, ?_, ?_⟩
  · unfold _PercDown
    rw [vec_at_nat, htmp]
    simp only [Option.bind_eq_bind, Option.some_bind, hloop, vec_set_nat _ _ _ hj, vec_at_nat,
      hQj]
    rfl
  · show (hm_assign s1.m_hashMap tmp.first (j : Int)).map Prod.fst = _
    rw [hm_assign_keys _ _ _ htf, hkeys]
  · intro x hx
    show hm_find (hm_assign s1.m_hashMap tmp.first (j : Int)) x.first ≠ none
    rcases List.mem_or_eq_of_mem_set hx with h | h
    · exact hm_find_assign_ne_none _ _ _ _ (hcov x h)
    · rw [h]; exact hm_find_assign_ne_none _ _ _ _ htf

theorem buildHeap_from_keys (comp : V → V → Bool) :
    ∀ (n : Nat) (s : priority_map K V), n ≤ s.m_priQueue.length →
      (∀ x ∈ s.m_priQueue, hm_find s.m_hashMap x.first ≠ none) →
      ∃ s1, _BuildHeap_from comp n s = some s1 ∧
        s1.m_hashMap.map Prod.fst = s.m_hashMap.map Prod.fst := by
  intro n
  induction n with
  | zero =>
    intro s _ _
    exact ⟨s, rfl, rfl⟩
  | succ n ih =>
    intro s hn hcover
    obtain ⟨tmp, htmp⟩ : ∃ tmp, s.m_priQueue[n]? = some tmp :=
      ⟨s.m_priQueue[n], List.getElem?_eq_getElem (by omega)⟩
    obtain ⟨s1, h1, h2, h3⟩ := percDown_keys comp s n tmp htmp hcover
    obtain ⟨s0, g1, g2, -, -⟩ := percDown_spec comp s n tmp htmp
    rw [h1] at g1
    cases g1
    obtain ⟨s2, k1, k2⟩ := ih s1 (by rw [g2.length_eq]; omega) h3
    refine ⟨s2, ?_, k2.trans h2⟩
    simp only [_BuildHeap_from, Option.bind_eq_bind, h1, Option.some_bind]
    exact k1

theorem construct_loop_length :
    ∀ (cont : List (K × V)) (index : Int) (s : priority_map K V),
      s.m_hashMap.length = s.m_priQueue.length →
      (construct_loop cont index s).m_hashMap.length =
        (construct_loop cont index s).m_priQueue.length := by
  intro cont
  induction cont with
  | nil => intro index s h; exact h
  | cons p rest ih =>
    intro index s h
    obtain ⟨k, v⟩ := p
    cases hf : hm_find s.m_hashMap k with
    | some j =>
      have hstep : construct_loop ((k, v) :: rest) index s = construct_loop rest (index + 1) s := by
        simp [construct_loop, hm_insert, hf]
      rw [hstep]
      exact ih (index + 1) s h
    | none =>
      have hstep : construct_loop ((k, v) :: rest) index s =
          construct_loop rest (index + 1) ⟨s.m_priQueue ++ [⟨k, v⟩], (k, index) :: s.m_hashMap⟩ := by
        simp [construct_loop, hm_insert, hf]
      rw [hstep]
      exact ih (index + 1) _ (by simp [h])

theorem construct_size (comp : V → V → Bool) (cont : List (K × V)) :
    ∃ s, construct comp cont = some s ∧ SizeConsistent s := by
  obtain ⟨hk, -, -⟩ := construct_loop_spec cont 0 (empty_map : priority_map K V)
    (by intro k; simp [empty_map, hm_find]) (by simp [empty_map])
  have hlen := construct_loop_length cont 0 (empty_map : priority_map K V) rfl
  obtain ⟨s1, g1, g2, -, -⟩ := buildHeap_spec comp (construct_loop cont 0 empty_map)
  have hcover : ∀ x ∈ (construct_loop cont 0 (empty_map : priority_map K V)).m_priQueue,
      hm_find (construct_loop cont 0 (empty_map : priority_map K V)).m_hashMap x.first ≠ none := by
    intro x hx
    exact (hk x.first).2 (List.mem_map_of_mem _ hx)
  have hcl : ∃ c : Nat, (_Father (((construct_loop cont 0
      (empty_map : priority_map K V)).m_priQueue.length : Int) - 1) + 1).toNat = c ∧
      c ≤ (construct_loop cont 0 (empty_map : priority_map K V)).m_priQueue.length := by
    refine ⟨_, rfl, ?_⟩
    cases hl : (construct_loop cont 0 (empty_map : priority_map K V)).m_priQueue.length with
    | zero =>
      have : ((0 : Nat) : Int) - 1 = -1 := by omega
      rw [this, _Father_neg_one]; decide
    | succ m =>
      have : ((m + 1 : Nat) : Int) - 1 = ((m : Nat) : Int) := by omega
      rw [this]
      cases m with
      | zero => rw [show ((0 : Nat) : Int) = 0 from rfl, _Father_zero]; decide
      | succ m => rw [_Father_succ]; omega
  obtain ⟨c, hc, hcle⟩ := hcl
  obtain ⟨s2, k1, k2⟩ := buildHeap_from_keys comp c _ hcle hcover
  have heq : _BuildHeap comp (construct_loop cont 0 (empty_map : priority_map K V)) = some s2 := by
    unfold _BuildHeap
    rw [hc]; exact k1
  rw [g1] at heq
  cases heq
  refine ⟨s1, g1, ?_⟩
  unfold SizeConsistent size
  have h1 := congrArg List.length k2
  simp only [List.length_map] at h1
  rw [h1, hlen, g2.length_eq]

/-- C15. Size consistency: the state returned by bulk construction from any finite input,
and the state returned by each of `insert`, `update`, `replace`, `erase`, `pop` and
`clear` on a state with the index bijection and size consistency, has `size()` equal to
the length of the store, and `empty()` true exactly when the store has length `0`. -/
theorem C15_size_consistency (comp : V → V → Bool) :
    (∀ cont : List (K × V), ∃ s, construct comp cont = some s ∧
      size s = s.m_priQueue.length ∧ (empty s = true ↔ s.m_priQueue.length = 0)) ∧
    (∀ (s : priority_map K V) (k : K) (v : V), IndexBijection s → SizeConsistent s →
      (∃ r, insert comp s k v = some r ∧ size r.1 = r.1.m_priQueue.length ∧
        (empty r.1 = true ↔ r.1.m_priQueue.length = 0)) ∧
      (∃ s1, update comp s k v = some s1 ∧ size s1 = s1.m_priQueue.length ∧
        (empty s1 = true ↔ s1.m_priQueue.length = 0)) ∧
      (∃ r, replace comp s k v = some r ∧ size r.1 = r.1.m_priQueue.length ∧
        (empty r.1 = true ↔ r.1.m_priQueue.length = 0)) ∧
      (∃ s1, erase comp s k = some s1 ∧ size s1 = s1.m_priQueue.length ∧
        (empty s1 = true ↔ s1.m_priQueue.length = 0)) ∧
      (∃ s1, pop comp s = some s1 ∧ size s1 = s1.m_priQueue.length ∧
        (empty s1 = true ↔ s1.m_priQueue.length = 0)) ∧
      size (clear s) = (clear s).m_priQueue.length ∧
      (empty (clear s) = true ↔ (clear s).m_priQueue.length = 0)) := by
  constructor
  · intro cont
    obtain ⟨s, h1, h2⟩ := construct_size comp cont
    exact ⟨s, h1, h2, empty_iff_of_size h2⟩
  · intro s k v hb hs
    obtain ⟨s1, u1, -, -, ua, up, -, us⟩ := update_more comp s hb k v
    have hpop : ∃ s1, pop comp s = some s1 ∧ SizeConsistent s1 := by
      cases hq : s.m_priQueue with
      | nil => exact ⟨s, pop_empty_eq comp s hq, hs⟩
      | cons t l =>
        have ht : s.m_priQueue[0]? = some t := by rw [hq]; simp
        obtain ⟨s2, h1, h2, h3, -, -, -, -⟩ := pop_nonempty_spec comp s hb t ht
        refine ⟨s2, h1, ?_⟩
        by_cases hl : s.m_priQueue.length = 1
        · rw [h2 hl]; rfl
        · obtain ⟨e, s3, -, g2, -, -, -, -, g7⟩ :=
            erase_present_more comp s t.first hb _ (hb.2 0 t ht)
          have := h3 hl
          rw [g2] at this
          cases this
          exact (g7 hs).2
    obtain ⟨s5, p1, p2⟩ := hpop
    have hclear := sizeConsistent_clear s
    cases hf : hm_find s.m_hashMap k with
    | none =>
      refine ⟨⟨(s1, true), (ua hf).1, us hs, empty_iff_of_size (us hs)⟩,
        ⟨s1, u1, us hs, empty_iff_of_size (us hs)⟩,
        ⟨(s, false), ?_, hs, empty_iff_of_size hs⟩,
        ⟨s, erase_absent_eq comp s k hf, hs, empty_iff_of_size hs⟩,
        ⟨s5, p1, p2, empty_iff_of_size p2⟩, hclear, empty_iff_of_size hclear⟩
      rw [replace_eq_update, hf]
    | some i =>
      obtain ⟨e, s4, -, g2, -, -, -, -, g7⟩ := erase_present_more comp s k hb i hf
      have hne : hm_find s.m_hashMap k ≠ none := by rw [hf]; simp
      exact ⟨⟨(s, false), insert_present_eq comp s k v i hf, hs, empty_iff_of_size hs⟩,
        ⟨s1, u1, us hs, empty_iff_of_size (us hs)⟩,
        ⟨(s1, true), (up hne).1, us hs, empty_iff_of_size (us hs)⟩,
        ⟨s4, g2, (g7 hs).2, empty_iff_of_size (g7 hs).2⟩,
        ⟨s5, p1, p2, empty_iff_of_size p2⟩, hclear, empty_iff_of_size hclear⟩

/-- Size consistency after `erase("c")` on the sample state. -/
theorem C15_size_consistency_witness :
    IndexBijection sample_state ∧ SizeConsistent sample_state ∧
    (∃ s1, erase less_int sample_state "c" = some s1 ∧ size s1 = s1.m_priQueue.length ∧
      (empty s1 = true ↔ s1.m_priQueue.length = 0)) :=
  ⟨indexBijection_of_bij_ok _ (by decide), rfl,
    ((C15_size_consistency less_int).2 sample_state "c" 0
      (indexBijection_of_bij_ok _ (by decide)) rfl).2.2.2.1⟩

end Claim15

section Claim16

theorem _Father_pos (i : Int) (hi : 0 < i) : _Father i = (i - 1) / 2 := by
  have h1 : i ≠ 0 := by omega
  unfold _Father
  rw [if_neg h1, Int.tmod_eq_emod (by omega) (by omega), Int.tdiv_eq_ediv (by omega) (by omega),
    Int.tdiv_eq_ediv (by omega) (by omega)]
  split <;> omega

/-- C16. Parent-index formula: for every integer `i > 0`, `_Father(i)`, which the source
computes as `(i%2==0 ? i/2 : (i+1)/2) - 1` with truncating division, equals
`floor((i-1)/2)`; `_Father(0) = -1`; and for every `i ≥ 0`,
`_Father(_LeftChild(i)) = i` and `_Father(_LeftChild(i) + 1) = i`, where
`_LeftChild(i) = 2i+1`. Integers are unbounded here, which is exact wherever the `int`
computation does not overflow. -/
theorem C16_parent_index_formula :
    (∀ i : Int, 0 < i →
      _Father i = (if i.tmod 2 = 0 then i.tdiv 2 else (i + 1).tdiv 2) - 1 ∧
      _Father i = (i - 1).fdiv 2) ∧
    _Father 0 = -1 ∧
    (∀ i : Int, 0 ≤ i → _LeftChild i = 2 * i + 1 ∧
      _Father (_LeftChild i) = i ∧ _Father (_LeftChild i + 1) = i) := by
  refine ⟨?_, _Father_zero, ?_⟩
  · intro i hi
    constructor
    · have h1 : i ≠ 0 := by omega
      unfold _Father
      rw [if_neg h1]
    · rw [_Father_pos i hi, Int.fdiv_eq_ediv _ (by omega)]
  · intro i hi
    refine ⟨rfl, ?_, ?_⟩
    · rw [_Father_pos _ (by unfold _LeftChild; omega)]
      unfold _LeftChild
      omega
    · rw [_Father_pos _ (by unfold _LeftChild; omega)]
      unfold _LeftChild
      omega

/-- The parent of position `6` and the children of position `2`. -/
theorem C16_parent_index_formula_witness :
    (0 : Int) < 6 ∧ _Father 6 = (6 - 1 : Int).fdiv 2 ∧ _Father 6 = 2 ∧
    _Father (_LeftChild 2) = 2 ∧ _Father (_LeftChild 2 + 1) = 2 :=
  ⟨by decide, (C16_parent_index_formula.1 6 (by decide)).2, by decide,
    (C16_parent_index_formula.2.2 2 (by decide)).2.1,
    (C16_parent_index_formula.2.2 2 (by decide)).2.2⟩

end Claim16

section Relocate
variable {K V : Type}

theorem relocate_new {q : List (queue_node K V)} {n : Nat} (last : queue_node K V)
    (hn : n + 1 < q.length) : ((q.set n last).dropLast)[n]? = some last := by
  rw [List.getElem?_dropLast, List.length_set, if_pos (by omega), List.getElem?_set,
    if_pos rfl, if_pos (by omega)]

theorem relocate_agree {q : List (queue_node K V)} {n : Nat} (last : queue_node K V)
    (a : Nat) (x : queue_node K V) (ha : a ≠ n)
    (hx : ((q.set n last).dropLast)[a]? = some x) : q[a]? = some x := by
  have := (getElem?_dropLast_some hx).2
  rw [List.getElem?_set, if_neg (fun h => ha h.symm)] at this
  exact this

end Relocate

section Claim17
variable {K V : Type} [DecidableEq K]

/-- Both `erase` and the reference procedure, on a present key that is not at the last
position, as a choice between `_PercUp` and `_PercDown` on the relocated state. -/
theorem erase_unfold (comp : V → V → Bool) (s : priority_map K V) (k : K)
    (hb : IndexBijection s) (i : Int) (hf : hm_find s.m_hashMap k = some i)
    (hnl : i ≠ (s.m_priQueue.length : Int) - 1) :
    ∃ (n : Nat) (e last : queue_node K V),
      i = (n : Int) ∧ n + 1 < s.m_priQueue.length ∧ s.m_priQueue[n]? = some e ∧
      s.m_priQueue[s.m_priQueue.length - 1]? = some last ∧
      erase comp s k =
        (if comp e.second last.second = true then
          _PercUp comp ⟨(s.m_priQueue.set n last).dropLast,
            hm_assign (hm_erase s.m_hashMap k) last.first (n : Int)⟩ (n : Int)
         else
          _PercDown comp ⟨(s.m_priQueue.set n last).dropLast,
            hm_assign (hm_erase s.m_hashMap k) last.first (n : Int)⟩ (n : Int)) ∧
      erase_reference comp s k =
        (if comp last.second e.second = true then
          _PercDown comp ⟨(s.m_priQueue.set n last).dropLast,
            hm_assign (hm_erase s.m_hashMap k) last.first (n : Int)⟩ (n : Int)
         else
          _PercUp comp ⟨(s.m_priQueue.set n last).dropLast,
            hm_assign (hm_erase s.m_hashMap k) last.first (n : Int)⟩ (n : Int)) := by
  obtain ⟨e, he, -⟩ := hb.1 k i hf
  obtain ⟨hi0, hei⟩ := vec_at_some he
  obtain ⟨n, rfl⟩ : ∃ n : Nat, i = (n : Int) := ⟨i.toNat, by omega⟩
  simp only [Int.toNat_ofNat] at hei
  have hn := getElem?_lt hei
  have hn1 : n + 1 < s.m_priQueue.length := by omega
  have hlenc : (s.m_priQueue.length : Int) - 1 = ((s.m_priQueue.length - 1 : Nat) : Int) := by
    omega
  obtain ⟨last, hl⟩ : ∃ last, s.m_priQueue[s.m_priQueue.length - 1]? = some last :=
    ⟨s.m_priQueue[s.m_priQueue.length - 1], List.getElem?_eq_getElem (by omega)⟩
  refine ⟨n, e, last, rfl, hn1, hei, hl, ?_, ?_⟩
  · unfold erase
    rw [hf]
    simp only
    rw [if_neg hnl, hlenc]
    simp only [Option.bind_eq_bind, vec_at_nat, hei, hl, Option.some_bind,
      vec_set_nat _ _ _ hn]
  · unfold erase_reference
    rw [hf]
    simp only
    rw [if_neg hnl, hlenc]
    simp only [Option.bind_eq_bind, vec_at_nat, hei, hl, Option.some_bind,
      vec_set_nat _ _ _ hn]

/-- C17. `erase` follows the direction rule of the specification: for a strict weak order
`comp`, a state with heap order and the index bijection, and a present key that is not
at the last position, `erase(k)` returns a state, and the reference procedure (relocate
the last node, then sift down if `comp(moved, removed)` and sift up otherwise) returns
the very same state. -/
theorem C17_erase_direction_rule (comp : V → V → Bool) (hswo : StrictWeakOrder comp)
    (s : priority_map K V) (hheap : HeapOrder comp s.m_priQueue) (hbij : IndexBijection s)
    (k : K) (i : Int) (hf : hm_find s.m_hashMap k = some i)
    (hnl : i ≠ (s.m_priQueue.length : Int) - 1) :
    ∃ s1, erase comp s k = some s1 ∧ erase_reference comp s k = some s1 := by
  obtain ⟨n, e, last, -, hn1, he, hl, h1, h2⟩ := erase_unfold comp s k hbij i hf hnl
  have hnew := relocate_new (q := s.m_priQueue) last hn1
  have hagree := relocate_agree (q := s.m_priQueue) (n := n) last
  rw [heapOrder_iff_heapFrom] at hheap
  rw [h1, h2]
  cases hc : comp e.second last.second with
  | true =>
    rw [hswo.asymm _ _ hc]
    simp only [if_true, Bool.false_eq_true, if_false]
    obtain ⟨s1, g1, -⟩ := percUp_spec comp
      ⟨(s.m_priQueue.set n last).dropLast,
        hm_assign (hm_erase s.m_hashMap k) last.first (n : Int)⟩ n last hnew
    exact ⟨s1, g1, g1⟩
  | false =>
    cases hc2 : comp last.second e.second with
    | true =>
      simp only [if_true, Bool.false_eq_true, if_false]
      obtain ⟨s1, g1, -⟩ := percDown_spec comp
        ⟨(s.m_priQueue.set n last).dropLast,
          hm_assign (hm_erase s.m_hashMap k) last.first (n : Int)⟩ n last hnew
      exact ⟨s1, g1, g1⟩
    | false =>
      simp only [Bool.false_eq_true, if_false]
      refine ⟨_, percDown_stop comp _ n last hnew ?_, percUp_stop comp _ n last hnew ?_⟩
      · intro c y hsel hy
        have hrg := SelectedChild_range hsel
        have hy1 := hagree c y (by omega) hy
        obtain ⟨j, rfl⟩ : ∃ j, c = j + 1 := ⟨c - 1, by omega⟩
        have hp : j / 2 = n := by omega
        exact hswo.negtrans _ _ _ hc2 (hheap.pair j (hp ▸ he) hy1)
      · intro j f hj hfj
        have hf1 := hagree (j / 2) f (by omega) hfj
        exact hswo.negtrans _ _ _ (hheap.pair j hf1 (hj ▸ he)) hc

/-- The direction rule on a state where the relocated value ties with the removed one. -/
theorem C17_erase_direction_rule_witness :
    StrictWeakOrder less_int ∧ HeapOrder less_int tie_state.m_priQueue ∧
    IndexBijection tie_state ∧ hm_find tie_state.m_hashMap "a" = some 0 ∧
    (0 : Int) ≠ (tie_state.m_priQueue.length : Int) - 1 ∧
    (∃ s1, erase less_int tie_state "a" = some s1 ∧
      erase_reference less_int tie_state "a" = some s1) :=
  ⟨less_int_swo, heapOrder_of_heap_ok _ _ (by decide), indexBijection_of_bij_ok _ (by decide),
    by decide, by decide,
    C17_erase_direction_rule less_int less_int_swo tie_state
      (heapOrder_of_heap_ok _ _ (by decide)) (indexBijection_of_bij_ok _ (by decide))
      "a" 0 (by decide) (by decide)⟩

end Claim17

section Claim18
variable {K V : Type} [DecidableEq K]

theorem find_frame_refl (s : priority_map K V) (j : K) :
    (find s j = end_ s ↔ find s j = end_ s) ∧ deref s (find s j) = deref s (find s j) :=
  ⟨Iff.rfl, rfl⟩

/-- C18. Other keys are untouched: for a state with the index bijection, a key `k`, a
value `v` and a key `j` different from `k`, each of `insert(k, v)`, `update(k, v)`,
`replace(k, v)` and `erase(k)` returns a state in which `find(j)` is `end()` exactly when
it was before, and points at the same node (same key, same value) as before. -/
theorem C18_other_keys_untouched (comp : V → V → Bool) (s : priority_map K V)
    (hbij : IndexBijection s) (k j : K) (v : V) (hjk : j ≠ k) :
    (∃ r, insert comp s k v = some r ∧
      (find s j = end_ s ↔ find r.1 j = end_ r.1) ∧
      deref r.1 (find r.1 j) = deref s (find s j)) ∧
    (∃ s1, update comp s k v = some s1 ∧
      (find s j = end_ s ↔ find s1 j = end_ s1) ∧
      deref s1 (find s1 j) = deref s (find s j)) ∧
    (∃ r, replace comp s k v = some r ∧
      (find s j = end_ s ↔ find r.1 j = end_ r.1) ∧
      deref r.1 (find r.1 j) = deref s (find s j)) ∧
    (∃ s1, erase comp s k = some s1 ∧
      (find s j = end_ s ↔ find s1 j = end_ s1) ∧
      deref s1 (find s1 j) = deref s (find s j)) := by
  obtain ⟨s1, u1, ub, -, ua, up, uf, -⟩ := update_more comp s hbij k v
  have hu := find_frame hbij ub j (fun x hx => uf x (by rw [hx]; exact hjk))
  have hr := find_frame_refl s j
  cases hf : hm_find s.m_hashMap k with
  | none =>
    refine ⟨⟨(s1, true), (ua hf).1, hu⟩, ⟨s1, u1, hu⟩, ⟨(s, false), ?_, hr⟩,
      ⟨s, erase_absent_eq comp s k hf, hr⟩⟩
    rw [replace_eq_update, hf]
  | some i =>
    have hne : hm_find s.m_hashMap k ≠ none := by rw [hf]; simp
    obtain ⟨e, s2, hek, g2, gperm, gb, -, -, -⟩ := erase_present_more comp s k hbij i hf
    refine ⟨⟨(s, false), insert_present_eq comp s k v i hf, hr⟩, ⟨s1, u1, hu⟩,
      ⟨(s1, true), (up hne).1, hu⟩, ⟨s2, g2, find_frame hbij gb j ?_⟩⟩
    intro x hx
    constructor
    · intro h
      exact gperm.subset (List.mem_cons_of_mem _ h)
    · intro h
      rcases List.mem_cons.1 (gperm.symm.subset h) with h1 | h1
      · exfalso
        rw [h1, hek] at hx
        exact hjk hx.symm
      · exact h1

/-- The key `b` of the sample state while the key `c` is erased. -/
theorem C18_other_keys_untouched_witness :
    IndexBijection sample_state ∧ "b" ≠ "c" ∧
    (∃ s1, erase less_int sample_state "c" = some s1 ∧
      (find sample_state "b" = end_ sample_state ↔ find s1 "b" = end_ s1) ∧
      deref s1 (find s1 "b") = deref sample_state (find sample_state "b")) :=
  ⟨indexBijection_of_bij_ok _ (by decide), by decide,
    (C18_other_keys_untouched less_int sample_state (indexBijection_of_bij_ok _ (by decide))
      "c" "b" 0 (by decide)).2.2.2⟩

end Claim18

section Claim19
variable {K V : Type} [DecidableEq K]

/-- C19. No out-of-range store access: every out-of-range subscript of the store makes an
operation of the embedding return `none`. For a state with the index bijection and size
consistency, `insert`, `update`, `replace`, `erase` and `pop` all return a state;
`find` returns an iterator between `begin()` and `end()` that points at a node unless it
is `end()`; `_PercUp` and `_PercDown` return a state at every position of the store; and
`top()` returns the node at position `0` whenever `empty()` is false. -/
theorem C19_no_out_of_range_access (comp : V → V → Bool) (s : priority_map K V)
    (hbij : IndexBijection s) (hsize : SizeConsistent s) (k : K) (v : V) :
    (∃ r, insert comp s k v = some r) ∧
    (∃ s1, update comp s k v = some s1) ∧
    (∃ r, replace comp s k v = some r) ∧
    (∃ s1, erase comp s k = some s1) ∧
    (∃ s1, pop comp s = some s1) ∧
    (0 ≤ find s k ∧ find s k ≤ end_ s ∧
      (find s k ≠ end_ s → ∃ x, deref s (find s k) = some x)) ∧
    (∀ i : Nat, i < s.m_priQueue.length →
      (∃ s1, _PercUp comp s (i : Int) = some s1) ∧
      (∃ s1, _PercDown comp s (i : Int) = some s1)) ∧
    (empty s = false → ∃ t, top s = some t ∧ s.m_priQueue[0]? = some t) := by
  obtain ⟨⟨r1, a1, -⟩, ⟨s2, b1, -⟩, ⟨r3, c1, -⟩, ⟨s4, d1, -⟩, ⟨s5, e1, -⟩⟩ :=
    mutations_preserve comp s hbij k v
  refine ⟨⟨r1, a1⟩, ⟨s2, b1⟩, ⟨r3, c1⟩, ⟨s4, d1⟩, ⟨s5, e1⟩, ?_, ?_, ?_⟩
  · cases hf : hm_find s.m_hashMap k with
    | none =>
      have := (find_absent hf).1
      rw [this]
      unfold end_
      exact ⟨by omega, le_refl _, fun h => absurd rfl h⟩
    | some i =>
      obtain ⟨x, hx, -⟩ := hbij.1 k i hf
      obtain ⟨hi0, hxi⟩ := vec_at_some hx
      have hlt := getElem?_lt hxi
      have hfind : find s k = i := by
        unfold find
        rw [hf]
      rw [hfind]
      unfold end_
      refine ⟨hi0, by omega, fun _ => ⟨x, hx⟩⟩
  · intro i hi
    have htmp : s.m_priQueue[i]? = some s.m_priQueue[i] := List.getElem?_eq_getElem hi
    obtain ⟨s1, h1, -⟩ := percUp_spec comp s i _ htmp
    obtain ⟨s2, h2, -⟩ := percDown_spec comp s i _ htmp
    exact ⟨⟨s1, h1⟩, ⟨s2, h2⟩⟩
  · intro he
    cases hq : s.m_priQueue with
    | nil =>
      exfalso
      have := (empty_iff_of_size hsize).2 (by rw [hq]; rfl)
      rw [he] at this
      cases this
    | cons t l =>
      have ht : s.m_priQueue[0]? = some t := by rw [hq]; simp
      refine ⟨t, ?_, by rw [← hq]; exact ht⟩
      show vec_at s.m_priQueue ((0 : Nat) : Int) = some t
      rw [vec_at_nat]; exact ht

/-- All operations return on the sample state. -/
theorem C19_no_out_of_range_access_witness :
    IndexBijection sample_state ∧ SizeConsistent sample_state ∧
    (∃ s1, erase less_int sample_state "c" = some s1) ∧
    (∃ s1, pop less_int sample_state = some s1) ∧
    (empty sample_state = false →
      ∃ t, top sample_state = some t ∧ sample_state.m_priQueue[0]? = some t) :=
  ⟨indexBijection_of_bij_ok _ (by decide), rfl,
    (C19_no_out_of_range_access less_int sample_state
      (indexBijection_of_bij_ok _ (by decide)) rfl "c" 0).2.2.2.1,
    (C19_no_out_of_range_access less_int sample_state
      (indexBijection_of_bij_ok _ (by decide)) rfl "c" 0).2.2.2.2.1,
    (C19_no_out_of_range_access less_int sample_state
      (indexBijection_of_bij_ok _ (by decide)) rfl "c" 0).2.2.2.2.2.2.2⟩

end Claim19

section Claim20
variable {K V : Type} [DecidableEq K]

theorem buildHeap_count_le (len : Nat) : (_Father ((len : Int) - 1) + 1).toNat ≤ len := by
  cases len with
  | zero =>
    have : ((0 : Nat) : Int) - 1 = -1 := by omega
    rw [this, _Father_neg_one]; decide
  | succ m =>
    have : ((m + 1 : Nat) : Int) - 1 = ((m : Nat) : Int) := by omega
    rw [this]
    cases m with
    | zero => rw [show ((0 : Nat) : Int) = 0 from rfl, _Father_zero]; decide
    | succ m => rw [_Father_succ]; omega

/-- On a heap-ordered store whose keys are registered at their positions, `_PercDown`
changes nothing. -/
theorem percDown_id (comp : V → V → Bool) (s : priority_map K V)
    (hheap : HeapOrder comp s.m_priQueue)
    (hreg : ∀ (n : Nat) (x : queue_node K V), s.m_priQueue[n]? = some x →
      hm_find s.m_hashMap x.first = some (n : Int))
    (n : Nat) (hn : n < s.m_priQueue.length) : _PercDown comp s (n : Int) = some s := by
  have htmp : s.m_priQueue[n]? = some s.m_priQueue[n] := List.getElem?_eq_getElem hn
  rw [percDown_stop comp s n _ htmp
    (heap_stop_down ((heapOrder_iff_heapFrom _ _).1 hheap) htmp),
    fill_hole_self htmp (hreg n _ htmp)]

theorem buildHeap_from_id (comp : V → V → Bool) (s : priority_map K V)
    (hheap : HeapOrder comp s.m_priQueue)
    (hreg : ∀ (n : Nat) (x : queue_node K V), s.m_priQueue[n]? = some x →
      hm_find s.m_hashMap x.first = some (n : Int)) :
    ∀ n : Nat, n ≤ s.m_priQueue.length → _BuildHeap_from comp n s = some s := by
  intro n
  induction n with
  | zero => intro _; rfl
  | succ n ih =>
    intro hn
    simp only [_BuildHeap_from, Option.bind_eq_bind, percDown_id comp s hheap hreg n (by omega),
      Option.some_bind]
    exact ih (by omega)

/-- The procedure `_BuildHeap` is the identity on a heap-ordered store whose keys are
registered at their positions. -/
theorem buildHeap_id (comp : V → V → Bool) (s : priority_map K V)
    (hheap : HeapOrder comp s.m_priQueue)
    (hreg : ∀ (n : Nat) (x : queue_node K V), s.m_priQueue[n]? = some x →
      hm_find s.m_hashMap x.first = some (n : Int)) :
    _BuildHeap comp s = some s := by
  unfold _BuildHeap
  exact buildHeap_from_id comp s hheap hreg _ (buildHeap_count_le _)

/-- Inserting nodes with pairwise distinct, new keys: every node is appended and
registered at its position. -/
theorem construct_loop_distinct :
    ∀ (l : List (queue_node K V)) (s : priority_map K V) (index : Int),
      index = (s.m_priQueue.length : Int) →
      ((s.m_priQueue ++ l).map queue_node.first).Nodup →
      (∀ k, hm_find s.m_hashMap k ≠ none → k ∈ s.m_priQueue.map queue_node.first) →
      (∀ (n : Nat) (x : queue_node K V), s.m_priQueue[n]? = some x →
        hm_find s.m_hashMap x.first = some (n : Int)) →
      (construct_loop (l.map fun e => (e.first, e.second)) index s).m_priQueue =
        s.m_priQueue ++ l ∧
      (∀ k, hm_find (construct_loop (l.map fun e => (e.first, e.second)) index s).m_hashMap k
          ≠ none → k ∈ (s.m_priQueue ++ l).map queue_node.first) ∧
      (∀ (n : Nat) (x : queue_node K V), (s.m_priQueue ++ l)[n]? = some x →
        hm_find (construct_loop (l.map fun e => (e.first, e.second)) index s).m_hashMap
          x.first = some (n : Int)) ∧
      (construct_loop (l.map fun e => (e.first, e.second)) index s).m_hashMap.length =
        s.m_hashMap.length + l.length := by
  intro l
  induction l with
  | nil =>
    intro s index _ _ hk hreg
    simp only [List.map_nil, construct_loop, List.append_nil, List.length_nil, Nat.add_zero]
    exact ⟨trivial, hk, hreg, trivial⟩
  | cons e l ih =>
    intro s index hidx hnd hk hreg
    have hnotin : e.first ∉ s.m_priQueue.map queue_node.first := by
      intro h
      simp only [List.map_append, List.map_cons] at hnd
      exact (List.nodup_append.1 hnd).2.2 h (List.mem_cons_self _ _)
    have hf : hm_find s.m_hashMap e.first = none := by
      cases h : hm_find s.m_hashMap e.first with
      | none => rfl
      | some i => exact absurd (hk e.first (by rw [h]; simp)) hnotin
    have he : (⟨e.first, e.second⟩ : queue_node K V) = e := by cases e; rfl
    have hstep : construct_loop ((e :: l).map fun e => (e.first, e.second)) index s =
        construct_loop (l.map fun e => (e.first, e.second)) (index + 1)
          ⟨s.m_priQueue ++ [e], (e.first, index) :: s.m_hashMap⟩ := by
      simp [construct_loop, hm_insert, hf, he]
    have happ : (s.m_priQueue ++ [e]) ++ l = s.m_priQueue ++ e :: l := by simp
    rw [hstep]
    obtain ⟨h1, h2, h3, h4⟩ := ih ⟨s.m_priQueue ++ [e], (e.first, index) :: s.m_hashMap⟩
      (index + 1) (by simp [hidx]) (by rw [happ]; exact hnd)
      (by
        intro k hkf
        simp only [hm_find] at hkf
        simp only [List.map_append, List.map_cons, List.map_nil, List.mem_append,
          List.mem_singleton]
        by_cases hek : e.first = k
        · exact Or.inr hek.symm
        · rw [if_neg hek] at hkf
          exact Or.inl (hk k hkf))
      (by
        intro n x hx
        simp only [hm_find]
        have hn := getElem?_lt hx
        simp only [List.length_append, List.length_singleton] at hn
        by_cases hnl : n < s.m_priQueue.length
        · rw [List.getElem?_append_left hnl] at hx
          have hne : e.first ≠ x.first := by
            intro h
            exact hnotin (h ▸ List.mem_map_of_mem _ (List.getElem?_mem hx))
          rw [if_neg hne]
          exact hreg n x hx
        · have hnl2 : n = s.m_priQueue.length := by omega
          subst hnl2
          have : (s.m_priQueue ++ [e])[s.m_priQueue.length]? = some e := by simp
          rw [this] at hx
          cases hx
          rw [if_pos rfl, hidx])
    rw [happ] at h1 h2 h3
    refine ⟨h1, h2, h3, ?_⟩
    rw [h4]
    simp only [List.length_cons]
    omega

/-- Inserting again the nodes of a store with pairwise distinct keys into an empty object
gives the same store, every key registered at its position. -/
theorem construct_loop_copy (q : List (queue_node K V))
    (hnd : (q.map queue_node.first).Nodup) :
    (construct_loop (q.map fun e => (e.first, e.second)) 0
      (empty_map : priority_map K V)).m_priQueue = q ∧
    (∀ k, hm_find (construct_loop (q.map fun e => (e.first, e.second)) 0
      (empty_map : priority_map K V)).m_hashMap k ≠ none → k ∈ q.map queue_node.first) ∧
    (∀ (n : Nat) (x : queue_node K V), q[n]? = some x →
      hm_find (construct_loop (q.map fun e => (e.first, e.second)) 0
        (empty_map : priority_map K V)).m_hashMap x.first = some (n : Int)) ∧
    (construct_loop (q.map fun e => (e.first, e.second)) 0
      (empty_map : priority_map K V)).m_hashMap.length = q.length := by
  have h := construct_loop_distinct q (empty_map : priority_map K V) 0 rfl
    (by simpa [empty_map] using hnd)
    (by intro k hk; simp [empty_map, hm_find] at hk)
    (by intro n x hx; simp [empty_map] at hx)
  simpa [empty_map] using h

/-- C20. Copy by rebuild reproduces the source: for a source state `r` with heap order
and the index bijection, `_Copy` with `UseRef = true` on an empty object (insert the
nodes of `r` again in array order, then `_BuildHeap`) returns a state whose store is the
store of `r` and whose index maps every key as the index of `r` does (and has as many
keys as the store has nodes); `_BuildHeap` is the identity on `r`; and `_Copy` with
`UseRef = false` returns `r` itself. No property of the comparator is needed. -/
theorem C20_copy_by_rebuild (comp : V → V → Bool) (r : priority_map K V)
    (hheap : HeapOrder comp r.m_priQueue) (hbij : IndexBijection r) :
    (∃ s, _Copy comp true empty_map r = some s ∧
      s.m_priQueue = r.m_priQueue ∧
      (∀ k, hm_find s.m_hashMap k = hm_find r.m_hashMap k) ∧
      size s = s.m_priQueue.length) ∧
    _BuildHeap comp r = some r ∧
    _Copy comp false empty_map r = some r := by
  refine ⟨?_, buildHeap_id comp r hheap hbij.2, by simp [_Copy]⟩
  obtain ⟨h1, h2, h3, h4⟩ := construct_loop_copy r.m_priQueue (store_keys_nodup hbij)
  refine ⟨construct_loop (r.m_priQueue.map fun e => (e.first, e.second)) 0 empty_map, ?_, h1,
    ?_, ?_⟩
  · simp only [_Copy, if_true]
    refine buildHeap_id comp _ (by rw [h1]; exact hheap) ?_
    intro n x hx
    rw [h1] at hx
    exact h3 n x hx
  · intro k
    cases hf : hm_find r.m_hashMap k with
    | some i =>
      obtain ⟨x, hx, hxk⟩ := hbij.1 k i hf
      obtain ⟨hi0, hxi⟩ := vec_at_some hx
      have := h3 _ x hxi
      rw [hxk] at this
      rw [this]
      congr 1
      omega
    | none =>
      cases hg : hm_find (construct_loop (r.m_priQueue.map fun e => (e.first, e.second)) 0
          (empty_map : priority_map K V)).m_hashMap k with
      | none => rfl
      | some i =>
        exfalso
        have hmem := h2 k (by rw [hg]; simp)
        obtain ⟨x, hx, hxk⟩ := List.mem_map.1 hmem
        exact (hm_find_none_iff hbij k).1 hf x hx hxk
  · unfold size
    rw [h4, h1]

/-- Copying the sample state by rebuild. -/
theorem C20_copy_by_rebuild_witness :
    HeapOrder less_int sample_state.m_priQueue ∧ IndexBijection sample_state ∧
    (∃ s, _Copy less_int true empty_map sample_state = some s ∧
      s.m_priQueue = sample_state.m_priQueue ∧
      (∀ k, hm_find s.m_hashMap k = hm_find sample_state.m_hashMap k) ∧
      size s = s.m_priQueue.length) ∧
    _BuildHeap less_int sample_state = some sample_state :=
  ⟨heapOrder_of_heap_ok _ _ (by decide), indexBijection_of_bij_ok _ (by decide),
    (C20_copy_by_rebuild less_int sample_state (heapOrder_of_heap_ok _ _ (by decide))
      (indexBijection_of_bij_ok _ (by decide))).1,
    (C20_copy_by_rebuild less_int sample_state (heapOrder_of_heap_ok _ _ (by decide))
      (indexBijection_of_bij_ok _ (by decide))).2.1⟩

end Claim20
end PriorityMap
